import Mathlib

/-!
# Verification of the ml-ontogenesis serialization / plugin core

A shallow embedding of `src/ml_ontogenesis/utilities/parsable.py`,
`src/ml_ontogenesis/utilities/plugin.py` and
`src/ml-ontogenesis/utilities/properties.py`, together with proofs about
the encode / decode / update / equality operations of `GenericParsable`
and the plugin resolution machinery of `PluginBase`.

Python values are modelled by the inductive type `PyVal`; a
`GenericParsable` instance is a `GPObj`: a runtime class name, a module
name, the per-instance registration lists (`_serializable_attributes`,
`_enum_attributes`, `_parsable_attributes`, `_specialized_attributes`,
`_dict_of_parsables`, `_list_of_parsables`, `_desired_order_of_parsing`)
and the attribute store.  Property setters are modelled by the canonical
forms the repository prescribes: plain storing setters for serializable /
collection attributes (the `ParametersBase.debug` pattern), `@enum_setter`
for enum attributes and `@parsable_setter` for nested-parsable attributes
(both decorators are embedded from `properties.py`).  A never-assigned
attribute holds Python `None` (`PyVal.vNone`), and the `has_<name>`
presence query of the canonical pattern reports `_x is not None`.
-/

namespace MLOnt

/-- The registration state a `GenericParsable.__init__` chain builds up:
the six category lists, the explicit parsing order, which attributes
expose a `has_<name>` presence query, which attribute names have a
property setter (`properties.can_set`), and the enum domain
(enum class name, member names in declaration order) attached to each
enum attribute's `@enum_setter`. -/
structure Registration where
  serializable : List String
  enum : List String
  parsable : List String
  specialized : List String
  dictOf : List String
  listOf : List String
  desiredOrder : List String
  hasQuery : List String
  settable : List String
  enumDomains : List (String × String × List String)
  deriving Repr, DecidableEq

/-- A JSON-compatible-or-live Python value as the core manipulates them:
`None`, scalars, enum members (enum class name, member name), lists,
dicts (insertion-ordered association lists), frozensets, numpy arrays
(anything with a `tolist` method), and live `GenericParsable` instances
(class name, module name, registration, attribute store). -/
inductive PyVal where
  | vNone : PyVal
  | vBool (b : Bool) : PyVal
  | vInt (n : Int) : PyVal
  | vStr (s : String) : PyVal
  | vEnum (ename member : String) : PyVal
  | vList (xs : List PyVal) : PyVal
  | vDict (kvs : List (String × PyVal)) : PyVal
  | vSet (xs : List PyVal) : PyVal
  | vArr (xs : List PyVal) : PyVal
  | vObj (cls mod : String) (reg : Registration) (attrs : List (String × PyVal)) : PyVal
  deriving Repr

/-- A live `GenericParsable` instance, bundled. -/
structure GPObj where
  cls : String
  mod : String
  reg : Registration
  attrs : List (String × PyVal)
  deriving Repr

/-- Python dict lookup `d.get(k)` / `d[k]` on an insertion-ordered map. -/
def lookupAttr : List (String × PyVal) → String → Option PyVal
  | [], _ => none
  | (k, v) :: rest, key => if k = key then some v else lookupAttr rest key

/-- Python dict assignment `d[k] = v`: overwrite in place if the key
exists, append otherwise. -/
def dictSet : List (String × PyVal) → String → PyVal → List (String × PyVal)
  | [], key, v => [(key, v)]
  | (k, w) :: rest, key, v =>
    if k = key then (k, v) :: rest else (k, w) :: dictSet rest key v

/-- Python `k in d`. -/
def hasKey (d : List (String × PyVal)) (key : String) : Bool :=
  (lookupAttr d key).isSome

theorem lookupAttr_sizeOf {l : List (String × PyVal)} {k : String} {v : PyVal}
    (h : lookupAttr l k = some v) : sizeOf v < sizeOf l := by
  induction l with
  | nil => simp [lookupAttr] at h
  | cons hd tl ih =>
    rw [lookupAttr] at h
    by_cases hk : hd.1 = k
    · simp [hk] at h
      subst h
      cases hd
      simp
      omega
    · simp [hk] at h
      have := ih h
      cases hd
      simp
      omega

theorem lookupAttr_dictSet (l : List (String × PyVal)) (k k' : String) (v : PyVal) :
    lookupAttr (dictSet l k v) k' = if k' = k then some v else lookupAttr l k' := by
  induction l with
  | nil =>
    by_cases h : k' = k <;> simp [dictSet, lookupAttr, h]
    exact fun h' => absurd h'.symm h
  | cons hd tl ih =>
    have hne : ∀ a b : String, ¬ a = b → ¬ b = a := fun _ _ h h' => h h'.symm
    by_cases hk : hd.1 = k
    · by_cases h' : k' = k
      · subst h'
        simp [dictSet, hk, lookupAttr]
      · simp [dictSet, hk, lookupAttr, h', hne _ _ h']
    · by_cases h' : k' = k
      · subst h'
        simp [dictSet, hk, lookupAttr, ih, hk]
      · simp [dictSet, hk, lookupAttr, ih, h']

theorem lookupAttr_isSome_sizeOf {l : List (String × PyVal)} {k : String}
    (h : (lookupAttr l k).isSome) : sizeOf ((lookupAttr l k).getD PyVal.vNone) < sizeOf l := by
  cases hl : lookupAttr l k with
  | none => rw [hl] at h; simp at h
  | some v => simpa using lookupAttr_sizeOf hl

theorem getAttrD_sizeOf (l : List (String × PyVal)) (k : String) :
    sizeOf ((lookupAttr l k).getD PyVal.vNone) ≤ sizeOf l := by
  cases hl : lookupAttr l k with
  | none =>
    cases l <;> simp [PyVal.vNone.sizeOf_spec] <;> omega
  | some v =>
    have := lookupAttr_sizeOf hl
    simp
    omega

/-- The errors the core raises, one constructor per raise site / taxonomy
entry (`loghandler.log_and_raise` and `raise RuntimeError(loghandler.error(...))`
sites; logging itself is dropped by the model). -/
inductive PyErr where
  /-- `ValueError` from `split_ordered_and_unordered_attributes` (the
  spec's OrderingError), carrying the offending explicit names. -/
  | orderingError (missing : List String)
  /-- `RuntimeError` "The property [..] doesn't exist!" in
  `from_dict` / `update` (the spec's UnknownAttribute). -/
  | unknownAttribute (name : String)
  /-- `AttributeError` for a missing `<name>_encode` / `<name>_decode`
  (the spec's MissingCodec). -/
  | missingCodec (name : String)
  /-- `TypeError` from `enum_parse` (the spec's EnumDomainError). -/
  | enumDomainError (name : String)
  /-- `TypeError` from a validating setter or a non-string module/class
  name reaching `importlib` (the spec's TypeMismatch). -/
  | typeMismatch
  /-- `RuntimeError` "Subclass [..] is not registered" in `PluginBase.lookup`
  (the spec's UnresolvedPlugin). -/
  | unresolvedPlugin (name : String)
  /-- `ModuleNotFoundError` escaping `importlib.import_module` in
  `PluginBase.get_class` (uncaught there). -/
  | importError (module : String)
  /-- `AttributeError` from `getattr(imported_module, class_name)` or a
  missing `.name` / `.to_dict` on a value. -/
  | attributeError (name : String)
  /-- `RuntimeError` from `ParsableProperty.get_required_arguments_for_init`
  (the spec's MissingRequiredArguments). -/
  | missingRequiredArguments (required provided : List String)
  /-- `RuntimeError` re-raised by `ParsableProperty.parse` /
  `get_class_type` when `throw_if_unable_to_parse` is set. -/
  | hydrationError
  deriving Repr, DecidableEq

/-- `properties.generic_parsable_type`. -/
def generic_parsable_type : String := "parsable_type"

/-- `properties.generic_parsable_module`. -/
def generic_parsable_module : String := "parsable_module"

/-- `value is None` (an attribute slot holding Python `None` is the
never-assigned state of the canonical `_x = None` pattern). -/
def isNoneV : PyVal → Bool
  | .vNone => true
  | _ => false

/-- `self.__getattribute__(name)` for the canonical stored-attribute
pattern: the stored value, `None` when never assigned. -/
def getAttrVal (attrs : List (String × PyVal)) (name : String) : PyVal :=
  (lookupAttr attrs name).getD .vNone

/-- The canonical presence query `has_<name>`, reporting
`self._<name> is not None`. -/
def hasAttrVal (attrs : List (String × PyVal)) (name : String) : Bool :=
  !(isNoneV (getAttrVal attrs name))

/-- The presence guard shared by all six `to_dict_*` emitters: emit iff
the object lacks a `has_<name>` query, or that query reports `True`. -/
def presentForEmit (reg : Registration) (attrs : List (String × PyVal)) (name : String) : Bool :=
  if reg.hasQuery.contains name then hasAttrVal attrs name else true

/-- The enum domain wired into an enum attribute's `@enum_setter`:
the enum class name and its member names in declaration order
(`auto()`-valued, so the value of member `i` is `i + 1`). -/
def findEnumDomain (reg : Registration) (name : String) : Option (String × List String) :=
  (reg.enumDomains.find? (fun p => p.1 == name)).map (·.2)

mutual

/-- `properties.enum_parse` over a single enum domain (`members` in
declaration order with `auto()` values `1..n`): lists recurse
elementwise, an instance of the enum type or `None` passes through, a
string resolves by member name, an integer by member value, anything
else is a `TypeError`. -/
def enum_parse (ename : String) (members : List String) : PyVal → Except PyErr PyVal
  | .vList xs => (enum_parse_list ename members xs).map .vList
  | .vEnum e m => if e = ename then .ok (.vEnum e m) else .error (.enumDomainError ename)
  | .vNone => .ok .vNone
  | .vStr s => if members.contains s then .ok (.vEnum ename s) else .error (.enumDomainError ename)
  | .vInt i =>
    if 0 < i ∧ i ≤ (members.length : Int) then
      .ok (.vEnum ename (members.getD (i - 1).toNat ""))
    else .error (.enumDomainError ename)
  | _ => .error (.enumDomainError ename)

/-- `[enum_parse(enum_type, x) for x in input_value]`. -/
def enum_parse_list (ename : String) (members : List String) : List PyVal → Except PyErr (List PyVal)
  | [] => .ok []
  | x :: rest => do
    let y ← enum_parse ename members x
    let ys ← enum_parse_list ename members rest
    .ok (y :: ys)

end

/-- `GenericParsable.collect_all_attributes`: the six category lists
concatenated in registration order. -/
def collect_all_attributes (reg : Registration) : List String :=
  reg.serializable ++ reg.enum ++ reg.parsable ++ reg.specialized ++ reg.dictOf ++ reg.listOf

/-- `GenericParsable.split_ordered_and_unordered_attributes`: the numpy
membership tests `np.in1d` are modelled by list filters, which preserve
order and multiplicity exactly as the `argwhere`-based indexing does. -/
def split_ordered_and_unordered_attributes (reg : Registration) :
    Except PyErr (List String × List String) :=
  let ordered := reg.desiredOrder
  let all := collect_all_attributes reg
  if ordered = [] then .ok ([], all)
  else
    let missing := ordered.filter (fun a => !(all.contains a))
    if missing = [] then
      .ok (ordered, all.filter (fun a => !(ordered.contains a)))
    else .error (.orderingError missing)

/-- A Python class as `inspect.signature` sees it: its name, the names of
its own `__init__` parameters that have no default (excluding `self` and
`*args`/`**kwargs`), and its base classes (`class_type.__bases__`). -/
inductive PyClass where
  | mk (name : String) (ownRequired : List String) (bases : List PyClass)

def PyClass.name : PyClass → String
  | .mk n _ _ => n

def PyClass.ownRequired : PyClass → List String
  | .mk _ own _ => own

mutual

/-- `properties.required_parameter_for_class_init`: the union, over the
class and its ancestry, of the non-defaulted `__init__` parameter names.
The source accumulates into a Python `set` and returns `list(...)`, whose
order is unspecified; the model returns the deduplicated accumulation
order, and all theorems use it only up to membership. -/
def required_parameter_for_class_init : PyClass → List String
  | .mk _ own bases => (own ++ requiredParamsOfBases bases).dedup

/-- The `for base in class_type.__bases__` union loop. -/
def requiredParamsOfBases : List PyClass → List String
  | [] => []
  | c :: rest => required_parameter_for_class_init c ++ requiredParamsOfBases rest

end

/-- `ParsableProperty.get_required_arguments_for_init`: fail unless every
required argument is a key of the input dict, else return the required
sub-dict. -/
def get_required_arguments_for_init (pc : PyClass) (input_dict : List (String × PyVal)) :
    Except PyErr (List (String × PyVal)) :=
  let required := required_parameter_for_class_init pc
  if required.all (fun r => hasKey input_dict r) then
    .ok (required.map (fun r => (r, (lookupAttr input_dict r).getD .vNone)))
  else .error (.missingRequiredArguments required (input_dict.map (·.1)))

/-- A `<name>_encode` / `<name>_decode` pair provided by a concrete
class for a specialized attribute.  `dec` yields the value the decoding
method stores into the attribute. -/
structure Codec where
  enc : PyVal → PyVal
  dec : PyVal → PyVal

/-- What the interpreter knows about one importable concrete class: the
fresh-instance state its `__init__` chain produces when called with no
arguments (registration lists populated, attribute slots unassigned),
and its constructor-signature tree for `inspect.signature` introspection. -/
structure ClassDef where
  template : GPObj
  pyClass : PyClass

/-- The interpreter environment the dynamic-load and codec machinery
consults: which modules are importable and which class names each
defines, the definition of each (globally uniquely named) class, and the
specialized codecs, keyed by (class name, attribute name). -/
structure Env where
  modules : List (String × List String)
  classes : List (String × ClassDef)
  codecs : List ((String × String) × Codec)

/-- `importlib.import_module`: the class names the module defines. -/
def findModule (env : Env) (m : String) : Option (List String) :=
  (env.modules.find? (fun p => p.1 == m)).map (·.2)

/-- Resolve a class name to its definition. -/
def findClass (env : Env) (c : String) : Option ClassDef :=
  (env.classes.find? (fun p => p.1 == c)).map (·.2)

/-- `hasattr(self, name + '_encode')` / `..._decode` and the retrieval of
the codec pair, keyed by the object's concrete class. -/
def findCodec (env : Env) (cls name : String) : Option Codec :=
  (env.codecs.find? (fun p => p.1.1 == cls && p.1.2 == name)).map (·.2)

/-- `ParsableProperty.get_class_and_module_strings` with the default
keyword names: deduce `(class_str, module_str)`.  An explicit
`parsable_module` / `parsable_class` argument must be a string, else it
is ignored (or raises when `throw_if_unable_to_parse`); otherwise the
reserved key of the input dict is used; a key absent from the dict
raises only when `throw_if_unable_to_parse`. -/
def get_class_and_module_strings (input_value : List (String × PyVal))
    (parsable_module parsable_class : Option PyVal) (throw : Bool) :
    Except PyErr (Option PyVal × Option PyVal) := do
  let module_str : Option PyVal ←
    match parsable_module with
    | some pv =>
      match pv with
      | .vStr s => pure (some (.vStr s))
      | _ => if throw then .error .hydrationError else pure none
    | none =>
      match lookupAttr input_value generic_parsable_module with
      | some w => pure (some w)
      | none => if throw then .error .hydrationError else pure none
  let class_str : Option PyVal ←
    match parsable_class with
    | some pv =>
      match pv with
      | .vStr s => pure (some (.vStr s))
      | _ => if throw then .error .hydrationError else pure none
    | none =>
      match lookupAttr input_value generic_parsable_type with
      | some w => pure (some w)
      | none => if throw then .error .hydrationError else pure none
  pure (class_str, module_str)

/-- `importlib.import_module(module_str)` followed by
`getattr(imported_module, class_str)`: succeeds iff both names are
strings, the module is importable and defines the class. -/
def resolveClassType (env : Env) (modv clsv : PyVal) : Option String :=
  match modv, clsv with
  | .vStr ms, .vStr cs =>
    match findModule env ms with
    | some clsNames => if clsNames.contains cs then some cs else none
    | none => none
  | _, _ => none

/-- `ParsableProperty.get_class_type` with the default keyword names: an
explicit `class_type` short-circuits resolution entirely; otherwise the
deduced module/class strings are imported, any failure being swallowed
into `None` unless `throw_if_unable_to_parse`. -/
def get_class_type (env : Env) (input_value : List (String × PyVal))
    (parsable_module parsable_class : Option PyVal) (throw : Bool)
    (class_type : Option String) : Except PyErr (Option String) :=
  match class_type with
  | some c => .ok (some c)
  | none => do
    let (class_str, module_str) ←
      get_class_and_module_strings input_value parsable_module parsable_class throw
    match module_str, class_str with
    | some mv, some cv =>
      match resolveClassType env mv cv with
      | some c => .ok (some c)
      | none => if throw then .error .hydrationError else .ok none
    | _, _ => .ok none

theorem getAttrVal_sizeOf (l : List (String × PyVal)) (k : String) :
    sizeOf (getAttrVal l k) ≤ sizeOf l := getAttrD_sizeOf l k

/-- The value flattening inside `to_dict_serializable`: anything with a
`tolist` method is flattened to a plain list, and a `frozenset` is
converted by `list(value)`. -/
def flattenSerializable : PyVal → PyVal
  | .vArr xs => .vList xs
  | .vSet xs => .vList xs
  | v => v

/-- `GenericParsable.to_dict_serializable`: emit the (flattened) raw
value under the presence guard. -/
def to_dict_serializable (reg : Registration) (attrs : List (String × PyVal))
    (out : List (String × PyVal)) (name : String) : List (String × PyVal) :=
  if presentForEmit reg attrs name then
    dictSet out name (flattenSerializable (getAttrVal attrs name))
  else out

/-- The `for property_name in self._serializable_attributes` loop of
`to_dict`. -/
def encSerNames (reg : Registration) (attrs : List (String × PyVal)) :
    List String → List (String × PyVal) → List (String × PyVal)
  | [], out => out
  | n :: rest, out => encSerNames reg attrs rest (to_dict_serializable reg attrs out n)

/-- `GenericParsable.to_dict_enum`: emit `value.name` under the presence
guard; reading `.name` off a non-enum value is an `AttributeError`. -/
def to_dict_enum (reg : Registration) (attrs : List (String × PyVal))
    (out : List (String × PyVal)) (name : String) : Except PyErr (List (String × PyVal)) :=
  if presentForEmit reg attrs name then
    match getAttrVal attrs name with
    | .vEnum _ m => .ok (dictSet out name (.vStr m))
    | _ => .error (.attributeError name)
  else .ok out

/-- The `for property_name in self._enum_attributes` loop of `to_dict`. -/
def encEnumNames (reg : Registration) (attrs : List (String × PyVal)) :
    List String → List (String × PyVal) → Except PyErr (List (String × PyVal))
  | [], out => .ok out
  | n :: rest, out => do
    let out' ← to_dict_enum reg attrs out n
    encEnumNames reg attrs rest out'

/-- `GenericParsable.to_dict_specialized`: a missing `<name>_encode` is
an `AttributeError` before any presence check; otherwise emit the
codec's encoding of the value under the presence guard. -/
def to_dict_specialized (env : Env) (cls : String) (reg : Registration)
    (attrs : List (String × PyVal)) (out : List (String × PyVal)) (name : String) :
    Except PyErr (List (String × PyVal)) :=
  match findCodec env cls name with
  | some cd =>
    if presentForEmit reg attrs name then
      .ok (dictSet out name (cd.enc (getAttrVal attrs name)))
    else .ok out
  | none => .error (.missingCodec name)

/-- The `for property_name in self._specialized_attributes` loop of
`to_dict`. -/
def encSpecNames (env : Env) (cls : String) (reg : Registration) (attrs : List (String × PyVal)) :
    List String → List (String × PyVal) → Except PyErr (List (String × PyVal))
  | [], out => .ok out
  | n :: rest, out => do
    let out' ← to_dict_specialized env cls reg attrs out n
    encSpecNames env cls reg attrs rest out'

/-- `list(item)` for a string, as `serialized_list` receives it when a
`_list_of_parsables` attribute holds a `str` (strings are `Sequence`
instances): the list of one-character strings.  No such element has a
`to_dict` or `tolist` method, so `serialized_list` passes each through
unchanged; this function is that specialization. -/
def serializedChars (s : String) : List PyVal :=
  s.toList.map (fun c => .vStr (String.singleton c))

mutual

/-- `GenericParsable.to_dict`: the type tag keys first (`output` is a
fresh dict, so the two assignments produce exactly this two-entry map),
then the six category loops in source order. -/
def to_dict (env : Env) (o : GPObj) : Except PyErr (List (String × PyVal)) := do
  let out0 : List (String × PyVal) :=
    [(generic_parsable_type, .vStr o.cls), (generic_parsable_module, .vStr o.mod)]
  let out1 := encSerNames o.reg o.attrs o.reg.serializable out0
  let out2 ← encEnumNames o.reg o.attrs o.reg.enum out1
  let out3 ← encParsNames env o.reg o.attrs o.reg.parsable out2
  let out4 ← encDictNames env o.reg o.attrs o.reg.dictOf out3
  let out5 ← encListNames env o.reg o.attrs o.reg.listOf out4
  encSpecNames env o.cls o.reg o.attrs o.reg.specialized out5
termination_by (sizeOf o.attrs, 2, 0)

/-- The `_parsable_attributes` loop: `to_dict_parsable` per name, where
the recursive `value.to_dict()` on a non-parsable value is an
`AttributeError`. -/
def encParsNames (env : Env) (reg : Registration) (attrs : List (String × PyVal)) :
    List String → List (String × PyVal) → Except PyErr (List (String × PyVal))
  | [], out => .ok out
  | n :: rest, out =>
    if presentForEmit reg attrs n then
      match hg : getAttrVal attrs n with
      | .vObj c m r a => do
        let d ← to_dict env ⟨c, m, r, a⟩
        encParsNames env reg attrs rest (dictSet out n (.vDict d))
      | _ => .error (.attributeError n)
    else encParsNames env reg attrs rest out
termination_by names _ => (sizeOf attrs, 1, names.length)
decreasing_by
  · apply Prod.Lex.left
    have h1 := getAttrVal_sizeOf attrs n
    rw [hg] at h1
    simp at h1
    omega
  · apply Prod.Lex.right
    apply Prod.Lex.right
    simp
  · apply Prod.Lex.right
    apply Prod.Lex.right
    simp

/-- The `_dict_of_parsables` loop: `to_dict_dict_of_parsable` per name;
a present value that is not a dict emits nothing. -/
def encDictNames (env : Env) (reg : Registration) (attrs : List (String × PyVal)) :
    List String → List (String × PyVal) → Except PyErr (List (String × PyVal))
  | [], out => .ok out
  | n :: rest, out =>
    if presentForEmit reg attrs n then
      match hg : getAttrVal attrs n with
      | .vDict kvs => do
        let s ← serialized_dict env kvs
        encDictNames env reg attrs rest (dictSet out n (.vDict s))
      | _ => encDictNames env reg attrs rest out
    else encDictNames env reg attrs rest out
termination_by names _ => (sizeOf attrs, 1, names.length)
decreasing_by
  · apply Prod.Lex.left
    have h1 := getAttrVal_sizeOf attrs n
    rw [hg] at h1
    simp at h1
    omega
  all_goals
    apply Prod.Lex.right
    apply Prod.Lex.right
    simp

/-- The `_list_of_parsables` loop: `to_dict_list_of_parsable` per name;
`Sequence`, `set` and `frozenset` values are serialized elementwise (a
string elementwise over its characters), anything else emits nothing. -/
def encListNames (env : Env) (reg : Registration) (attrs : List (String × PyVal)) :
    List String → List (String × PyVal) → Except PyErr (List (String × PyVal))
  | [], out => .ok out
  | n :: rest, out =>
    if presentForEmit reg attrs n then
      match hg : getAttrVal attrs n with
      | .vList xs => do
        let s ← serialized_list env xs
        encListNames env reg attrs rest (dictSet out n (.vList s))
      | .vSet xs => do
        let s ← serialized_list env xs
        encListNames env reg attrs rest (dictSet out n (.vList s))
      | .vStr s =>
        encListNames env reg attrs rest (dictSet out n (.vList (serializedChars s)))
      | _ => encListNames env reg attrs rest out
    else encListNames env reg attrs rest out
termination_by names _ => (sizeOf attrs, 1, names.length)
decreasing_by
  · apply Prod.Lex.left
    have h1 := getAttrVal_sizeOf attrs n
    rw [hg] at h1
    simp at h1
    omega
  · apply Prod.Lex.right
    apply Prod.Lex.right
    simp
  · apply Prod.Lex.left
    have h1 := getAttrVal_sizeOf attrs n
    rw [hg] at h1
    simp at h1
    omega
  all_goals
    apply Prod.Lex.right
    apply Prod.Lex.right
    simp

/-- `GenericParsable.serialized_dict`: values with a `to_dict` method
are encoded recursively, values with `tolist` are flattened, the rest
pass through unchanged, keys preserved in order. -/
def serialized_dict (env : Env) :
    List (String × PyVal) → Except PyErr (List (String × PyVal))
  | [] => .ok []
  | (k, v) :: rest =>
    match v with
    | .vObj c m r a => do
      let d ← to_dict env ⟨c, m, r, a⟩
      let rest' ← serialized_dict env rest
      .ok ((k, .vDict d) :: rest')
    | .vArr xs => do
      let rest' ← serialized_dict env rest
      .ok ((k, .vList xs) :: rest')
    | _ => do
      let rest' ← serialized_dict env rest
      .ok ((k, v) :: rest')
termination_by kvs => (sizeOf kvs, 0, 0)
decreasing_by
  all_goals
    apply Prod.Lex.left
    simp
    try omega

/-- `GenericParsable.serialized_list`: elementwise, same rules as
`serialized_dict`. -/
def serialized_list (env : Env) : List PyVal → Except PyErr (List PyVal)
  | [] => .ok []
  | v :: rest =>
    match v with
    | .vObj c m r a => do
      let d ← to_dict env ⟨c, m, r, a⟩
      let rest' ← serialized_list env rest
      .ok (.vDict d :: rest')
    | .vArr xs => do
      let rest' ← serialized_list env rest
      .ok (.vList xs :: rest')
    | _ => do
      let rest' ← serialized_list env rest
      .ok (v :: rest')
termination_by xs => (sizeOf xs, 0, 0)
decreasing_by
  all_goals
    apply Prod.Lex.left
    simp
    try omega

end

/-- Python runtime type tags, for the `type(x) != type(y)` tests: each
enum class and each `GenericParsable` subclass is its own runtime type. -/
inductive PyTy where
  | tNone : PyTy
  | tBool : PyTy
  | tInt : PyTy
  | tStr : PyTy
  | tList : PyTy
  | tDict : PyTy
  | tSet : PyTy
  | tArr : PyTy
  | tEnum (ename : String) : PyTy
  | tObj (cls : String) : PyTy
  deriving Repr, DecidableEq

/-- `type(v)`. -/
def pyType : PyVal → PyTy
  | .vNone => .tNone
  | .vBool _ => .tBool
  | .vInt _ => .tInt
  | .vStr _ => .tStr
  | .vEnum e _ => .tEnum e
  | .vList _ => .tList
  | .vDict _ => .tDict
  | .vSet _ => .tSet
  | .vArr _ => .tArr
  | .vObj c _ _ _ => .tObj c

/-- The second half of `equals_property_name`: fetch both values and
short-circuit to not-equal when their runtime types differ, else hand
the pair back for structural comparison. -/
def equalsPropertyValues (a b : GPObj) (name : String) : PyVal × PyVal × Option Bool :=
  let sv := getAttrVal a.attrs name
  let ov := getAttrVal b.attrs name
  if pyType sv ≠ pyType ov then (.vNone, .vNone, some false)
  else (sv, ov, none)

/-- `GenericParsable.equals_property_name`: when the attribute exposes a
presence query, both-absent short-circuits to equal and a presence
disagreement to not-equal; otherwise the stored values are fetched and
compared by runtime type first. -/
def equals_property_name (a b : GPObj) (name : String) : PyVal × PyVal × Option Bool :=
  if a.reg.hasQuery.contains name then
    let selfHas := hasAttrVal a.attrs name
    let otherHas := hasAttrVal b.attrs name
    if !selfHas && !otherHas then (.vNone, .vNone, some true)
    else if selfHas != otherHas then (.vNone, .vNone, some false)
    else equalsPropertyValues a b name
  else equalsPropertyValues a b name

theorem equals_property_name_none {a b : GPObj} {n : String} {sv ov : PyVal}
    (h : equals_property_name a b n = (sv, ov, none)) :
    sv = getAttrVal a.attrs n ∧ ov = getAttrVal b.attrs n := by
  unfold equals_property_name equalsPropertyValues at h
  dsimp only at h
  split at h
  · split at h
    · simp at h
    · split at h
      · simp at h
      · split at h
        · simp at h
        · rw [Prod.ext_iff, Prod.ext_iff] at h
          exact ⟨h.1.symm, h.2.1.symm⟩
  · split at h
    · simp at h
    · rw [Prod.ext_iff, Prod.ext_iff] at h
      exact ⟨h.1.symm, h.2.1.symm⟩

mutual

/-- `GenericParsable.equals`: false on a runtime-type mismatch, else the
six category loops in source order (serializable, enum, parsable,
dict-of, list-of, specialized), each short-circuiting on the first
inequality. -/
def equals (a b : GPObj) : Bool :=
  if a.cls ≠ b.cls then false
  else
    eqFold a b a.reg.serializable && eqFold a b a.reg.enum &&
    eqFold a b a.reg.parsable && eqFold a b a.reg.dictOf &&
    eqFold a b a.reg.listOf && eqFold a b a.reg.specialized
termination_by (sizeOf a.attrs, 3, 0)
decreasing_by
  all_goals
    apply Prod.Lex.right
    apply Prod.Lex.left
    omega

/-- One `for property_name in ...` loop of `equals`: continue on the
`True` tri-state, fail on `False`, and otherwise compare the fetched
values with `equal`. -/
def eqFold (a b : GPObj) : List String → Bool
  | [] => true
  | n :: rest =>
    match hm : equals_property_name a b n with
    | (_, _, some true) => eqFold a b rest
    | (_, _, some false) => false
    | (sv, ov, none) => equalVal sv ov && eqFold a b rest
termination_by names => (sizeOf a.attrs, 2, names.length)
decreasing_by
  · apply Prod.Lex.right
    apply Prod.Lex.right
    simp
  · have h2 := (equals_property_name_none hm).1
    have h3 : sizeOf sv ≤ sizeOf a.attrs := by
      rw [h2]
      exact getAttrVal_sizeOf _ _
    rcases lt_or_eq_of_le h3 with h4 | h4
    · exact Prod.Lex.left _ _ h4
    · rw [h4]
      exact Prod.Lex.right _ (Prod.Lex.left _ _ (by omega))
  · apply Prod.Lex.right
    apply Prod.Lex.right
    simp

/-- Modelled from the spec: the `equal` helper from the repository's
`utilities/equality` module, which is referenced by
`utilities/__init__.py` but absent from the available sources.  Per
§4.5 of the spec it structurally compares two values, "recursing into
nested-object / map-of-nested-object / sequence-of-nested-object values
via their own `equals`": nested `GenericParsable` instances compare via
`equals`, containers compare elementwise (maps by key and value in
order), scalars compare componentwise, and differently-shaped values
are unequal. -/
def equalVal : PyVal → PyVal → Bool
  | .vObj c1 m1 r1 a1, .vObj c2 m2 r2 a2 => equals ⟨c1, m1, r1, a1⟩ ⟨c2, m2, r2, a2⟩
  | .vList xs, .vList ys => equalValList xs ys
  | .vDict xs, .vDict ys => equalValKV xs ys
  | .vSet xs, .vSet ys => equalValList xs ys
  | .vArr xs, .vArr ys => equalValList xs ys
  | .vNone, .vNone => true
  | .vBool x, .vBool y => x == y
  | .vInt x, .vInt y => x == y
  | .vStr x, .vStr y => x == y
  | .vEnum e1 n1, .vEnum e2 n2 => e1 == e2 && n1 == n2
  | _, _ => false
termination_by x _ => (sizeOf x, 1, 0)
decreasing_by
  all_goals
    apply Prod.Lex.left
    simp
    try omega

/-- Elementwise structural comparison of two sequences. -/
def equalValList : List PyVal → List PyVal → Bool
  | [], [] => true
  | x :: r1, y :: r2 => equalVal x y && equalValList r1 r2
  | _, _ => false
termination_by xs _ => (sizeOf xs, 0, 0)
decreasing_by
  all_goals
    apply Prod.Lex.left
    simp
    try omega

/-- Pairwise structural comparison of two maps, key order significant. -/
def equalValKV : List (String × PyVal) → List (String × PyVal) → Bool
  | [], [] => true
  | (k1, v1) :: r1, (k2, v2) :: r2 => k1 == k2 && equalVal v1 v2 && equalValKV r1 r2
  | _, _ => false
termination_by xs _ => (sizeOf xs, 0, 0)
decreasing_by
  all_goals
    apply Prod.Lex.left
    simp
    try omega

end

/-- The `only_if_missing` gate shared by the `update_*_property`
methods: skip the attribute when updating only-if-missing and the
attribute both exposes a presence query and reports present. -/
def skipGate (reg : Registration) (attrs : List (String × PyVal))
    (only_if_missing : Bool) (name : String) : Bool :=
  only_if_missing && reg.hasQuery.contains name && hasAttrVal attrs name

/-- `GenericParsable.from_dict_specialized`: if the key is present, a
missing `<name>_decode` is an `AttributeError`; otherwise the decoding
method stores its result into the attribute. -/
def from_dict_specialized_step (env : Env) (cls : String) (attrs : List (String × PyVal))
    (d : List (String × PyVal)) (n : String) : Except PyErr (List (String × PyVal)) :=
  match lookupAttr d n with
  | none => .ok attrs
  | some v =>
    match findCodec env cls n with
    | some cd => .ok (dictSet attrs n (cd.dec v))
    | none => .error (.missingCodec n)

/-- `GenericParsable.update_specialized_property`: a missing
`<name>_decode` is an `AttributeError` even before the only-if-missing
gate; then gate, then decode-and-store if the key is present. -/
def update_specialized_step (env : Env) (cls : String) (reg : Registration)
    (attrs : List (String × PyVal)) (only_if_missing : Bool)
    (d : List (String × PyVal)) (n : String) : Except PyErr (List (String × PyVal)) :=
  match findCodec env cls n with
  | none => .error (.missingCodec n)
  | some cd =>
    if skipGate reg attrs only_if_missing n then .ok attrs
    else
      match lookupAttr d n with
      | none => .ok attrs
      | some v => .ok (dictSet attrs n (cd.dec v))

mutual

/-- The property setter `self.__setattr__(name, v)` dispatches to, in
the canonical wiring the source prescribes: a `@parsable_setter` for
`_parsable_attributes` (a dict value is routed through
`ParsableProperty.parse` with all-default arguments before storage), an
`@enum_setter` over the attribute's declared domain for
`_enum_attributes` (an attribute with no declared domain stores
unconverted), and a plain validating-and-storing setter for everything
else. -/
def assignAttr (env : Env) (reg : Registration) (attrs : List (String × PyVal))
    (name : String) (v : PyVal) : Except PyErr (List (String × PyVal)) :=
  if reg.parsable.contains name then
    match v with
    | .vDict kvs => do
      let w ← parseProp env kvs none none false none
      .ok (dictSet attrs name w)
    | _ => .ok (dictSet attrs name v)
  else if reg.enum.contains name then
    match findEnumDomain reg name with
    | some dom => do
      let w ← enum_parse dom.1 dom.2 v
      .ok (dictSet attrs name w)
    | none => .ok (dictSet attrs name v)
  else .ok (dictSet attrs name v)
termination_by (sizeOf v, 1, 0)
decreasing_by
  apply Prod.Lex.left
  simp
  try omega

/-- `GenericParsable.from_dict_serializable` (also the body of
`from_dict_enum` and `from_dict_parsable`, which delegate to it): if the
key is present and the property is settable, assign through the
setter. -/
def fdSerStep (env : Env) (reg : Registration) (attrs : List (String × PyVal))
    (d : List (String × PyVal)) (n : String) : Except PyErr (List (String × PyVal)) :=
  match hv : lookupAttr d n with
  | none => .ok attrs
  | some v =>
    if reg.settable.contains n then assignAttr env reg attrs n v
    else .ok attrs
termination_by (sizeOf d, 3, 0)
decreasing_by
  have h1 := lookupAttr_sizeOf hv
  apply Prod.Lex.left
  omega

/-- `GenericParsable.from_dict_dict_of_parsable`: if the key is present
and the property settable, element-parse a dict value with
`parsed_dict` and store through the (canonically plain) setter. -/
def fdDictStep (env : Env) (reg : Registration) (attrs : List (String × PyVal))
    (d : List (String × PyVal)) (n : String) : Except PyErr (List (String × PyVal)) :=
  match hv : lookupAttr d n with
  | none => .ok attrs
  | some v =>
    if reg.settable.contains n then
      match v with
      | .vDict kvs => do
        let kvs' ← parsed_dict env kvs
        .ok (dictSet attrs n (.vDict kvs'))
      | _ => .ok (dictSet attrs n v)
    else .ok attrs
termination_by (sizeOf d, 3, 0)
decreasing_by
  have h1 := lookupAttr_sizeOf hv
  apply Prod.Lex.left
  simp at h1
  omega

/-- `GenericParsable.from_dict_list_of_parsable`: as `fdDictStep` with
`parsed_list` on a list value. -/
def fdListStep (env : Env) (reg : Registration) (attrs : List (String × PyVal))
    (d : List (String × PyVal)) (n : String) : Except PyErr (List (String × PyVal)) :=
  match hv : lookupAttr d n with
  | none => .ok attrs
  | some v =>
    if reg.settable.contains n then
      match v with
      | .vList xs => do
        let xs' ← parsed_list env xs
        .ok (dictSet attrs n (.vList xs'))
      | _ => .ok (dictSet attrs n v)
    else .ok attrs
termination_by (sizeOf d, 3, 0)
decreasing_by
  have h1 := lookupAttr_sizeOf hv
  apply Prod.Lex.left
  simp at h1
  omega

/-- `GenericParsable.update_serializable_property` (also
`update_enum_property` / `update_parsable_property`): gate, then
`update_property`, which (no custom `update_<name>` overrides being
modelled) assigns through the setter when settable and silently logs
otherwise. -/
def udSerStep (env : Env) (reg : Registration) (attrs : List (String × PyVal))
    (only_if_missing : Bool) (d : List (String × PyVal)) (n : String) :
    Except PyErr (List (String × PyVal)) :=
  if skipGate reg attrs only_if_missing n then .ok attrs
  else
    match hv : lookupAttr d n with
    | none => .ok attrs
    | some v =>
      if reg.settable.contains n then assignAttr env reg attrs n v
      else .ok attrs
termination_by (sizeOf d, 3, 0)
decreasing_by
  have h1 := lookupAttr_sizeOf hv
  apply Prod.Lex.left
  omega

/-- `GenericParsable.update_dict_of_parsable_property`. -/
def udDictStep (env : Env) (reg : Registration) (attrs : List (String × PyVal))
    (only_if_missing : Bool) (d : List (String × PyVal)) (n : String) :
    Except PyErr (List (String × PyVal)) :=
  if skipGate reg attrs only_if_missing n then .ok attrs
  else
    match hv : lookupAttr d n with
    | none => .ok attrs
    | some v =>
      if reg.settable.contains n then
        match v with
        | .vDict kvs => do
          let kvs' ← parsed_dict env kvs
          .ok (dictSet attrs n (.vDict kvs'))
        | _ => .ok (dictSet attrs n v)
      else .ok attrs
termination_by (sizeOf d, 3, 0)
decreasing_by
  have h1 := lookupAttr_sizeOf hv
  apply Prod.Lex.left
  simp at h1
  omega

/-- `GenericParsable.update_list_of_parsable_property`. -/
def udListStep (env : Env) (reg : Registration) (attrs : List (String × PyVal))
    (only_if_missing : Bool) (d : List (String × PyVal)) (n : String) :
    Except PyErr (List (String × PyVal)) :=
  if skipGate reg attrs only_if_missing n then .ok attrs
  else
    match hv : lookupAttr d n with
    | none => .ok attrs
    | some v =>
      if reg.settable.contains n then
        match v with
        | .vList xs => do
          let xs' ← parsed_list env xs
          .ok (dictSet attrs n (.vList xs'))
        | _ => .ok (dictSet attrs n v)
      else .ok attrs
termination_by (sizeOf d, 3, 0)
decreasing_by
  have h1 := lookupAttr_sizeOf hv
  apply Prod.Lex.left
  simp at h1
  omega

/-- `GenericParsable.parsed_dict`: each value that is a dict carrying
the reserved type key is parsed with
`ParsableProperty.parse(value, throw_if_unable_to_parse=True)`; other
values pass through unchanged, keys and order preserved. -/
def parsed_dict (env : Env) :
    List (String × PyVal) → Except PyErr (List (String × PyVal))
  | [] => .ok []
  | (k, v) :: rest =>
    match v with
    | .vDict kvs =>
      if hasKey kvs generic_parsable_type then do
        let w ← parseProp env kvs none none true none
        let rest' ← parsed_dict env rest
        .ok ((k, w) :: rest')
      else do
        let rest' ← parsed_dict env rest
        .ok ((k, .vDict kvs) :: rest')
    | _ => do
      let rest' ← parsed_dict env rest
      .ok ((k, v) :: rest')
termination_by kvs => (sizeOf kvs, 2, 0)
decreasing_by
  all_goals
    apply Prod.Lex.left
    simp
    try omega

/-- `GenericParsable.parsed_list`: elementwise, same rules as
`parsed_dict`. -/
def parsed_list (env : Env) : List PyVal → Except PyErr (List PyVal)
  | [] => .ok []
  | v :: rest =>
    match v with
    | .vDict kvs =>
      if hasKey kvs generic_parsable_type then do
        let w ← parseProp env kvs none none true none
        let rest' ← parsed_list env rest
        .ok (w :: rest')
      else do
        let rest' ← parsed_list env rest
        .ok (.vDict kvs :: rest')
    | _ => do
      let rest' ← parsed_list env rest
      .ok (v :: rest')
termination_by xs => (sizeOf xs, 2, 0)
decreasing_by
  all_goals
    apply Prod.Lex.left
    simp
    try omega

/-- The per-name dispatch loop of `from_dict`, over
`(*ordered_attributes, *unordered_attributes)`, in source branch order
(serializable, parsable, enum, dict-of, list-of, specialized); a name in
none of the six categories raises the "property doesn't exist"
`RuntimeError`. -/
def fdNames (env : Env) (o : GPObj) :
    List String → List (String × PyVal) → Except PyErr GPObj
  | [], _ => .ok o
  | n :: rest, d =>
    if o.reg.serializable.contains n then do
      let attrs' ← fdSerStep env o.reg o.attrs d n
      fdNames env { o with attrs := attrs' } rest d
    else if o.reg.parsable.contains n then do
      let attrs' ← fdSerStep env o.reg o.attrs d n
      fdNames env { o with attrs := attrs' } rest d
    else if o.reg.enum.contains n then do
      let attrs' ← fdSerStep env o.reg o.attrs d n
      fdNames env { o with attrs := attrs' } rest d
    else if o.reg.dictOf.contains n then do
      let attrs' ← fdDictStep env o.reg o.attrs d n
      fdNames env { o with attrs := attrs' } rest d
    else if o.reg.listOf.contains n then do
      let attrs' ← fdListStep env o.reg o.attrs d n
      fdNames env { o with attrs := attrs' } rest d
    else if o.reg.specialized.contains n then do
      let attrs' ← from_dict_specialized_step env o.cls o.attrs d n
      fdNames env { o with attrs := attrs' } rest d
    else .error (.unknownAttribute n)
termination_by names d => (sizeOf d, 4, names.length)
decreasing_by
  all_goals
    first
    | (apply Prod.Lex.right
       apply Prod.Lex.left
       omega)
    | (apply Prod.Lex.right
       apply Prod.Lex.right
       simp)

/-- The per-name dispatch loop of `update`, same branch order as
`fdNames` with the `update_*_property` steps. -/
def udNames (env : Env) (only_if_missing : Bool) (o : GPObj) :
    List String → List (String × PyVal) → Except PyErr GPObj
  | [], _ => .ok o
  | n :: rest, d =>
    if o.reg.serializable.contains n then do
      let attrs' ← udSerStep env o.reg o.attrs only_if_missing d n
      udNames env only_if_missing { o with attrs := attrs' } rest d
    else if o.reg.parsable.contains n then do
      let attrs' ← udSerStep env o.reg o.attrs only_if_missing d n
      udNames env only_if_missing { o with attrs := attrs' } rest d
    else if o.reg.enum.contains n then do
      let attrs' ← udSerStep env o.reg o.attrs only_if_missing d n
      udNames env only_if_missing { o with attrs := attrs' } rest d
    else if o.reg.dictOf.contains n then do
      let attrs' ← udDictStep env o.reg o.attrs only_if_missing d n
      udNames env only_if_missing { o with attrs := attrs' } rest d
    else if o.reg.listOf.contains n then do
      let attrs' ← udListStep env o.reg o.attrs only_if_missing d n
      udNames env only_if_missing { o with attrs := attrs' } rest d
    else if o.reg.specialized.contains n then do
      let attrs' ← update_specialized_step env o.cls o.reg o.attrs only_if_missing d n
      udNames env only_if_missing { o with attrs := attrs' } rest d
    else .error (.unknownAttribute n)
termination_by names d => (sizeOf d, 4, names.length)
decreasing_by
  all_goals
    first
    | (apply Prod.Lex.right
       apply Prod.Lex.left
       omega)
    | (apply Prod.Lex.right
       apply Prod.Lex.right
       simp)

/-- `GenericParsable.from_dict`: split the registered names, then
dispatch each of `(*ordered, *unordered)` by category. -/
def from_dict (env : Env) (o : GPObj) (d : List (String × PyVal)) : Except PyErr GPObj := do
  let pr ← split_ordered_and_unordered_attributes o.reg
  fdNames env o (pr.1 ++ pr.2) d
termination_by (sizeOf d, 5, 0)
decreasing_by
  apply Prod.Lex.right
  apply Prod.Lex.left
  omega

/-- `GenericParsable.update`. -/
def update (env : Env) (only_if_missing : Bool) (o : GPObj) (d : List (String × PyVal)) :
    Except PyErr GPObj := do
  let pr ← split_ordered_and_unordered_attributes o.reg
  udNames env only_if_missing o (pr.1 ++ pr.2) d
termination_by (sizeOf d, 5, 0)
decreasing_by
  apply Prod.Lex.right
  apply Prod.Lex.left
  omega

/-- The `try` body of `ParsableProperty.parse` once a class type is
resolved: compute and check the required constructor arguments,
construct (`class_type(**required_args)` — the canonical `__init__`
chain assigns each provided keyword through its property setter on top
of the fresh template), then hydrate with `from_dict`. -/
def hydrate (env : Env) (cname : String) (d : List (String × PyVal)) : Except PyErr PyVal :=
  match findClass env cname with
  | none => .error (.attributeError cname)
  | some cd => do
    let reqArgs ← get_required_arguments_for_init cd.pyClass d
    let o0 ← ctorAssign env cd.template (reqArgs.map (·.1)) d
    let o1 ← from_dict env o0 d
    .ok (.vObj o1.cls o1.mod o1.reg o1.attrs)
termination_by (sizeOf d, 6, 0)
decreasing_by
  all_goals
    apply Prod.Lex.right
    apply Prod.Lex.left
    omega

/-- The keyword-argument assignments the canonical `__init__` chain
performs for `class_type(**required_args)`: each provided name is
assigned through its property setter (`self.x = kwargs.get('x')`). -/
def ctorAssign (env : Env) (o : GPObj) :
    List String → List (String × PyVal) → Except PyErr GPObj
  | [], _ => .ok o
  | r :: rest, d =>
    match hv : lookupAttr d r with
    | some v => do
      let attrs' ← assignAttr env o.reg o.attrs r v
      ctorAssign env { o with attrs := attrs' } rest d
    | none => ctorAssign env o rest d
termination_by names d => (sizeOf d, 3, names.length)
decreasing_by
  · have h1 := lookupAttr_sizeOf hv
    apply Prod.Lex.left
    omega
  all_goals
    apply Prod.Lex.right
    apply Prod.Lex.right
    simp

/-- `ParsableProperty.parse` with the default keyword names: resolve a
class type (an explicit `class_type` short-circuits), return the input
unchanged when none was found, and otherwise construct-and-hydrate,
re-raising failures as a `RuntimeError` only when
`throw_if_unable_to_parse` and returning the input unchanged
otherwise. -/
def parseProp (env : Env) (d : List (String × PyVal))
    (parsable_module parsable_class : Option PyVal) (throw : Bool)
    (class_type : Option String) : Except PyErr PyVal :=
  match get_class_type env d parsable_module parsable_class throw class_type with
  | .error e => .error e
  | .ok none => .ok (.vDict d)
  | .ok (some cname) =>
    match hydrate env cname d with
    | .ok w => .ok w
    | .error _ => if throw then .error .hydrationError else .ok (.vDict d)
termination_by (sizeOf d, 7, 0)
decreasing_by
  apply Prod.Lex.right
  apply Prod.Lex.left
  omega

end

/-- The process-wide plugin registry state.  `add_registry` stores the
registry dict on `type(cls)` — the metaclass — so one registry and one
set of loaded classes is shared process-wide; `registered` holds the
class names the registry maps (each entry maps a name to the loaded
class of that name), and `loaded` the names in the current subclass
closure of the root capability (`get_subclass_map`'s keys). -/
structure PluginWorld where
  hasRegistry : Bool
  registered : List String
  loaded : List String
  deriving Repr, DecidableEq

/-- The interpreter environment the plugin loader consults: importable
modules with, per module, the classes it defines and whether each is a
subclass of the root capability (importing the module adds its
root-subclasses to the subclass closure); and the constructor-signature
tree of each class. -/
structure PluginEnv where
  modules : List (String × List (String × Bool))
  classDefs : List (String × PyClass)

def findPluginModule (penv : PluginEnv) (m : String) : Option (List (String × Bool)) :=
  (penv.modules.find? (fun p => p.1 == m)).map (·.2)

def findPluginClass (penv : PluginEnv) (c : String) : Option PyClass :=
  (penv.classDefs.find? (fun p => p.1 == c)).map (·.2)

/-- `PluginBase.add_registry`. -/
def PluginBase.add_registry (w : PluginWorld) : PluginWorld :=
  if !w.hasRegistry then { w with hasRegistry := true, registered := [] } else w

/-- `PluginBase.has_registry`. -/
def PluginBase.has_registry (w : PluginWorld) : Bool := w.hasRegistry

/-- `PluginBase.has_registered_class`. -/
def PluginBase.has_registered_class (w : PluginWorld) (n : String) : Bool :=
  w.hasRegistry && w.registered.contains n

/-- `PluginBase.get_class`: registry hit first; else the current
subclass closure (merging it into the registry on a hit); else deduce a
module name (explicitly given, or via
`get_class_and_module_strings(input_values, parsable_class=class_name)`
when `input_values` was given), returning `None` when none is known;
else import the module (a missing module or a non-string name raises,
uncaught), fetch the class by name (`AttributeError` if absent,
uncaught), and merge the refreshed closure into the registry when the
class appears in it.  Returns the evolved world together with the
resolved class (classes are modelled by their globally unique names). -/
def PluginBase.get_class (penv : PluginEnv) (w0 : PluginWorld) (class_name : String)
    (class_module : Option PyVal) (input_values : Option (List (String × PyVal))) :
    PluginWorld × Except PyErr (Option String) :=
  let w := if !(PluginBase.has_registry w0) then PluginBase.add_registry w0 else w0
  if PluginBase.has_registered_class w class_name then (w, .ok (some class_name))
  else if w.loaded.contains class_name then
    ({ w with registered := w.registered ++ w.loaded }, .ok (some class_name))
  else
    match class_module, input_values with
    | none, none => (w, .ok none)
    | _, _ =>
      let cm : Option PyVal :=
        match class_module with
        | some v => some v
        | none =>
          match get_class_and_module_strings (input_values.getD []) none
              (some (.vStr class_name)) false with
          | .ok pr => pr.2
          | .error _ => none
      match cm with
      | none => (w, .ok none)
      | some (.vStr m) =>
        match findPluginModule penv m with
        | none => (w, .error (.importError m))
        | some clsList =>
          let w' := { w with loaded :=
            w.loaded ++ clsList.filterMap (fun p => if p.2 then some p.1 else none) }
          if clsList.any (fun p => p.1 == class_name) then
            let w'' :=
              if w'.loaded.contains class_name then
                { w' with registered := w'.registered ++ w'.loaded }
              else w'
            (w'', .ok (some class_name))
          else (w', .error (.attributeError class_name))
      | some _ => (w, .error .typeMismatch)

/-- `PluginBase.lookup`: a `None` from `get_class` raises the
"Subclass [..] is not registered" `RuntimeError`. -/
def PluginBase.lookup (penv : PluginEnv) (w : PluginWorld) (class_name : String)
    (class_module : Option PyVal) (input_values : Option (List (String × PyVal))) :
    PluginWorld × Except PyErr String :=
  match PluginBase.get_class penv w class_name class_module input_values with
  | (w', .ok (some c)) => (w', .ok c)
  | (w', .ok none) => (w', .error (.unresolvedPlugin class_name))
  | (w', .error e) => (w', .error e)

/-- `PluginBase.construct`: `cls.lookup(class_name, class_module, kwargs)
(*args, **kwargs)` — the resolved class's constructor is invoked directly
with the caller's arguments, with no required-field computation; the
canonical `(*args, **kwargs)` constructors of this framework succeed iff
each of the class's own non-defaulted parameters is among the supplied
keywords (extra keywords are absorbed).  The constructed instance is
modelled by its class name. -/
def PluginBase.construct (penv : PluginEnv) (w : PluginWorld) (class_name : String)
    (class_module : Option PyVal) (kwargs : List (String × PyVal)) :
    PluginWorld × Except PyErr String :=
  match PluginBase.lookup penv w class_name class_module (some kwargs) with
  | (w', .ok c) =>
    match findPluginClass penv c with
    | some pc =>
      if pc.ownRequired.all (fun r => hasKey kwargs r) then (w', .ok c)
      else (w', .error .typeMismatch)
    | none => (w', .ok c)
  | (w', .error e) => (w', .error e)

/-- Whether a serializable attribute value is populated and is a fixed
point of `to_dict_serializable`'s flattening (not `None`, not
array-like, not set-like). -/
def serStable : PyVal → Bool
  | .vNone => false
  | .vArr _ => false
  | .vSet _ => false
  | _ => true

/-- The environment facts `ParsableProperty.parse` needs to rebuild a
nested object from its encoded dict: its module is importable and
defines its class; the class resolves to a definition whose fresh
template carries the same class / module / registration; and every
introspected required constructor argument is a registered attribute
(hence present in the encoded dict). -/
def Resolvable (env : Env) (o : GPObj) : Prop :=
  (∃ clsNames, findModule env o.mod = some clsNames ∧ clsNames.contains o.cls = true) ∧
  (∃ cd, findClass env o.cls = some cd ∧ cd.template.cls = o.cls ∧
     cd.template.mod = o.mod ∧ cd.template.reg = o.reg ∧
     ∀ r ∈ required_parameter_for_class_init cd.pyClass,
       r ∈ collect_all_attributes o.reg)

/-- The registration-level well-formedness the framework's contract
prescribes: each registered name is in exactly one category and listed
once (§3 of the spec), no registered name shadows a reserved type-tag
key, the explicit parsing order only names registered attributes, and
every registered attribute has a property setter. -/
def BaseReady (o : GPObj) : Prop :=
  (collect_all_attributes o.reg).Nodup ∧
  (∀ n ∈ collect_all_attributes o.reg,
     n ≠ generic_parsable_type ∧ n ≠ generic_parsable_module) ∧
  (∀ n ∈ o.reg.desiredOrder, n ∈ collect_all_attributes o.reg) ∧
  (∀ n ∈ collect_all_attributes o.reg, o.reg.settable.contains n = true)

/-- Serializable attributes hold populated, flattening-stable values. -/
def SerReady (attrs : List (String × PyVal)) (names : List String) : Prop :=
  ∀ n ∈ names, serStable (getAttrVal attrs n) = true

/-- Enum attributes hold a member of the enum domain their setter
declares. -/
def EnumReady (reg : Registration) (attrs : List (String × PyVal))
    (names : List String) : Prop :=
  ∀ n ∈ names, ∃ dom, findEnumDomain reg n = some dom ∧
    ∃ mem, getAttrVal attrs n = .vEnum dom.1 mem ∧ dom.2.contains mem = true

/-- Specialized attributes hold populated values, have their codec
pair, and the pair is inverse on the held value. -/
def SpecReady (env : Env) (cls : String) (attrs : List (String × PyVal))
    (names : List String) : Prop :=
  ∀ n ∈ names, isNoneV (getAttrVal attrs n) = false ∧
    ∃ cd, findCodec env cls n = some cd ∧
      cd.dec (cd.enc (getAttrVal attrs n)) = getAttrVal attrs n

mutual

/-- The well-formedness under which encode-then-decode round-trips: the
registration contract holds and every registered attribute of every
category holds a populated value in serialization-stable form, nested
objects being recursively round-trip-ready and resolvable. -/
def Ready (env : Env) (o : GPObj) : Prop :=
  BaseReady o ∧
  SerReady o.attrs o.reg.serializable ∧
  EnumReady o.reg o.attrs o.reg.enum ∧
  ParsReady env o.attrs o.reg.parsable ∧
  DictReady env o.attrs o.reg.dictOf ∧
  ListReady env o.attrs o.reg.listOf ∧
  SpecReady env o.cls o.attrs o.reg.specialized
termination_by (sizeOf o.attrs, 3, 0)
decreasing_by
  all_goals
    apply Prod.Lex.right
    apply Prod.Lex.left
    omega

/-- Nested-parsable attributes hold a ready, resolvable nested object. -/
def ParsReady (env : Env) (attrs : List (String × PyVal)) : List String → Prop
  | [] => True
  | n :: rest =>
    (match hv : getAttrVal attrs n with
     | .vObj c m r a => Ready env ⟨c, m, r, a⟩ ∧ Resolvable env ⟨c, m, r, a⟩
     | _ => False) ∧ ParsReady env attrs rest
termination_by names => (sizeOf attrs, 2, names.length)
decreasing_by
  · apply Prod.Lex.left
    have h1 := getAttrVal_sizeOf attrs n
    rw [hv] at h1
    simp at h1
    omega
  · apply Prod.Lex.right
    apply Prod.Lex.right
    simp

/-- Dict-of-parsables attributes hold a dict whose values are each
decode-stable. -/
def DictReady (env : Env) (attrs : List (String × PyVal)) : List String → Prop
  | [] => True
  | n :: rest =>
    (match hv : getAttrVal attrs n with
     | .vDict kvs => ElemsKVReady env kvs
     | _ => False) ∧ DictReady env attrs rest
termination_by names => (sizeOf attrs, 2, names.length)
decreasing_by
  · apply Prod.Lex.left
    have h1 := getAttrVal_sizeOf attrs n
    rw [hv] at h1
    simp at h1
    omega
  · apply Prod.Lex.right
    apply Prod.Lex.right
    simp

/-- List-of-parsables attributes hold a list (not a set, whose encoding
is one-way) of decode-stable elements. -/
def ListReady (env : Env) (attrs : List (String × PyVal)) : List String → Prop
  | [] => True
  | n :: rest =>
    (match hv : getAttrVal attrs n with
     | .vList xs => ElemsLReady env xs
     | _ => False) ∧ ListReady env attrs rest
termination_by names => (sizeOf attrs, 2, names.length)
decreasing_by
  · apply Prod.Lex.left
    have h1 := getAttrVal_sizeOf attrs n
    rw [hv] at h1
    simp at h1
    omega
  · apply Prod.Lex.right
    apply Prod.Lex.right
    simp

def ElemsKVReady (env : Env) : List (String × PyVal) → Prop
  | [] => True
  | (_, w) :: rest => ElemReady env w ∧ ElemsKVReady env rest
termination_by kvs => (sizeOf kvs, 1, 0)
decreasing_by
  all_goals
    apply Prod.Lex.left
    simp
    try omega

def ElemsLReady (env : Env) : List PyVal → Prop
  | [] => True
  | w :: rest => ElemReady env w ∧ ElemsLReady env rest
termination_by xs => (sizeOf xs, 1, 0)
decreasing_by
  all_goals
    apply Prod.Lex.left
    simp
    try omega

/-- A collection element survives the serialize / element-parse cycle:
a nested object must be ready and resolvable; an array is flattened
one-way, so excluded; a plain dict must not carry the reserved type key
(else decoding would try to hydrate it); anything else passes through
both directions unchanged. -/
def ElemReady (env : Env) (w : PyVal) : Prop :=
  match w with
  | .vObj c m r a => Ready env ⟨c, m, r, a⟩ ∧ Resolvable env ⟨c, m, r, a⟩
  | .vArr _ => False
  | .vDict m => hasKey m generic_parsable_type = false
  | _ => True
termination_by (sizeOf w, 0, 0)
decreasing_by
  apply Prod.Lex.left
  simp
  try omega

end

/-! ## Theorems -/

/-- C3: for every registration state, `split_ordered_and_unordered_attributes`
fails with an OrderingError naming every explicit name not among the
registered attributes whenever the explicit order is not a subset of
them; otherwise it returns `(ordered, unordered)` where `ordered` is
the explicit order's sequence itself and `unordered` is exactly the
remaining registered names in category-declaration order. -/
theorem C3_split_ordering (reg : Registration) :
    (reg.desiredOrder.filter
        (fun a => !((collect_all_attributes reg).contains a)) = [] →
      split_ordered_and_unordered_attributes reg =
        .ok (reg.desiredOrder,
          (collect_all_attributes reg).filter
            (fun a => !(reg.desiredOrder.contains a)))) ∧
    (reg.desiredOrder.filter
        (fun a => !((collect_all_attributes reg).contains a)) ≠ [] →
      split_ordered_and_unordered_attributes reg =
        .error (.orderingError (reg.desiredOrder.filter
          (fun a => !((collect_all_attributes reg).contains a))))) := by
  constructor
  · intro h
    unfold split_ordered_and_unordered_attributes
    by_cases h0 : reg.desiredOrder = []
    · simp [h0]
    · simp [h0, h]
      intro x hx
      have h2 := List.filter_eq_nil.mp h x hx
      simpa using h2
  · intro h
    unfold split_ordered_and_unordered_attributes
    by_cases h0 : reg.desiredOrder = []
    · rw [h0] at h
      simp at h
    · simp [h0, h]
      obtain ⟨y, hy⟩ := List.exists_mem_of_ne_nil _ h
      have h2 := List.mem_filter.mp hy
      refine ⟨y, h2.1, ?_⟩
      simpa using h2.2

/-- The ordering-validation example of the spec: registered attributes
`a`, `b`, `c` with explicit order `["z"]`, and the passing variant with
explicit order `["b"]`. -/
def regC3a : Registration :=
  { serializable := ["a", "b", "c"], enum := [], parsable := [], specialized := [],
    dictOf := [], listOf := [], desiredOrder := ["z"], hasQuery := [], settable := [],
    enumDomains := [] }

def regC3b : Registration := { regC3a with desiredOrder := ["b"] }

theorem C3_split_ordering_witness :
    split_ordered_and_unordered_attributes regC3a = .error (.orderingError ["z"]) ∧
    split_ordered_and_unordered_attributes regC3b = .ok (["b"], ["a", "c"]) := by
  constructor
  · have h := (C3_split_ordering regC3a).2 (by decide)
    simpa [regC3a, collect_all_attributes] using h
  · have h := (C3_split_ordering regC3b).1 (by decide)
    simpa [regC3b, regC3a, collect_all_attributes] using h

theorem gcms_err {i : List (String × PyVal)} {pm pc : Option PyVal} {t : Bool} {e : PyErr}
    (h : get_class_and_module_strings i pm pc t = .error e) : e = .hydrationError := by
  unfold get_class_and_module_strings at h
  simp only [bind, Except.bind, pure, Except.pure] at h
  repeat' split at h
  all_goals first
    | simp_all
    | rfl

theorem gct_err {env : Env} {i : List (String × PyVal)} {pm pc : Option PyVal} {t : Bool}
    {ct : Option String} {e : PyErr}
    (h : get_class_type env i pm pc t ct = .error e) : e = .hydrationError := by
  unfold get_class_type at h
  split at h
  · simp at h
  · simp only [bind, Except.bind] at h
    split at h
    · rename_i heq
      simp at h
      rw [h] at heq
      exact gcms_err heq
    · repeat' split at h
      all_goals simp_all

theorem parseProp_err {env : Env} {d : List (String × PyVal)} {pm pc : Option PyVal}
    {t : Bool} {ct : Option String} {e : PyErr}
    (h : parseProp env d pm pc t ct = .error e) : e = .hydrationError := by
  rw [parseProp] at h
  split at h
  · rename_i heq
    simp at h
    rw [h] at heq
    exact gct_err heq
  · simp at h
  · split at h
    · simp at h
    · split at h
      · simp at h
        exact h.symm
      · simp at h

theorem except_bind_err {α β : Type} {m : Except PyErr α} {f : α → Except PyErr β} {e : PyErr}
    (h : (m >>= f) = .error e) : m = .error e ∨ ∃ a, m = .ok a ∧ f a = .error e := by
  cases m with
  | error e1 =>
    simp only [bind, Except.bind] at h
    injection h with h1
    exact .inl (by rw [h1])
  | ok a =>
    simp only [bind, Except.bind] at h
    exact .inr ⟨a, rfl, h⟩

theorem enum_parse_err_aux (en : String) (ms : List String) :
    ∀ k : Nat,
      (∀ v : PyVal, sizeOf v ≤ k → ∀ {e : PyErr},
        enum_parse en ms v = .error e → e = .enumDomainError en) ∧
      (∀ xs : List PyVal, sizeOf xs ≤ k → ∀ {e : PyErr},
        enum_parse_list en ms xs = .error e → e = .enumDomainError en) := by
  intro k
  induction k using Nat.strong_induction_on with
  | _ k ih =>
    constructor
    · intro v hv e h
      cases v with
      | vList xs =>
        rw [enum_parse] at h
        cases hl : enum_parse_list en ms xs with
        | error e2 =>
          rw [hl] at h
          simp [Except.map] at h
          rw [h] at hl
          have hx : sizeOf xs < k := by
            simp at hv
            omega
          exact (ih (sizeOf xs) hx).2 xs (le_refl _) hl
        | ok ys =>
          rw [hl] at h
          simp [Except.map] at h
      | vEnum e1 m1 =>
        rw [enum_parse] at h
        split at h <;> simp_all
      | vStr s =>
        rw [enum_parse] at h
        split at h <;> simp_all
      | vInt i =>
        rw [enum_parse] at h
        split at h <;> simp_all
      | vNone => simp [enum_parse] at h
      | vBool b =>
        simp [enum_parse] at h
        simp_all
      | vDict kvs =>
        simp [enum_parse] at h
        simp_all
      | vSet xs =>
        simp [enum_parse] at h
        simp_all
      | vArr xs =>
        simp [enum_parse] at h
        simp_all
      | vObj c m r a =>
        simp [enum_parse] at h
        simp_all
    · intro xs hxs e h
      cases xs with
      | nil => rw [enum_parse_list] at h; simp at h
      | cons x rest =>
        rw [enum_parse_list] at h
        rcases except_bind_err h with h1 | ⟨y, hy, h2⟩
        · have hx : sizeOf x < k := by
            simp at hxs
            omega
          exact (ih (sizeOf x) hx).1 x (le_refl _) h1
        · rcases except_bind_err h2 with h3 | ⟨ys, hys, h4⟩
          · have hr : sizeOf rest < k := by
              simp at hxs
              omega
            exact (ih (sizeOf rest) hr).2 rest (le_refl _) h3
          · simp at h4

theorem enum_parse_err {en : String} {ms : List String} {v : PyVal} {e : PyErr}
    (h : enum_parse en ms v = .error e) : e = .enumDomainError en :=
  (enum_parse_err_aux en ms (sizeOf v)).1 v (le_refl _) h

/-- The error classification shared by all the decode steps: the value
every failure reduces to is never the "property doesn't exist" error. -/
def notUnknownAttr (e : PyErr) : Prop := ∀ x, e ≠ .unknownAttribute x

theorem assignAttr_err {env : Env} {reg : Registration} {attrs : List (String × PyVal)}
    {n : String} {v : PyVal} {e : PyErr}
    (h : assignAttr env reg attrs n v = .error e) : notUnknownAttr e := by
  rw [assignAttr.eq_def] at h
  split at h
  · split at h
    · rcases except_bind_err h with h1 | ⟨a, ha, h2⟩
      · rw [parseProp_err h1]
        intro x hx
        exact PyErr.noConfusion hx
      · simp at h2
    · simp at h
  · split at h
    · split at h
      · rcases except_bind_err h with h1 | ⟨a, ha, h2⟩
        · rw [enum_parse_err h1]
          intro x hx
          exact PyErr.noConfusion hx
        · simp at h2
      · simp at h
    · simp at h

theorem parsed_dict_err {env : Env} : ∀ (kvs : List (String × PyVal)) {e : PyErr},
    parsed_dict env kvs = .error e → e = .hydrationError := by
  intro kvs
  induction kvs with
  | nil =>
    intro e h
    rw [parsed_dict] at h
    simp at h
  | cons hd rest ih =>
    intro e h
    obtain ⟨k, v⟩ := hd
    rw [parsed_dict.eq_def] at h
    dsimp only at h
    split at h
    · split at h
      · rcases except_bind_err h with h1 | ⟨a, ha, h2⟩
        · exact parseProp_err h1
        · rcases except_bind_err h2 with h3 | ⟨b, hb, h4⟩
          · exact ih h3
          · simp at h4
      · rcases except_bind_err h with h1 | ⟨a, ha, h2⟩
        · exact ih h1
        · simp at h2
    · rcases except_bind_err h with h1 | ⟨a, ha, h2⟩
      · exact ih h1
      · simp at h2

theorem parsed_list_err {env : Env} : ∀ (xs : List PyVal) {e : PyErr},
    parsed_list env xs = .error e → e = .hydrationError := by
  intro xs
  induction xs with
  | nil =>
    intro e h
    rw [parsed_list] at h
    simp at h
  | cons v rest ih =>
    intro e h
    rw [parsed_list.eq_def] at h
    dsimp only at h
    split at h
    · split at h
      · rcases except_bind_err h with h1 | ⟨a, ha, h2⟩
        · exact parseProp_err h1
        · rcases except_bind_err h2 with h3 | ⟨b, hb, h4⟩
          · exact ih h3
          · simp at h4
      · rcases except_bind_err h with h1 | ⟨a, ha, h2⟩
        · exact ih h1
        · simp at h2
    · rcases except_bind_err h with h1 | ⟨a, ha, h2⟩
      · exact ih h1
      · simp at h2

theorem fdSerStep_err {env : Env} {reg : Registration} {attrs d : List (String × PyVal)}
    {n : String} {e : PyErr}
    (h : fdSerStep env reg attrs d n = .error e) : notUnknownAttr e := by
  rw [fdSerStep] at h
  split at h
  · simp at h
  · split at h
    · exact assignAttr_err h
    · simp at h

theorem fdDictStep_err {env : Env} {reg : Registration} {attrs d : List (String × PyVal)}
    {n : String} {e : PyErr}
    (h : fdDictStep env reg attrs d n = .error e) : notUnknownAttr e := by
  rw [fdDictStep] at h
  split at h
  · simp at h
  · split at h
    · split at h
      · rcases except_bind_err h with h1 | ⟨a, ha, h2⟩
        · rw [parsed_dict_err _ h1]
          intro x hx
          exact PyErr.noConfusion hx
        · simp at h2
      · simp at h
    · simp at h

theorem fdListStep_err {env : Env} {reg : Registration} {attrs d : List (String × PyVal)}
    {n : String} {e : PyErr}
    (h : fdListStep env reg attrs d n = .error e) : notUnknownAttr e := by
  rw [fdListStep] at h
  split at h
  · simp at h
  · split at h
    · split at h
      · rcases except_bind_err h with h1 | ⟨a, ha, h2⟩
        · rw [parsed_list_err _ h1]
          intro x hx
          exact PyErr.noConfusion hx
        · simp at h2
      · simp at h
    · simp at h

theorem from_dict_specialized_step_err {env : Env} {cls : String}
    {attrs d : List (String × PyVal)} {n : String} {e : PyErr}
    (h : from_dict_specialized_step env cls attrs d n = .error e) : notUnknownAttr e := by
  unfold from_dict_specialized_step at h
  split at h
  · simp at h
  · split at h
    · simp at h
    · simp at h
      subst h
      intro x hx
      exact PyErr.noConfusion hx

theorem udSerStep_err {env : Env} {reg : Registration} {attrs d : List (String × PyVal)}
    {b : Bool} {n : String} {e : PyErr}
    (h : udSerStep env reg attrs b d n = .error e) : notUnknownAttr e := by
  rw [udSerStep] at h
  split at h
  · simp at h
  · split at h
    · simp at h
    · split at h
      · exact assignAttr_err h
      · simp at h

theorem udDictStep_err {env : Env} {reg : Registration} {attrs d : List (String × PyVal)}
    {b : Bool} {n : String} {e : PyErr}
    (h : udDictStep env reg attrs b d n = .error e) : notUnknownAttr e := by
  rw [udDictStep] at h
  split at h
  · simp at h
  · split at h
    · simp at h
    · split at h
      · split at h
        · rcases except_bind_err h with h1 | ⟨a, ha, h2⟩
          · rw [parsed_dict_err _ h1]
            intro x hx
            exact PyErr.noConfusion hx
          · simp at h2
        · simp at h
      · simp at h

theorem udListStep_err {env : Env} {reg : Registration} {attrs d : List (String × PyVal)}
    {b : Bool} {n : String} {e : PyErr}
    (h : udListStep env reg attrs b d n = .error e) : notUnknownAttr e := by
  rw [udListStep] at h
  split at h
  · simp at h
  · split at h
    · simp at h
    · split at h
      · split at h
        · rcases except_bind_err h with h1 | ⟨a, ha, h2⟩
          · rw [parsed_list_err _ h1]
            intro x hx
            exact PyErr.noConfusion hx
          · simp at h2
        · simp at h
      · simp at h

theorem update_specialized_step_err {env : Env} {cls : String} {reg : Registration}
    {attrs d : List (String × PyVal)} {b : Bool} {n : String} {e : PyErr}
    (h : update_specialized_step env cls reg attrs b d n = .error e) : notUnknownAttr e := by
  unfold update_specialized_step at h
  split at h
  · simp at h
    subst h
    intro x hx
    exact PyErr.noConfusion hx
  · split at h
    · simp at h
    · split at h
      · simp at h
      · simp at h

theorem mem_collect {reg : Registration} {n : String} (h : n ∈ collect_all_attributes reg) :
    reg.serializable.contains n = true ∨ reg.parsable.contains n = true ∨
    reg.enum.contains n = true ∨ reg.dictOf.contains n = true ∨
    reg.listOf.contains n = true ∨ reg.specialized.contains n = true := by
  simp [collect_all_attributes] at h
  simp
  tauto

theorem fdNames_no_unknown {env : Env} : ∀ (names : List String) (o : GPObj)
    (d : List (String × PyVal)) (x : String),
    (∀ n ∈ names, n ∈ collect_all_attributes o.reg) →
    fdNames env o names d ≠ .error (.unknownAttribute x) := by
  intro names
  induction names with
  | nil =>
    intro o d x hsub h
    rw [fdNames] at h
    simp at h
  | cons n rest ih =>
    intro o d x hsub h
    have hn := mem_collect (hsub n (by simp))
    have hr : ∀ m ∈ rest, m ∈ collect_all_attributes o.reg :=
      fun m hm => hsub m (by simp [hm])
    rw [fdNames] at h
    split at h
    · rcases except_bind_err h with h1 | ⟨a, ha, h2⟩
      · exact fdSerStep_err h1 x rfl
      · exact ih { o with attrs := a } d x hr h2
    · split at h
      · rcases except_bind_err h with h1 | ⟨a, ha, h2⟩
        · exact fdSerStep_err h1 x rfl
        · exact ih { o with attrs := a } d x hr h2
      · split at h
        · rcases except_bind_err h with h1 | ⟨a, ha, h2⟩
          · exact fdSerStep_err h1 x rfl
          · exact ih { o with attrs := a } d x hr h2
        · split at h
          · rcases except_bind_err h with h1 | ⟨a, ha, h2⟩
            · exact fdDictStep_err h1 x rfl
            · exact ih { o with attrs := a } d x hr h2
          · split at h
            · rcases except_bind_err h with h1 | ⟨a, ha, h2⟩
              · exact fdListStep_err h1 x rfl
              · exact ih { o with attrs := a } d x hr h2
            · split at h
              · rcases except_bind_err h with h1 | ⟨a, ha, h2⟩
                · exact from_dict_specialized_step_err h1 x rfl
                · exact ih { o with attrs := a } d x hr h2
              · rcases hn with hc | hc | hc | hc | hc | hc <;> contradiction

theorem udNames_no_unknown {env : Env} {b : Bool} : ∀ (names : List String) (o : GPObj)
    (d : List (String × PyVal)) (x : String),
    (∀ n ∈ names, n ∈ collect_all_attributes o.reg) →
    udNames env b o names d ≠ .error (.unknownAttribute x) := by
  intro names
  induction names with
  | nil =>
    intro o d x hsub h
    rw [udNames] at h
    simp at h
  | cons n rest ih =>
    intro o d x hsub h
    have hn := mem_collect (hsub n (by simp))
    have hr : ∀ m ∈ rest, m ∈ collect_all_attributes o.reg :=
      fun m hm => hsub m (by simp [hm])
    rw [udNames] at h
    split at h
    · rcases except_bind_err h with h1 | ⟨a, ha, h2⟩
      · exact udSerStep_err h1 x rfl
      · exact ih { o with attrs := a } d x hr h2
    · split at h
      · rcases except_bind_err h with h1 | ⟨a, ha, h2⟩
        · exact udSerStep_err h1 x rfl
        · exact ih { o with attrs := a } d x hr h2
      · split at h
        · rcases except_bind_err h with h1 | ⟨a, ha, h2⟩
          · exact udSerStep_err h1 x rfl
          · exact ih { o with attrs := a } d x hr h2
        · split at h
          · rcases except_bind_err h with h1 | ⟨a, ha, h2⟩
            · exact udDictStep_err h1 x rfl
            · exact ih { o with attrs := a } d x hr h2
          · split at h
            · rcases except_bind_err h with h1 | ⟨a, ha, h2⟩
              · exact udListStep_err h1 x rfl
              · exact ih { o with attrs := a } d x hr h2
            · split at h
              · rcases except_bind_err h with h1 | ⟨a, ha, h2⟩
                · exact update_specialized_step_err h1 x rfl
                · exact ih { o with attrs := a } d x hr h2
              · rcases hn with hc | hc | hc | hc | hc | hc <;> contradiction

theorem split_ok_mem {reg : Registration} {pr : List String × List String}
    (h : split_ordered_and_unordered_attributes reg = .ok pr) :
    ∀ n ∈ pr.1 ++ pr.2, n ∈ collect_all_attributes reg := by
  unfold split_ordered_and_unordered_attributes at h
  dsimp only at h
  split at h
  · simp at h
    intro n hn
    rw [h.symm] at hn
    simpa using hn
  · split at h
    · rename_i hmiss
      simp at h
      intro n hn
      rw [h.symm] at hn
      simp at hn
      rcases hn with hn | hn
      · have h2 := List.filter_eq_nil.mp hmiss n hn
        simpa using h2
      · exact hn.1
    · simp at h

theorem split_err_ordering {reg : Registration} {e : PyErr}
    (h : split_ordered_and_unordered_attributes reg = .error e) :
    ∃ ms, e = .orderingError ms := by
  unfold split_ordered_and_unordered_attributes at h
  dsimp only at h
  split at h
  · simp at h
  · split at h
    · simp at h
    · simp at h
      exact ⟨_, h.symm⟩

/-- C9: the final `else` branch of `from_dict` and `update` — the
"property doesn't exist" `RuntimeError` — is unreachable: every name
the two loops iterate comes from the six category lists collected by
`collect_all_attributes` (after the desired-order validation), so one
of the six membership tests always fires.  Failures re-raised by nested
`ParsableProperty.parse` calls surface as hydration `RuntimeError`s,
never as this error. -/
theorem C9_unknown_attribute_unreachable (env : Env) (o : GPObj)
    (d : List (String × PyVal)) (b : Bool) (x : String) :
    from_dict env o d ≠ .error (.unknownAttribute x) ∧
    update env b o d ≠ .error (.unknownAttribute x) := by
  constructor
  · intro h
    rw [from_dict] at h
    rcases except_bind_err h with h1 | ⟨pr, hpr, h2⟩
    · obtain ⟨ms, hms⟩ := split_err_ordering h1
      exact PyErr.noConfusion hms
    · exact fdNames_no_unknown _ o d x (split_ok_mem hpr) h2
  · intro h
    rw [update] at h
    rcases except_bind_err h with h1 | ⟨pr, hpr, h2⟩
    · obtain ⟨ms, hms⟩ := split_err_ordering h1
      exact PyErr.noConfusion hms
    · exact udNames_no_unknown _ o d x (split_ok_mem hpr) h2

theorem eqFold_false_of_mem {a b : GPObj} {X : String} : ∀ (names : List String),
    X ∈ names → equals_property_name a b X = (.vNone, .vNone, some false) →
    eqFold a b names = false := by
  intro names
  induction names with
  | nil =>
    intro hX
    simp at hX
  | cons n rest ih =>
    intro hX hepn
    by_cases hnx : n = X
    · subst hnx
      rw [eqFold, hepn]
    · have hrest : X ∈ rest := by
        rcases List.mem_cons.mp hX with h1 | h1
        · exact absurd h1.symm hnx
        · exact h1
      rw [eqFold]
      rcases hm : equals_property_name a b n with ⟨sv, pr⟩
      obtain ⟨ov, tri⟩ := pr
      cases tri with
      | none => simp [ih hrest hepn]
      | some bb => cases bb <;> simp [ih hrest hepn]

theorem equals_false_of_epn_false {a b : GPObj} {X : String}
    (hcls : a.cls = b.cls)
    (hmem : X ∈ collect_all_attributes a.reg)
    (hepn : equals_property_name a b X = (.vNone, .vNone, some false)) :
    equals a b = false := by
  rw [equals]
  rw [if_neg (by simp [hcls])]
  rcases mem_collect hmem with hc | hc | hc | hc | hc | hc
  · rw [eqFold_false_of_mem a.reg.serializable (by simpa using hc) hepn]
    simp
  · rw [eqFold_false_of_mem a.reg.parsable (by simpa using hc) hepn]
    simp
  · rw [eqFold_false_of_mem a.reg.enum (by simpa using hc) hepn]
    simp
  · rw [eqFold_false_of_mem a.reg.dictOf (by simpa using hc) hepn]
    simp
  · rw [eqFold_false_of_mem a.reg.listOf (by simpa using hc) hepn]
    simp
  · rw [eqFold_false_of_mem a.reg.specialized (by simpa using hc) hepn]
    simp

theorem epn_both_absent {a b : GPObj} {X : String}
    (hq : a.reg.hasQuery.contains X = true)
    (ha : hasAttrVal a.attrs X = false) (hb : hasAttrVal b.attrs X = false) :
    equals_property_name a b X = (.vNone, .vNone, some true) := by
  unfold equals_property_name
  rw [if_pos hq]
  simp [ha, hb]

theorem epn_presence_disagree {a b : GPObj} {X : String}
    (hq : a.reg.hasQuery.contains X = true)
    (hne : hasAttrVal a.attrs X ≠ hasAttrVal b.attrs X) :
    equals_property_name a b X = (.vNone, .vNone, some false) := by
  unfold equals_property_name
  cases h1 : hasAttrVal a.attrs X <;> cases h2 : hasAttrVal b.attrs X <;>
    simp_all [hq]

/-- C6: for two objects of the same runtime type and a registered
attribute exposing a presence query on both sides: when both queries
report absent, `equals_property_name` short-circuits that attribute to
equal (so `equals` continues past it); when the queries disagree,
`equals_property_name` short-circuits to not-equal without fetching the
stored values, and `equals` returns false regardless of them. -/
theorem C6_equality_tristate (a b : GPObj) (X : String)
    (hq : a.reg.hasQuery.contains X = true) :
    (hasAttrVal a.attrs X = false → hasAttrVal b.attrs X = false →
      equals_property_name a b X = (.vNone, .vNone, some true)) ∧
    (hasAttrVal a.attrs X ≠ hasAttrVal b.attrs X → a.cls = b.cls →
      X ∈ collect_all_attributes a.reg →
      equals_property_name a b X = (.vNone, .vNone, some false) ∧
      equals a b = false) := by
  constructor
  · intro ha hb
    exact epn_both_absent hq ha hb
  · intro hne hcls hmem
    have hepn := epn_presence_disagree hq hne
    exact ⟨hepn, equals_false_of_epn_false hcls hmem hepn⟩

/-- Two concrete objects of class `P` with optional attributes `x`, `y`:
`x` absent on both sides, `y` present on the left only (holding the
same stored value `5` both sides, showing presence alone decides). -/
def regC6 : Registration :=
  { serializable := ["x", "y"], enum := [], parsable := [], specialized := [],
    dictOf := [], listOf := [], desiredOrder := [], hasQuery := ["x", "y"],
    settable := ["x", "y"], enumDomains := [] }

def objC6a : GPObj := { cls := "P", mod := "geo", reg := regC6, attrs := [("y", .vInt 5)] }

def objC6b : GPObj := { cls := "P", mod := "geo", reg := regC6, attrs := [] }

theorem C6_equality_tristate_witness :
    equals_property_name objC6a objC6b "x" = (.vNone, .vNone, some true) ∧
    equals_property_name objC6a objC6b "y" = (.vNone, .vNone, some false) ∧
    equals objC6a objC6b = false := by
  refine ⟨(C6_equality_tristate objC6a objC6b "x" (by decide)).1 (by decide) (by decide),
    ?_, ?_⟩
  · exact ((C6_equality_tristate objC6a objC6b "y" (by decide)).2 (by decide) (by rfl)
      (by decide)).1
  · exact ((C6_equality_tristate objC6a objC6b "y" (by decide)).2 (by decide) (by rfl)
      (by decide)).2

/-- C10: for two objects of the same runtime type and a registered
attribute where both sides hold a value, a difference in the runtime
types of the two stored values makes `equals_property_name` return the
not-equal short-circuit — the structural comparator is never handed the
values — and `equals` returns false. -/
theorem C10_type_mismatch_short_circuit (a b : GPObj) (X : String)
    (hcls : a.cls = b.cls)
    (hmem : X ∈ collect_all_attributes a.reg)
    (hpres : a.reg.hasQuery.contains X = true →
       hasAttrVal a.attrs X = true ∧ hasAttrVal b.attrs X = true)
    (hty : pyType (getAttrVal a.attrs X) ≠ pyType (getAttrVal b.attrs X)) :
    equals_property_name a b X = (.vNone, .vNone, some false) ∧
    equals a b = false := by
  have hepn : equals_property_name a b X = (.vNone, .vNone, some false) := by
    unfold equals_property_name equalsPropertyValues
    by_cases hq : a.reg.hasQuery.contains X = true
    · obtain ⟨h1, h2⟩ := hpres hq
      rw [if_pos hq]
      simp [h1, h2, hty]
    · rw [if_neg hq]
      simp [hty]
  exact ⟨hepn, equals_false_of_epn_false hcls hmem hepn⟩

def objC10a : GPObj :=
  { cls := "P", mod := "geo", reg := regC6, attrs := [("x", .vInt 1), ("y", .vInt 5)] }

def objC10b : GPObj :=
  { cls := "P", mod := "geo", reg := regC6, attrs := [("x", .vStr "1"), ("y", .vInt 5)] }

theorem C10_type_mismatch_short_circuit_witness :
    equals_property_name objC10a objC10b "x" = (.vNone, .vNone, some false) ∧
    equals objC10a objC10b = false := by
  exact C10_type_mismatch_short_circuit objC10a objC10b "x" (by rfl) (by decide)
    (fun _ => by decide) (by decide)

theorem except_bind_ok {α β : Type} {m : Except PyErr α} {f : α → Except PyErr β} {b : β}
    (h : (m >>= f) = .ok b) : ∃ a, m = .ok a ∧ f a = .ok b := by
  cases m with
  | error e1 =>
    simp only [bind, Except.bind] at h
    exact Except.noConfusion h
  | ok a =>
    simp only [bind, Except.bind] at h
    exact ⟨a, rfl, h⟩

theorem encSerNames_not_emitted {reg : Registration} {attrs : List (String × PyVal)}
    {X : String} (hX : presentForEmit reg attrs X = false) :
    ∀ (names : List String) (out : List (String × PyVal)), lookupAttr out X = none →
      lookupAttr (encSerNames reg attrs names out) X = none := by
  intro names
  induction names with
  | nil =>
    intro out h
    rw [encSerNames]
    exact h
  | cons n rest ih =>
    intro out h
    rw [encSerNames]
    apply ih
    unfold to_dict_serializable
    by_cases hn : n = X
    · subst hn
      rw [hX]
      simp
      exact h
    · split
      · rw [lookupAttr_dictSet]
        rw [if_neg (fun hh => hn hh.symm)]
        exact h
      · exact h

theorem to_dict_enum_not_emitted {reg : Registration} {attrs : List (String × PyVal)}
    {X : String} (hX : presentForEmit reg attrs X = false) :
    ∀ (names : List String) (out out' : List (String × PyVal)),
      encEnumNames reg attrs names out = .ok out' → lookupAttr out X = none →
      lookupAttr out' X = none := by
  intro names
  induction names with
  | nil =>
    intro out out' h hout
    rw [encEnumNames] at h
    simp at h
    rw [← h]
    exact hout
  | cons n rest ih =>
    intro out out' h hout
    rw [encEnumNames] at h
    rcases except_bind_ok h with ⟨a, ha, h2⟩
    refine ih _ _ h2 ?_
    unfold to_dict_enum at ha
    by_cases hn : n = X
    · subst hn
      rw [hX] at ha
      simp at ha
      rw [← ha]
      exact hout
    · split at ha
      · split at ha
        · simp at ha
          rw [← ha, lookupAttr_dictSet, if_neg (fun hh => hn hh.symm)]
          exact hout
        · exact Except.noConfusion ha
      · simp at ha
        rw [← ha]
        exact hout

theorem encSpecNames_not_emitted {env : Env} {cls : String} {reg : Registration}
    {attrs : List (String × PyVal)} {X : String}
    (hX : presentForEmit reg attrs X = false) :
    ∀ (names : List String) (out out' : List (String × PyVal)),
      encSpecNames env cls reg attrs names out = .ok out' → lookupAttr out X = none →
      lookupAttr out' X = none := by
  intro names
  induction names with
  | nil =>
    intro out out' h hout
    rw [encSpecNames] at h
    simp at h
    rw [← h]
    exact hout
  | cons n rest ih =>
    intro out out' h hout
    rw [encSpecNames] at h
    rcases except_bind_ok h with ⟨a, ha, h2⟩
    refine ih _ _ h2 ?_
    unfold to_dict_specialized at ha
    split at ha
    · by_cases hn : n = X
      · subst hn
        rw [hX] at ha
        simp at ha
        rw [← ha]
        exact hout
      · split at ha
        · simp at ha
          rw [← ha, lookupAttr_dictSet, if_neg (fun hh => hn hh.symm)]
          exact hout
        · simp at ha
          rw [← ha]
          exact hout
    · exact Except.noConfusion ha

theorem encParsNames_not_emitted {env : Env} {reg : Registration}
    {attrs : List (String × PyVal)} {X : String}
    (hX : presentForEmit reg attrs X = false) :
    ∀ (names : List String) (out out' : List (String × PyVal)),
      encParsNames env reg attrs names out = .ok out' → lookupAttr out X = none →
      lookupAttr out' X = none := by
  intro names
  induction names with
  | nil =>
    intro out out' h hout
    rw [encParsNames] at h
    simp at h
    rw [← h]
    exact hout
  | cons n rest ih =>
    intro out out' h hout
    rw [encParsNames] at h
    by_cases hn : n = X
    · subst hn
      rw [hX] at h
      simp at h
      exact ih _ _ h hout
    · split at h
      · split at h
        · rcases except_bind_ok h with ⟨dn, hdn, h2⟩
          refine ih _ _ h2 ?_
          rw [lookupAttr_dictSet, if_neg (fun hh => hn hh.symm)]
          exact hout
        · exact Except.noConfusion h
      · exact ih _ _ h hout

theorem encDictNames_not_emitted {env : Env} {reg : Registration}
    {attrs : List (String × PyVal)} {X : String}
    (hX : presentForEmit reg attrs X = false) :
    ∀ (names : List String) (out out' : List (String × PyVal)),
      encDictNames env reg attrs names out = .ok out' → lookupAttr out X = none →
      lookupAttr out' X = none := by
  intro names
  induction names with
  | nil =>
    intro out out' h hout
    rw [encDictNames] at h
    simp at h
    rw [← h]
    exact hout
  | cons n rest ih =>
    intro out out' h hout
    rw [encDictNames] at h
    by_cases hn : n = X
    · subst hn
      rw [hX] at h
      simp at h
      exact ih _ _ h hout
    · split at h
      · split at h
        · rcases except_bind_ok h with ⟨dn, hdn, h2⟩
          refine ih _ _ h2 ?_
          rw [lookupAttr_dictSet, if_neg (fun hh => hn hh.symm)]
          exact hout
        · exact ih _ _ h hout
      · exact ih _ _ h hout

theorem encListNames_not_emitted {env : Env} {reg : Registration}
    {attrs : List (String × PyVal)} {X : String}
    (hX : presentForEmit reg attrs X = false) :
    ∀ (names : List String) (out out' : List (String × PyVal)),
      encListNames env reg attrs names out = .ok out' → lookupAttr out X = none →
      lookupAttr out' X = none := by
  intro names
  induction names with
  | nil =>
    intro out out' h hout
    rw [encListNames] at h
    simp at h
    rw [← h]
    exact hout
  | cons n rest ih =>
    intro out out' h hout
    rw [encListNames] at h
    by_cases hn : n = X
    · subst hn
      rw [hX] at h
      simp at h
      exact ih _ _ h hout
    · split at h
      · split at h
        · rcases except_bind_ok h with ⟨dn, hdn, h2⟩
          refine ih _ _ h2 ?_
          rw [lookupAttr_dictSet, if_neg (fun hh => hn hh.symm)]
          exact hout
        · rcases except_bind_ok h with ⟨dn, hdn, h2⟩
          refine ih _ _ h2 ?_
          rw [lookupAttr_dictSet, if_neg (fun hh => hn hh.symm)]
          exact hout
        · refine ih _ _ h ?_
          rw [lookupAttr_dictSet, if_neg (fun hh => hn hh.symm)]
          exact hout
        · exact ih _ _ h hout
      · exact ih _ _ h hout

/-- A never-set attribute with a presence query is absent from the
encoded map. -/
theorem to_dict_not_emitted {env : Env} {o : GPObj} {X : String}
    (hq : o.reg.hasQuery.contains X = true)
    (habs : hasAttrVal o.attrs X = false)
    (ht1 : X ≠ generic_parsable_type) (ht2 : X ≠ generic_parsable_module) :
    ∀ out, to_dict env o = .ok out → lookupAttr out X = none := by
  have hX : presentForEmit o.reg o.attrs X = false := by
    unfold presentForEmit
    rw [if_pos hq]
    exact habs
  intro out h
  rw [to_dict] at h
  have e1 : ¬(generic_parsable_type = X) := fun hh => ht1 hh.symm
  have e2 : ¬(generic_parsable_module = X) := fun hh => ht2 hh.symm
  have h0 : lookupAttr [(generic_parsable_type, PyVal.vStr o.cls),
      (generic_parsable_module, PyVal.vStr o.mod)] X = none := by
    simp [lookupAttr, e1, e2]
  have h1 := encSerNames_not_emitted hX o.reg.serializable _ h0
  rcases except_bind_ok h with ⟨o2, ho2, h⟩
  have h2 := to_dict_enum_not_emitted hX _ _ _ ho2 h1
  rcases except_bind_ok h with ⟨o3, ho3, h⟩
  have h3 := encParsNames_not_emitted hX _ _ _ ho3 h2
  rcases except_bind_ok h with ⟨o4, ho4, h⟩
  have h4 := encDictNames_not_emitted hX _ _ _ ho4 h3
  rcases except_bind_ok h with ⟨o5, ho5, h⟩
  have h5 := encListNames_not_emitted hX _ _ _ ho5 h4
  exact encSpecNames_not_emitted hX _ _ _ h h5

theorem assignAttr_lookup_other {env : Env} {reg : Registration}
    {attrs attrs' : List (String × PyVal)} {n : String} {v : PyVal} {X : String}
    (h : assignAttr env reg attrs n v = .ok attrs') (hX : X ≠ n) :
    lookupAttr attrs' X = lookupAttr attrs X := by
  rw [assignAttr.eq_def] at h
  split at h
  · split at h
    · rcases except_bind_ok h with ⟨w, hw, h2⟩
      simp at h2
      rw [← h2, lookupAttr_dictSet, if_neg hX]
    · simp at h
      rw [← h, lookupAttr_dictSet, if_neg hX]
  · split at h
    · split at h
      · rcases except_bind_ok h with ⟨w, hw, h2⟩
        simp at h2
        rw [← h2, lookupAttr_dictSet, if_neg hX]
      · simp at h
        rw [← h, lookupAttr_dictSet, if_neg hX]
    · simp at h
      rw [← h, lookupAttr_dictSet, if_neg hX]

theorem fdSerStep_nokey {env : Env} {reg : Registration} {attrs d : List (String × PyVal)}
    {n : String} (hd : lookupAttr d n = none) :
    fdSerStep env reg attrs d n = .ok attrs := by
  rw [fdSerStep.eq_def, hd]

theorem fdDictStep_nokey {env : Env} {reg : Registration} {attrs d : List (String × PyVal)}
    {n : String} (hd : lookupAttr d n = none) :
    fdDictStep env reg attrs d n = .ok attrs := by
  rw [fdDictStep.eq_def]
  split
  · rfl
  · rename_i v heq
    rw [hd] at heq
    exact Option.noConfusion heq

theorem fdListStep_nokey {env : Env} {reg : Registration} {attrs d : List (String × PyVal)}
    {n : String} (hd : lookupAttr d n = none) :
    fdListStep env reg attrs d n = .ok attrs := by
  rw [fdListStep.eq_def]
  split
  · rfl
  · rename_i v heq
    rw [hd] at heq
    exact Option.noConfusion heq

theorem fdSpecStep_nokey {env : Env} {cls : String} {attrs d : List (String × PyVal)}
    {n : String} (hd : lookupAttr d n = none) :
    from_dict_specialized_step env cls attrs d n = .ok attrs := by
  rw [from_dict_specialized_step, hd]

theorem fdSerStep_other {env : Env} {reg : Registration}
    {attrs attrs' d : List (String × PyVal)} {n X : String}
    (h : fdSerStep env reg attrs d n = .ok attrs') (hX : X ≠ n) :
    lookupAttr attrs' X = lookupAttr attrs X := by
  rw [fdSerStep.eq_def] at h
  split at h
  · simp at h
    rw [← h]
  · split at h
    · exact assignAttr_lookup_other h hX
    · simp at h
      rw [← h]

theorem fdDictStep_other {env : Env} {reg : Registration}
    {attrs attrs' d : List (String × PyVal)} {n X : String}
    (h : fdDictStep env reg attrs d n = .ok attrs') (hX : X ≠ n) :
    lookupAttr attrs' X = lookupAttr attrs X := by
  rw [fdDictStep.eq_def] at h
  split at h
  · simp at h
    rw [← h]
  · split at h
    · split at h
      · rcases except_bind_ok h with ⟨w, hw, h2⟩
        simp at h2
        rw [← h2, lookupAttr_dictSet, if_neg hX]
      · simp at h
        rw [← h, lookupAttr_dictSet, if_neg hX]
    · simp at h
      rw [← h]

theorem fdListStep_other {env : Env} {reg : Registration}
    {attrs attrs' d : List (String × PyVal)} {n X : String}
    (h : fdListStep env reg attrs d n = .ok attrs') (hX : X ≠ n) :
    lookupAttr attrs' X = lookupAttr attrs X := by
  rw [fdListStep.eq_def] at h
  split at h
  · simp at h
    rw [← h]
  · split at h
    · split at h
      · rcases except_bind_ok h with ⟨w, hw, h2⟩
        simp at h2
        rw [← h2, lookupAttr_dictSet, if_neg hX]
      · simp at h
        rw [← h, lookupAttr_dictSet, if_neg hX]
    · simp at h
      rw [← h]

theorem fdSpecStep_other {env : Env} {cls : String}
    {attrs attrs' d : List (String × PyVal)} {n X : String}
    (h : from_dict_specialized_step env cls attrs d n = .ok attrs') (hX : X ≠ n) :
    lookupAttr attrs' X = lookupAttr attrs X := by
  unfold from_dict_specialized_step at h
  split at h
  · simp at h
    rw [← h]
  · split at h
    · simp at h
      rw [← h, lookupAttr_dictSet, if_neg hX]
    · exact Except.noConfusion h

theorem fdNames_meta {env : Env} : ∀ (names : List String) (o : GPObj)
    (d : List (String × PyVal)) (o' : GPObj), fdNames env o names d = .ok o' →
    o'.cls = o.cls ∧ o'.mod = o.mod ∧ o'.reg = o.reg := by
  intro names
  induction names with
  | nil =>
    intro o d o' h
    rw [fdNames] at h
    simp at h
    rw [← h]
    exact ⟨rfl, rfl, rfl⟩
  | cons n rest ih =>
    intro o d o' h
    rw [fdNames] at h
    repeat' split at h
    all_goals first
      | exact Except.noConfusion h
      | (rcases except_bind_ok h with ⟨a, ha, h2⟩
         exact ih { o with attrs := a } d o' h2)

theorem fdNames_preserve {env : Env} {d : List (String × PyVal)} {X : String}
    (hd : lookupAttr d X = none) : ∀ (names : List String) (o : GPObj) (o' : GPObj),
    fdNames env o names d = .ok o' →
    lookupAttr o'.attrs X = lookupAttr o.attrs X := by
  intro names
  induction names with
  | nil =>
    intro o o' h
    rw [fdNames] at h
    simp at h
    rw [← h]
  | cons n rest ih =>
    intro o o' h
    rw [fdNames] at h
    repeat' split at h
    all_goals first
      | exact Except.noConfusion h
      | (rcases except_bind_ok h with ⟨a, ha, h2⟩
         have hstep : lookupAttr a X = lookupAttr o.attrs X := by
           by_cases hn : X = n
           · subst hn
             first
               | (rw [fdSerStep_nokey hd] at ha
                  injection ha with ha2
                  rw [ha2])
               | (rw [fdDictStep_nokey hd] at ha
                  injection ha with ha2
                  rw [ha2])
               | (rw [fdListStep_nokey hd] at ha
                  injection ha with ha2
                  rw [ha2])
               | (rw [fdSpecStep_nokey hd] at ha
                  injection ha with ha2
                  rw [ha2])
           · first
               | exact fdSerStep_other ha hn
               | exact fdDictStep_other ha hn
               | exact fdListStep_other ha hn
               | exact fdSpecStep_other ha hn
         rw [ih { o with attrs := a } o' h2]
         exact hstep)

/-- C4: an optional attribute (one exposing a `has_<name>` presence
query) that was never set is absent from `to_dict`'s output entirely,
and decoding that output into a fresh object (one not holding the
attribute) leaves its presence query false. -/
theorem C4_presence_aware_omission (env : Env) (o : GPObj) (X : String)
    (hq : o.reg.hasQuery.contains X = true)
    (habs : hasAttrVal o.attrs X = false)
    (ht1 : X ≠ generic_parsable_type) (ht2 : X ≠ generic_parsable_module) :
    (∀ out, to_dict env o = .ok out → lookupAttr out X = none) ∧
    (∀ out o0 o', to_dict env o = .ok out → hasAttrVal o0.attrs X = false →
      from_dict env o0 out = .ok o' → hasAttrVal o'.attrs X = false) := by
  constructor
  · exact to_dict_not_emitted hq habs ht1 ht2
  · intro out o0 o' hout h0 h
    have hnone := to_dict_not_emitted hq habs ht1 ht2 out hout
    rw [from_dict] at h
    rcases except_bind_ok h with ⟨pr, hpr, h2⟩
    have hpres := fdNames_preserve hnone _ o0 o' h2
    simpa [hasAttrVal, getAttrVal, hpres] using h0

def regC4 : Registration :=
  { serializable := ["x"], enum := [], parsable := [], specialized := [],
    dictOf := [], listOf := [], desiredOrder := [], hasQuery := ["x"],
    settable := ["x"], enumDomains := [] }

def oC4 : GPObj := { cls := "P", mod := "geo", reg := regC4, attrs := [] }

def env0 : Env := { modules := [], classes := [], codecs := [] }

def dC4 : List (String × PyVal) :=
  [(generic_parsable_type, .vStr "P"), (generic_parsable_module, .vStr "geo")]

theorem C4_presence_aware_omission_witness :
    lookupAttr dC4 "x" = none ∧ hasAttrVal oC4.attrs "x" = false := by
  have hd : to_dict env0 oC4 = .ok dC4 := by
    simp [to_dict, oC4, regC4, env0, dC4, encSerNames, to_dict_serializable,
      presentForEmit, hasAttrVal, getAttrVal, lookupAttr, isNoneV, encEnumNames,
      encParsNames, encDictNames, encListNames, encSpecNames, bind, Except.bind]
  have hf : from_dict env0 oC4 dC4 = .ok oC4 := by
    simp [from_dict, oC4, regC4, env0, dC4, split_ordered_and_unordered_attributes,
      collect_all_attributes, fdNames, fdSerStep, lookupAttr, generic_parsable_type,
      generic_parsable_module, bind, Except.bind]
  constructor
  · exact (C4_presence_aware_omission env0 oC4 "x" (by decide) (by decide)
      (by decide) (by decide)).1 dC4 hd
  · exact (C4_presence_aware_omission env0 oC4 "x" (by decide) (by decide)
      (by decide) (by decide)).2 dC4 oC4 oC4 hd (by decide) hf

theorem split_ok_complete {reg : Registration} {pr : List String × List String}
    (h : split_ordered_and_unordered_attributes reg = .ok pr) {n : String}
    (hn : n ∈ collect_all_attributes reg) : n ∈ pr.1 ++ pr.2 := by
  unfold split_ordered_and_unordered_attributes at h
  dsimp only at h
  split at h
  · simp at h
    rw [← h]
    simpa using hn
  · split at h
    · simp at h
      rw [← h]
      simp
      by_cases hdm : n ∈ reg.desiredOrder
      · exact Or.inl hdm
      · exact Or.inr ⟨hn, hdm⟩
    · exact Except.noConfusion h

theorem udSerStep_gate {env : Env} {reg : Registration} {attrs d : List (String × PyVal)}
    {b : Bool} {n : String} (hg : skipGate reg attrs b n = true) :
    udSerStep env reg attrs b d n = .ok attrs := by
  rw [udSerStep.eq_def, if_pos hg]

theorem udDictStep_gate {env : Env} {reg : Registration} {attrs d : List (String × PyVal)}
    {b : Bool} {n : String} (hg : skipGate reg attrs b n = true) :
    udDictStep env reg attrs b d n = .ok attrs := by
  rw [udDictStep.eq_def, if_pos hg]

theorem udListStep_gate {env : Env} {reg : Registration} {attrs d : List (String × PyVal)}
    {b : Bool} {n : String} (hg : skipGate reg attrs b n = true) :
    udListStep env reg attrs b d n = .ok attrs := by
  rw [udListStep.eq_def, if_pos hg]

theorem udSpecStep_gate {env : Env} {cls : String} {reg : Registration}
    {attrs d a : List (String × PyVal)} {b : Bool} {n : String}
    (h : update_specialized_step env cls reg attrs b d n = .ok a)
    (hg : skipGate reg attrs b n = true) : a = attrs := by
  unfold update_specialized_step at h
  split at h
  · exact Except.noConfusion h
  · rw [if_pos hg] at h
    simp at h
    exact h.symm

theorem udSerStep_other {env : Env} {reg : Registration}
    {attrs attrs' d : List (String × PyVal)} {b : Bool} {n X : String}
    (h : udSerStep env reg attrs b d n = .ok attrs') (hX : X ≠ n) :
    lookupAttr attrs' X = lookupAttr attrs X := by
  rw [udSerStep.eq_def] at h
  split at h
  · simp at h
    rw [← h]
  · split at h
    · simp at h
      rw [← h]
    · split at h
      · exact assignAttr_lookup_other h hX
      · simp at h
        rw [← h]

theorem udDictStep_other {env : Env} {reg : Registration}
    {attrs attrs' d : List (String × PyVal)} {b : Bool} {n X : String}
    (h : udDictStep env reg attrs b d n = .ok attrs') (hX : X ≠ n) :
    lookupAttr attrs' X = lookupAttr attrs X := by
  rw [udDictStep.eq_def] at h
  split at h
  · simp at h
    rw [← h]
  · split at h
    · simp at h
      rw [← h]
    · split at h
      · split at h
        · rcases except_bind_ok h with ⟨w, hw, h2⟩
          simp at h2
          rw [← h2, lookupAttr_dictSet, if_neg hX]
        · simp at h
          rw [← h, lookupAttr_dictSet, if_neg hX]
      · simp at h
        rw [← h]

theorem udListStep_other {env : Env} {reg : Registration}
    {attrs attrs' d : List (String × PyVal)} {b : Bool} {n X : String}
    (h : udListStep env reg attrs b d n = .ok attrs') (hX : X ≠ n) :
    lookupAttr attrs' X = lookupAttr attrs X := by
  rw [udListStep.eq_def] at h
  split at h
  · simp at h
    rw [← h]
  · split at h
    · simp at h
      rw [← h]
    · split at h
      · split at h
        · rcases except_bind_ok h with ⟨w, hw, h2⟩
          simp at h2
          rw [← h2, lookupAttr_dictSet, if_neg hX]
        · simp at h
          rw [← h, lookupAttr_dictSet, if_neg hX]
      · simp at h
        rw [← h]

theorem udSpecStep_other {env : Env} {cls : String} {reg : Registration}
    {attrs attrs' d : List (String × PyVal)} {b : Bool} {n X : String}
    (h : update_specialized_step env cls reg attrs b d n = .ok attrs') (hX : X ≠ n) :
    lookupAttr attrs' X = lookupAttr attrs X := by
  unfold update_specialized_step at h
  split at h
  · exact Except.noConfusion h
  · split at h
    · simp at h
      rw [← h]
    · split at h
      · simp at h
        rw [← h]
      · simp at h
        rw [← h, lookupAttr_dictSet, if_neg hX]

theorem udNames_present_preserve {env : Env} {d : List (String × PyVal)} {X : String} :
    ∀ (names : List String) (o : GPObj) (o' : GPObj),
    o.reg.hasQuery.contains X = true →
    hasAttrVal o.attrs X = true →
    udNames env true o names d = .ok o' →
    lookupAttr o'.attrs X = lookupAttr o.attrs X := by
  intro names
  induction names with
  | nil =>
    intro o o' _ _ h
    rw [udNames] at h
    simp at h
    rw [← h]
  | cons n rest ih =>
    intro o o' hq hpres h
    rw [udNames] at h
    repeat' split at h
    all_goals first
      | exact Except.noConfusion h
      | (rcases except_bind_ok h with ⟨a, ha, h2⟩
         have hstep : lookupAttr a X = lookupAttr o.attrs X := by
           by_cases hn : X = n
           · subst hn
             have hg : skipGate o.reg o.attrs true X = true := by
               have hq2 : X ∈ o.reg.hasQuery := by simpa using hq
               simp [skipGate, hq2, hpres]
             first
               | (rw [udSerStep_gate hg] at ha
                  injection ha with ha2
                  rw [ha2])
               | (rw [udDictStep_gate hg] at ha
                  injection ha with ha2
                  rw [ha2])
               | (rw [udListStep_gate hg] at ha
                  injection ha with ha2
                  rw [ha2])
               | (rw [udSpecStep_gate ha hg])
           · first
               | exact udSerStep_other ha hn
               | exact udDictStep_other ha hn
               | exact udListStep_other ha hn
               | exact udSpecStep_other ha hn
         have hp2 : hasAttrVal a X = true := by
           simpa [hasAttrVal, getAttrVal, hstep] using hpres
         rw [ih { o with attrs := a } o' hq hp2 h2]
         exact hstep)

theorem udSerStep_plain_set {env : Env} {reg : Registration}
    {attrs d : List (String × PyVal)} {n : String} {v : PyVal}
    (hd : lookupAttr d n = some v) (hset : reg.settable.contains n = true)
    (hp : ¬reg.parsable.contains n = true) (he : ¬reg.enum.contains n = true) :
    udSerStep env reg attrs false d n = .ok (dictSet attrs n v) := by
  rw [udSerStep.eq_def]
  rw [if_neg (by simp [skipGate])]
  rw [hd]
  dsimp only
  rw [if_pos hset]
  rw [assignAttr.eq_def, if_neg hp, if_neg he]

theorem udNames_sets {env : Env} {d : List (String × PyVal)} {X : String} {v : PyVal} :
    ∀ (names : List String) (o : GPObj) (o' : GPObj),
    o.reg.serializable.contains X = true →
    ¬o.reg.parsable.contains X = true →
    ¬o.reg.enum.contains X = true →
    o.reg.settable.contains X = true →
    lookupAttr d X = some v →
    udNames env false o names d = .ok o' →
    (X ∈ names ∨ lookupAttr o.attrs X = some v) →
    lookupAttr o'.attrs X = some v := by
  intro names
  induction names with
  | nil =>
    intro o o' _ _ _ _ _ h hdisj
    rw [udNames] at h
    simp at h
    rcases hdisj with hin | hslot
    · simp at hin
    · rw [← h]
      exact hslot
  | cons n rest ih =>
    intro o o' hser hp he hset hd h hdisj
    rw [udNames] at h
    repeat' split at h
    all_goals first
      | exact Except.noConfusion h
      | (rcases except_bind_ok h with ⟨a, ha, h2⟩
         by_cases hn : X = n
         · subst hn
           first
             | (rw [udSerStep_plain_set hd hset hp he] at ha
                injection ha with ha2
                refine ih { o with attrs := a } o' hser hp he hset hd h2 (Or.inr ?_)
                rw [← ha2, lookupAttr_dictSet, if_pos rfl])
             | exact absurd (by assumption) hp
             | exact absurd (by assumption) he
             | exact absurd hser (by assumption)
         · have hstep : lookupAttr a X = lookupAttr o.attrs X := by
             first
               | exact udSerStep_other ha hn
               | exact udDictStep_other ha hn
               | exact udListStep_other ha hn
               | exact udSpecStep_other ha hn
           refine ih { o with attrs := a } o' hser hp he hset hd h2 ?_
           rcases hdisj with hin | hslot
           · rcases List.mem_cons.mp hin with h1 | h1
             · exact absurd h1 hn
             · exact Or.inl h1
           · refine Or.inr ?_
             rw [hstep]
             exact hslot)

/-- C5: for an object whose attribute `X` exposes a presence query
reporting present, `update` with `only_if_missing=True` leaves `X`'s
stored value untouched whatever the input dict offers, while `update`
with `only_if_missing=False` assigns `X` the value the dict supplies
(through the canonical plain setter of a serializable attribute). -/
theorem C5_update_policy (env : Env) (o : GPObj) (d : List (String × PyVal))
    (X : String) (v : PyVal)
    (hq : o.reg.hasQuery.contains X = true)
    (hpres : hasAttrVal o.attrs X = true) :
    (∀ o', update env true o d = .ok o' →
      lookupAttr o'.attrs X = lookupAttr o.attrs X) ∧
    (o.reg.serializable.contains X = true → ¬o.reg.parsable.contains X = true →
     ¬o.reg.enum.contains X = true → o.reg.settable.contains X = true →
     lookupAttr d X = some v →
     ∀ o', update env false o d = .ok o' → lookupAttr o'.attrs X = some v) := by
  constructor
  · intro o' h
    rw [update] at h
    rcases except_bind_ok h with ⟨pr, hpr, h2⟩
    exact udNames_present_preserve _ o o' hq hpres h2
  · intro hser hp he hset hd o' h
    rw [update] at h
    rcases except_bind_ok h with ⟨pr, hpr, h2⟩
    have hcoll : X ∈ collect_all_attributes o.reg := by
      simp [collect_all_attributes]
      exact Or.inl (by simpa using hser)
    exact udNames_sets _ o o' hser hp he hset hd h2
      (Or.inl (split_ok_complete hpr hcoll))

def regC5 : Registration :=
  { serializable := ["x"], enum := [], parsable := [], specialized := [],
    dictOf := [], listOf := [], desiredOrder := [], hasQuery := ["x"],
    settable := ["x"], enumDomains := [] }

def oC5 : GPObj := { cls := "P", mod := "geo", reg := regC5, attrs := [("x", .vInt 5)] }

def dC5 : List (String × PyVal) := [("x", .vInt 10)]

theorem C5_update_policy_witness :
    lookupAttr oC5.attrs "x" = some (.vInt 5) ∧
    lookupAttr [("x", PyVal.vInt 10)] "x" = some (.vInt 10) := by
  have h1 : update env0 true oC5 dC5 = .ok oC5 := by
    simp [update, oC5, regC5, dC5, env0, split_ordered_and_unordered_attributes,
      collect_all_attributes, udNames, udSerStep, skipGate, hasAttrVal, getAttrVal,
      lookupAttr, isNoneV, bind, Except.bind]
  have h2 : update env0 false oC5 dC5 =
      .ok { oC5 with attrs := [("x", .vInt 10)] } := by
    simp [update, oC5, regC5, dC5, env0, split_ordered_and_unordered_attributes,
      collect_all_attributes, udNames, udSerStep, skipGate, hasAttrVal, getAttrVal,
      lookupAttr, isNoneV, assignAttr, dictSet, bind, Except.bind]
  constructor
  · have hkeep := (C5_update_policy env0 oC5 dC5 "x" (.vInt 10) (by decide)
      (by decide)).1 oC5 h1
    rw [hkeep]
    rfl
  · have hset := (C5_update_policy env0 oC5 dC5 "x" (.vInt 10) (by decide)
      (by decide)).2 (by decide) (by decide) (by decide) (by decide) (by rfl)
      { oC5 with attrs := [("x", .vInt 10)] } h2
    exact hset

theorem get_class_no_module {penv : PluginEnv} {Foo : String} {wx : PluginWorld}
    (hr : wx.hasRegistry = true → Foo ∉ wx.registered) (hl : Foo ∉ wx.loaded)
    (kwargs : List (String × PyVal)) (hk : lookupAttr kwargs generic_parsable_module = none) :
    PluginBase.get_class penv wx Foo none (some kwargs) =
      ((if wx.hasRegistry then wx else { wx with hasRegistry := true, registered := [] }),
       .ok none) := by
  unfold PluginBase.get_class PluginBase.add_registry PluginBase.has_registry
    PluginBase.has_registered_class
  by_cases hR : wx.hasRegistry
  · have hr2 := hr hR
    simp [hR, hr2, hl, get_class_and_module_strings, hk, bind, Except.bind, pure,
      Except.pure]
  · simp [hR, hl, get_class_and_module_strings, hk, bind, Except.bind, pure,
      Except.pure]

theorem get_class_registry_hit {penv : PluginEnv} {Foo : String} {wx : PluginWorld}
    (hR : wx.hasRegistry = true) (hr : Foo ∈ wx.registered)
    (cm : Option PyVal) (iv : Option (List (String × PyVal))) :
    PluginBase.get_class penv wx Foo cm iv = (wx, .ok (some Foo)) := by
  unfold PluginBase.get_class PluginBase.add_registry PluginBase.has_registry
    PluginBase.has_registered_class
  simp [hR, hr]

theorem get_class_dynamic_load {penv : PluginEnv} {Foo m : String} {wx : PluginWorld}
    {mods : List (String × Bool)}
    (hR : wx.hasRegistry = true) (hr : Foo ∉ wx.registered) (hl : Foo ∉ wx.loaded)
    (hmod : findPluginModule penv m = some mods) (hsub : (Foo, true) ∈ mods)
    (iv : Option (List (String × PyVal))) :
    PluginBase.get_class penv wx Foo (some (.vStr m)) iv =
      ({ wx with
          loaded := wx.loaded ++ mods.filterMap (fun p => if p.2 then some p.1 else none),
          registered := wx.registered ++
            (wx.loaded ++ mods.filterMap (fun p => if p.2 then some p.1 else none)) },
       .ok (some Foo)) := by
  have hfm : Foo ∈ mods.filterMap (fun p => if p.2 then some p.1 else none) := by
    refine List.mem_filterMap.mpr ⟨(Foo, true), hsub, ?_⟩
    simp
  have hany : mods.any (fun p => p.1 == Foo) = true := by
    refine List.any_eq_true.mpr ⟨(Foo, true), hsub, ?_⟩
    simp
  unfold PluginBase.get_class PluginBase.add_registry PluginBase.has_registry
    PluginBase.has_registered_class
  simp [hR, hr, hl, hmod, hany, hfm]

/-- C2: for a plugin root's registry state in which `Foo` is neither
registered nor in the current subclass closure: a bare
`construct("Foo")` fails with the "not registered" `RuntimeError`; a
`construct("Foo", class_module="m")` succeeds when module `m` is
importable, defines `Foo`, and `Foo` is a subclass of the root (the
refreshed closure is merged into the registry); and a subsequent bare
`construct("Foo")` then succeeds through the now-cached registry
entry. -/
theorem C2_plugin_resolution (penv : PluginEnv) (w : PluginWorld) (Foo m : String)
    (mods : List (String × Bool))
    (hreg : w.hasRegistry = true → Foo ∉ w.registered)
    (hload : Foo ∉ w.loaded)
    (hmod : findPluginModule penv m = some mods)
    (hsub : (Foo, true) ∈ mods)
    (hctor : ∀ pc, findPluginClass penv Foo = some pc → pc.ownRequired = []) :
    ∃ w1 w2 w3,
      PluginBase.construct penv w Foo none [] = (w1, .error (.unresolvedPlugin Foo)) ∧
      PluginBase.construct penv w1 Foo (some (.vStr m)) [] = (w2, .ok Foo) ∧
      PluginBase.has_registered_class w2 Foo = true ∧
      PluginBase.construct penv w2 Foo none [] = (w3, .ok Foo) := by
  set w1 : PluginWorld :=
    if w.hasRegistry then w else { w with hasRegistry := true, registered := [] } with hw1
  have hw1R : w1.hasRegistry = true := by
    rw [hw1]
    by_cases hR : w.hasRegistry <;> simp [hR]
  have hw1r : Foo ∉ w1.registered := by
    rw [hw1]
    by_cases hR : w.hasRegistry
    · simp [hR, hreg hR]
    · simp [hR]
  have hw1l : Foo ∉ w1.loaded := by
    rw [hw1]
    by_cases hR : w.hasRegistry <;> simp [hR, hload]
  set w2 : PluginWorld :=
    { w1 with
       loaded := w1.loaded ++ mods.filterMap (fun p => if p.2 then some p.1 else none),
       registered := w1.registered ++
         (w1.loaded ++ mods.filterMap (fun p => if p.2 then some p.1 else none)) } with hw2
  have hw2R : w2.hasRegistry = true := hw1R
  have hw2r : Foo ∈ w2.registered := by
    rw [hw2]
    have hfm : Foo ∈ mods.filterMap (fun p => if p.2 then some p.1 else none) := by
      refine List.mem_filterMap.mpr ⟨(Foo, true), hsub, ?_⟩
      simp
    simp [hfm]
  refine ⟨w1, w2, w2, ?_, ?_, ?_, ?_⟩
  · unfold PluginBase.construct PluginBase.lookup
    rw [get_class_no_module hreg hload [] (by rfl)]
  · unfold PluginBase.construct PluginBase.lookup
    rw [get_class_dynamic_load hw1R hw1r hw1l hmod hsub (some [])]
    dsimp only
    cases hpc : findPluginClass penv Foo with
    | none => simp [hpc]
    | some pc => simp [hpc, hctor pc hpc]
  · unfold PluginBase.has_registered_class
    simp [hw2R, hw2r, hw1R]
  · unfold PluginBase.construct PluginBase.lookup
    rw [get_class_registry_hit hw2R hw2r none (some [])]
    dsimp only
    cases hpc : findPluginClass penv Foo with
    | none => simp [hpc]
    | some pc => simp [hpc, hctor pc hpc]

def penvC2 : PluginEnv := { modules := [("pkg.mod", [("Foo", true)])], classDefs := [] }

def wC2 : PluginWorld := { hasRegistry := false, registered := [], loaded := [] }

theorem C2_plugin_resolution_witness :
    ∃ w1 w2 w3,
      PluginBase.construct penvC2 wC2 "Foo" none [] =
        (w1, .error (.unresolvedPlugin "Foo")) ∧
      PluginBase.construct penvC2 w1 "Foo" (some (.vStr "pkg.mod")) [] = (w2, .ok "Foo") ∧
      PluginBase.has_registered_class w2 "Foo" = true ∧
      PluginBase.construct penvC2 w2 "Foo" none [] = (w3, .ok "Foo") := by
  exact C2_plugin_resolution penvC2 wC2 "Foo" "pkg.mod" [("Foo", true)]
    (fun h => absurd h (by decide))
    (by decide)
    (by rfl)
    (by decide)
    (fun pc hpc => by simp [findPluginClass, penvC2] at hpc)

/-- `D` declares no required `__init__` parameters of its own (the
`*args, **kwargs` convention), but its base `B` requires `x`, so the
ancestry union computed by `required_parameter_for_class_init` is
`{x}`. -/
def pyClassD : PyClass := PyClass.mk "D" [] [PyClass.mk "B" ["x"] []]

def penvC7 : PluginEnv := { modules := [], classDefs := [("D", pyClassD)] }

def wC7 : PluginWorld := { hasRegistry := true, registered := ["D"], loaded := [] }

/-- C7 is false as stated: `D`'s ancestry-union of non-defaulted
required fields is `{x}`, the caller supplies no fields at all, yet
`PluginBase.construct("D")` succeeds — it invokes the constructor
directly and performs no required-field computation and no
MissingRequiredArguments check. -/
theorem C7_counterexample :
    required_parameter_for_class_init pyClassD = ["x"] ∧
    (([] : List (String × PyVal)).map (fun p => p.1)).contains "x" = false ∧
    (PluginBase.construct penvC7 wC7 "D" none []).2 = .ok "D" := by
  refine ⟨?_, by decide, ?_⟩
  · simp [pyClassD, required_parameter_for_class_init, requiredParamsOfBases]
  · rfl

/-- C7 (amended): the ancestry-union required-field computation and the
MissingRequiredArguments failure belong to the `ParsableProperty`
hydration path, not to `PluginBase.construct`: when
`ParsableProperty.parse` resolves a class, its construction step fails
with MissingRequiredArguments exactly when the input map's keys do not
cover `required_parameter_for_class_init`, and otherwise passes the
required sub-dict to the constructor. -/
theorem C7_required_arguments_check (env : Env) (cname : String) (cd : ClassDef)
    (d : List (String × PyVal))
    (hc : findClass env cname = some cd) :
    (¬(required_parameter_for_class_init cd.pyClass).all (fun r => hasKey d r) = true →
      hydrate env cname d = .error (.missingRequiredArguments
        (required_parameter_for_class_init cd.pyClass) (d.map (fun p => p.1)))) ∧
    ((required_parameter_for_class_init cd.pyClass).all (fun r => hasKey d r) = true →
      get_required_arguments_for_init cd.pyClass d =
        .ok ((required_parameter_for_class_init cd.pyClass).map
          (fun r => (r, (lookupAttr d r).getD .vNone)))) := by
  constructor
  · intro hmiss
    rw [hydrate, hc]
    dsimp only
    have hreq : get_required_arguments_for_init cd.pyClass d =
        .error (.missingRequiredArguments
          (required_parameter_for_class_init cd.pyClass) (d.map (fun p => p.1))) := by
      unfold get_required_arguments_for_init
      rw [if_neg hmiss]
    rw [hreq]
    rfl
  · intro hall
    unfold get_required_arguments_for_init
    rw [if_pos hall]

def regEmpty : Registration :=
  { serializable := [], enum := [], parsable := [], specialized := [],
    dictOf := [], listOf := [], desiredOrder := [], hasQuery := [],
    settable := [], enumDomains := [] }

def cdD : ClassDef :=
  { template := { cls := "D", mod := "m", reg := regEmpty, attrs := [] },
    pyClass := pyClassD }

def envC7 : Env := { modules := [], classes := [("D", cdD)], codecs := [] }

theorem C7_required_arguments_check_witness :
    hydrate envC7 "D" [] = .error (.missingRequiredArguments ["x"] []) ∧
    get_required_arguments_for_init pyClassD [("x", .vInt 1)] = .ok [("x", .vInt 1)] := by
  have hfind : findClass envC7 "D" = some cdD := by rfl
  have hreq : required_parameter_for_class_init pyClassD = ["x"] := by
    simp [pyClassD, required_parameter_for_class_init, requiredParamsOfBases]
  constructor
  · have h := (C7_required_arguments_check envC7 "D" cdD [] hfind).1
      (by simp [cdD, hreq, hasKey, lookupAttr])
    simpa [cdD, hreq] using h
  · have h := (C7_required_arguments_check envC7 "D" cdD [("x", .vInt 1)] hfind).2
      (by simp [cdD, hreq, hasKey, lookupAttr])
    simpa [cdD, hreq, lookupAttr] using h

theorem gcms_false_no_err {i : List (String × PyVal)} {pm pc : Option PyVal} {e : PyErr}
    (h : get_class_and_module_strings i pm pc false = .error e) : False := by
  unfold get_class_and_module_strings at h
  simp only [bind, Except.bind, pure, Except.pure] at h
  repeat' split at h
  all_goals simp_all

theorem gcms_true_to_false {i : List (String × PyVal)} {pm pc : Option PyVal}
    {pr : Option PyVal × Option PyVal}
    (h : get_class_and_module_strings i pm pc true = .ok pr) :
    get_class_and_module_strings i pm pc false = .ok pr := by
  unfold get_class_and_module_strings at h ⊢
  simp only [bind, Except.bind, pure, Except.pure] at h ⊢
  repeat' split at h
  all_goals simp_all

theorem gcms_true_err_to_false {i : List (String × PyVal)} {pm pc : Option PyVal} {e : PyErr}
    (h : get_class_and_module_strings i pm pc true = .error e) :
    ∃ pr, get_class_and_module_strings i pm pc false = .ok pr ∧
      (pr.1 = none ∨ pr.2 = none) := by
  unfold get_class_and_module_strings at h ⊢
  simp only [bind, Except.bind, pure, Except.pure] at h ⊢
  repeat' split at h
  all_goals repeat' split
  all_goals simp_all

theorem gct_false_no_err {env : Env} {i : List (String × PyVal)} {pm pc : Option PyVal}
    {ct : Option String} {e : PyErr}
    (h : get_class_type env i pm pc false ct = .error e) : False := by
  unfold get_class_type at h
  split at h
  · simp at h
  · simp only [bind, Except.bind] at h
    cases hg : get_class_and_module_strings i pm pc false with
    | error e2 => exact gcms_false_no_err hg
    | ok pr =>
      rw [hg] at h
      dsimp only [Except.bind] at h
      obtain ⟨cs, ms⟩ := pr
      dsimp only at h
      cases ms with
      | none => cases cs <;> simp at h
      | some mv =>
        cases cs with
        | none => simp at h
        | some cv =>
          dsimp only at h
          cases hr : resolveClassType env mv cv with
          | some c => rw [hr] at h; simp at h
          | none => rw [hr] at h; simp at h

theorem gct_true_some_to_false {env : Env} {i : List (String × PyVal)} {pm pc : Option PyVal}
    {ct : Option String} {c : String}
    (h : get_class_type env i pm pc true ct = .ok (some c)) :
    get_class_type env i pm pc false ct = .ok (some c) := by
  unfold get_class_type at h ⊢
  split at h
  · exact h
  · simp only [bind, Except.bind] at h ⊢
    cases hg : get_class_and_module_strings i pm pc true with
    | error e2 =>
      rw [hg] at h
      dsimp only [Except.bind] at h
      exact Except.noConfusion h
    | ok pr =>
      rw [hg] at h
      rw [gcms_true_to_false hg]
      dsimp only [Except.bind] at h ⊢
      obtain ⟨cs, ms⟩ := pr
      dsimp only at h ⊢
      cases ms with
      | none => cases cs <;> simp at h
      | some mv =>
        cases cs with
        | none => simp at h
        | some cv =>
          dsimp only at h ⊢
          cases hr : resolveClassType env mv cv with
          | some c2 => simp_all
          | none => simp_all

theorem gct_true_none_to_false {env : Env} {i : List (String × PyVal)} {pm pc : Option PyVal}
    {ct : Option String}
    (h : get_class_type env i pm pc true ct = .ok none) :
    get_class_type env i pm pc false ct = .ok none := by
  unfold get_class_type at h ⊢
  split at h
  · simp at h
  · simp only [bind, Except.bind] at h ⊢
    cases hg : get_class_and_module_strings i pm pc true with
    | error e2 =>
      rw [hg] at h
      dsimp only [Except.bind] at h
      exact Except.noConfusion h
    | ok pr =>
      rw [hg] at h
      rw [gcms_true_to_false hg]
      dsimp only [Except.bind] at h ⊢
      obtain ⟨cs, ms⟩ := pr
      dsimp only at h ⊢
      cases ms with
      | none => cases cs <;> simp_all
      | some mv =>
        cases cs with
        | none => simp_all
        | some cv =>
          dsimp only at h
          cases hr : resolveClassType env mv cv with
          | some c2 => simp_all
          | none => simp_all

theorem gct_true_err_to_false_none {env : Env} {i : List (String × PyVal)}
    {pm pc : Option PyVal} {ct : Option String} {e : PyErr}
    (h : get_class_type env i pm pc true ct = .error e) :
    get_class_type env i pm pc false ct = .ok none := by
  unfold get_class_type at h ⊢
  split at h
  · simp at h
  · simp only [bind, Except.bind] at h ⊢
    cases hg : get_class_and_module_strings i pm pc true with
    | error e2 =>
      obtain ⟨pr, hpr, hnone⟩ := gcms_true_err_to_false hg
      rw [hpr]
      dsimp only [Except.bind]
      obtain ⟨cs, ms⟩ := pr
      dsimp only
      rcases hnone with h1 | h1
      · simp at h1
        subst h1
        cases ms <;> simp
      · simp at h1
        subst h1
        cases cs <;> simp
    | ok pr =>
      rw [hg] at h
      rw [gcms_true_to_false hg]
      dsimp only [Except.bind] at h ⊢
      obtain ⟨cs, ms⟩ := pr
      dsimp only at h ⊢
      cases ms with
      | none => cases cs <;> simp at h
      | some mv =>
        cases cs with
        | none => simp at h
        | some cv =>
          dsimp only at h ⊢
          cases hr : resolveClassType env mv cv with
          | some c2 => simp_all
          | none => simp_all

/-- C8: `ParsableProperty.parse`'s `throw_if_unable_to_parse` flag only
selects the failure mode: with the flag cleared the operation never
raises and — whenever the strict run would have failed — returns the
input map unchanged; with the flag set it raises exactly in those
cases; and on inputs the strict run can parse, both runs return the
same typed instance. -/
theorem C8_parse_strict_vs_best_effort (env : Env) (d : List (String × PyVal))
    (pm pc : Option PyVal) (ct : Option String) :
    (∀ e, parseProp env d pm pc false ct ≠ .error e) ∧
    (∀ e, parseProp env d pm pc true ct = .error e →
       parseProp env d pm pc false ct = .ok (.vDict d)) ∧
    (∀ w, parseProp env d pm pc true ct = .ok w →
       parseProp env d pm pc false ct = .ok w) := by
  refine ⟨?_, ?_, ?_⟩
  · intro e h
    rw [parseProp] at h
    split at h
    · rename_i e1 heq
      exact gct_false_no_err heq
    · exact Except.noConfusion h
    · split at h
      · exact Except.noConfusion h
      · simp at h
  · intro e h
    rw [parseProp] at h
    rw [parseProp]
    split at h
    · rename_i e1 heq
      rw [gct_true_err_to_false_none heq]
    · simp at h
    · rename_i cname heq
      rw [gct_true_some_to_false heq]
      dsimp only
      split at h
      · simp at h
      · simp
  · intro w h
    rw [parseProp] at h
    rw [parseProp]
    split at h
    · exact Except.noConfusion h
    · rename_i heq
      rw [gct_true_none_to_false heq]
      simpa using h
    · rename_i cname heq
      rw [gct_true_some_to_false heq]
      dsimp only
      split at h
      · exact h
      · simp at h

def dC8 : List (String × PyVal) :=
  [(generic_parsable_type, .vStr "Foo"), (generic_parsable_module, .vStr "nope")]

theorem C8_parse_strict_vs_best_effort_witness :
    parseProp env0 dC8 none none true none = .error .hydrationError ∧
    parseProp env0 dC8 none none false none = .ok (.vDict dC8) := by
  have hstrict : parseProp env0 dC8 none none true none = .error .hydrationError := by
    simp [parseProp, get_class_type, get_class_and_module_strings, dC8, env0,
      lookupAttr, resolveClassType, findModule, generic_parsable_type,
      generic_parsable_module, bind, Except.bind, pure, Except.pure]
  refine ⟨hstrict, ?_⟩
  exact (C8_parse_strict_vs_best_effort env0 dC8 none none none).2.1 .hydrationError hstrict

theorem isNoneV_pyType {x y : PyVal} (h : pyType x = pyType y) :
    isNoneV x = isNoneV y := by
  cases x <;> cases y <;> simp_all [pyType, isNoneV]

theorem epn_cases {a b : GPObj} {n : String}
    (hty : pyType (getAttrVal a.attrs n) = pyType (getAttrVal b.attrs n)) :
    equals_property_name a b n = (.vNone, .vNone, some true) ∨
    equals_property_name a b n = (getAttrVal a.attrs n, getAttrVal b.attrs n, none) := by
  have hnone := isNoneV_pyType hty
  have hhv : hasAttrVal a.attrs n = hasAttrVal b.attrs n := by
    unfold hasAttrVal
    rw [hnone]
  unfold equals_property_name equalsPropertyValues
  dsimp only
  split
  · by_cases ha : hasAttrVal a.attrs n
    · rw [ha] at hhv
      rw [ha, ← hhv]
      simp [hty]
    · simp only [Bool.not_eq_true] at ha
      rw [ha] at hhv
      rw [ha, ← hhv]
      simp
  · simp [hty]

theorem eqFold_of_match {a b : GPObj} :
    ∀ names : List String,
    (∀ n ∈ names, pyType (getAttrVal a.attrs n) = pyType (getAttrVal b.attrs n) ∧
       equalVal (getAttrVal a.attrs n) (getAttrVal b.attrs n) = true) →
    eqFold a b names = true := by
  intro names
  induction names with
  | nil => intro _; rw [eqFold]
  | cons n rest ih =>
    intro hm
    obtain ⟨hty, hev⟩ := hm n (by simp)
    have hrest : ∀ m ∈ rest,
        pyType (getAttrVal a.attrs m) = pyType (getAttrVal b.attrs m) ∧
        equalVal (getAttrVal a.attrs m) (getAttrVal b.attrs m) = true :=
      fun m hmem => hm m (by simp [hmem])
    rw [eqFold]
    split
    · exact ih hrest
    · rename_i heq
      rcases epn_cases hty with hc | hc <;> rw [heq] at hc <;> simp at hc
    · rename_i sv ov heq
      have hso := equals_property_name_none heq
      rw [hso.1, hso.2, hev, ih hrest]
      rfl

theorem equals_of_match {a b : GPObj} (hcls : a.cls = b.cls)
    (hmatch : ∀ n, (n ∈ a.reg.serializable ∨ n ∈ a.reg.enum ∨ n ∈ a.reg.parsable ∨
        n ∈ a.reg.dictOf ∨ n ∈ a.reg.listOf ∨ n ∈ a.reg.specialized) →
      pyType (getAttrVal a.attrs n) = pyType (getAttrVal b.attrs n) ∧
      equalVal (getAttrVal a.attrs n) (getAttrVal b.attrs n) = true) :
    equals a b = true := by
  rw [equals]
  rw [if_neg (by simp [hcls])]
  have h1 := eqFold_of_match a.reg.serializable (fun n hn => hmatch n (Or.inl hn))
  have h2 := eqFold_of_match a.reg.enum (fun n hn => hmatch n (Or.inr (Or.inl hn)))
  have h3 := eqFold_of_match a.reg.parsable
    (fun n hn => hmatch n (Or.inr (Or.inr (Or.inl hn))))
  have h4 := eqFold_of_match a.reg.dictOf
    (fun n hn => hmatch n (Or.inr (Or.inr (Or.inr (Or.inl hn)))))
  have h5 := eqFold_of_match a.reg.listOf
    (fun n hn => hmatch n (Or.inr (Or.inr (Or.inr (Or.inr (Or.inl hn))))))
  have h6 := eqFold_of_match a.reg.specialized
    (fun n hn => hmatch n (Or.inr (Or.inr (Or.inr (Or.inr (Or.inr hn))))))
  rw [h1, h2, h3, h4, h5, h6]
  rfl

theorem equalValList_of_self {xs : List PyVal} (h : ∀ x ∈ xs, equalVal x x = true) :
    equalValList xs xs = true := by
  induction xs with
  | nil => rw [equalValList]
  | cons x r ih =>
    rw [equalValList]
    rw [h x (by simp), ih (fun y hy => h y (by simp [hy]))]
    rfl

theorem equalValKV_of_self {kvs : List (String × PyVal)}
    (h : ∀ p ∈ kvs, equalVal p.2 p.2 = true) :
    equalValKV kvs kvs = true := by
  induction kvs with
  | nil => rw [equalValKV]
  | cons p r ih =>
    obtain ⟨k, v⟩ := p
    rw [equalValKV]
    rw [h (k, v) (by simp), ih (fun q hq => h q (by simp [hq]))]
    simp

theorem equalVal_refl_aux : ∀ (N : Nat) (v : PyVal), sizeOf v ≤ N → equalVal v v = true := by
  intro N
  induction N using Nat.strong_induction_on with
  | _ N ih =>
    intro v hv
    cases v with
    | vNone => rw [equalVal]
    | vBool b => rw [equalVal]; simp
    | vInt i => rw [equalVal]; simp
    | vStr s => rw [equalVal]; simp
    | vEnum e m => rw [equalVal]; simp
    | vList xs =>
      rw [equalVal]
      apply equalValList_of_self
      intro x hx
      have h1 := List.sizeOf_lt_of_mem hx
      have hs : sizeOf x < N := by
        simp at hv
        omega
      exact ih (sizeOf x) hs x le_rfl
    | vSet xs =>
      rw [equalVal]
      apply equalValList_of_self
      intro x hx
      have h1 := List.sizeOf_lt_of_mem hx
      have hs : sizeOf x < N := by
        simp at hv
        omega
      exact ih (sizeOf x) hs x le_rfl
    | vArr xs =>
      rw [equalVal]
      apply equalValList_of_self
      intro x hx
      have h1 := List.sizeOf_lt_of_mem hx
      have hs : sizeOf x < N := by
        simp at hv
        omega
      exact ih (sizeOf x) hs x le_rfl
    | vDict kvs =>
      rw [equalVal]
      apply equalValKV_of_self
      intro p hp
      obtain ⟨k, w⟩ := p
      have h1 := List.sizeOf_lt_of_mem hp
      have hs : sizeOf w < N := by
        simp at hv h1
        omega
      exact ih (sizeOf w) hs w le_rfl
    | vObj c m r a =>
      rw [equalVal]
      apply equals_of_match rfl
      intro n _
      refine ⟨rfl, ?_⟩
      have h1 : sizeOf (getAttrVal a n) ≤ sizeOf a := getAttrD_sizeOf a n
      have hs : sizeOf (getAttrVal a n) < N := by
        simp at hv
        omega
      exact ih (sizeOf (getAttrVal a n)) hs (getAttrVal a n) le_rfl

theorem equalVal_refl (v : PyVal) : equalVal v v = true :=
  equalVal_refl_aux (sizeOf v) v le_rfl

theorem equalValList_refl (xs : List PyVal) : equalValList xs xs = true :=
  equalValList_of_self (fun x _ => equalVal_refl x)

theorem equalValKV_refl (kvs : List (String × PyVal)) : equalValKV kvs kvs = true :=
  equalValKV_of_self (fun p _ => equalVal_refl p.2)

theorem presentForEmit_pop {reg : Registration} {attrs : List (String × PyVal)} {n : String}
    (h : isNoneV (getAttrVal attrs n) = false) : presentForEmit reg attrs n = true := by
  unfold presentForEmit
  split
  · unfold hasAttrVal
    rw [h]
    rfl
  · rfl

theorem flatten_serStable {v : PyVal} (h : serStable v = true) :
    flattenSerializable v = v := by
  cases v <;> simp_all [serStable, flattenSerializable]

theorem encSerNames_other {reg : Registration} {attrs : List (String × PyVal)} {X : String} :
    ∀ (names : List String) (out : List (String × PyVal)), X ∉ names →
      lookupAttr (encSerNames reg attrs names out) X = lookupAttr out X := by
  intro names
  induction names with
  | nil => intro out _; rw [encSerNames]
  | cons n rest ih =>
    intro out hX
    rw [encSerNames]
    rw [ih _ (fun h => hX (by simp [h]))]
    unfold to_dict_serializable
    split
    · rw [lookupAttr_dictSet, if_neg (fun h => hX (by simp [h]))]
    · rfl

theorem encSerNames_emit {reg : Registration} {attrs : List (String × PyVal)} {n : String}
    (hpres : presentForEmit reg attrs n = true) :
    ∀ (names : List String) (out : List (String × PyVal)), n ∈ names →
      lookupAttr (encSerNames reg attrs names out) n =
        some (flattenSerializable (getAttrVal attrs n)) := by
  intro names
  induction names with
  | nil => intro out h; simp at h
  | cons m rest ih =>
    intro out hmem
    rw [encSerNames]
    by_cases hr : n ∈ rest
    · exact ih _ hr
    · have hnm : m = n := by
        rcases List.mem_cons.mp hmem with h | h
        · exact h.symm
        · exact absurd h hr
      subst hnm
      rw [encSerNames_other rest _ hr]
      unfold to_dict_serializable
      rw [if_pos hpres, lookupAttr_dictSet, if_pos rfl]

theorem encEnumNames_ok {reg : Registration} {attrs : List (String × PyVal)} :
    ∀ (names : List String),
      (∀ n ∈ names, ∃ e mem, getAttrVal attrs n = .vEnum e mem) →
      ∀ out, ∃ out', encEnumNames reg attrs names out = .ok out' := by
  intro names
  induction names with
  | nil => intro _ out; exact ⟨out, by rw [encEnumNames]⟩
  | cons n rest ih =>
    intro hv out
    obtain ⟨e, mem, hg⟩ := hv n (by simp)
    have hstep : ∃ out1, to_dict_enum reg attrs out n = .ok out1 := by
      unfold to_dict_enum
      split
      · rw [hg]
        exact ⟨_, rfl⟩
      · exact ⟨_, rfl⟩
    obtain ⟨out1, h1⟩ := hstep
    obtain ⟨out', h2⟩ := ih (fun m hm => hv m (by simp [hm])) out1
    refine ⟨out', ?_⟩
    rw [encEnumNames, h1]
    simp only [bind, Except.bind]
    exact h2

theorem encEnumNames_other {reg : Registration} {attrs : List (String × PyVal)} {X : String} :
    ∀ (names : List String) (out out' : List (String × PyVal)),
      encEnumNames reg attrs names out = .ok out' → X ∉ names →
      lookupAttr out' X = lookupAttr out X := by
  intro names
  induction names with
  | nil =>
    intro out out' h _
    rw [encEnumNames] at h
    simp at h
    rw [← h]
  | cons n rest ih =>
    intro out out' h hX
    rw [encEnumNames] at h
    rcases except_bind_ok h with ⟨out1, h1, h2⟩
    rw [ih _ _ h2 (fun hh => hX (by simp [hh]))]
    unfold to_dict_enum at h1
    split at h1
    · split at h1
      · simp at h1
        rw [← h1, lookupAttr_dictSet, if_neg (fun hh => hX (by simp [hh]))]
      · exact Except.noConfusion h1
    · simp at h1
      rw [← h1]

theorem encEnumNames_emit {reg : Registration} {attrs : List (String × PyVal)} {n : String}
    {e mem : String} (hpres : presentForEmit reg attrs n = true)
    (hg : getAttrVal attrs n = .vEnum e mem) :
    ∀ (names : List String) (out out' : List (String × PyVal)),
      encEnumNames reg attrs names out = .ok out' → n ∈ names →
      lookupAttr out' n = some (.vStr mem) := by
  intro names
  induction names with
  | nil => intro out out' _ h; simp at h
  | cons m rest ih =>
    intro out out' h hmem
    rw [encEnumNames] at h
    rcases except_bind_ok h with ⟨out1, h1, h2⟩
    by_cases hr : n ∈ rest
    · exact ih _ _ h2 hr
    · have hnm : m = n := by
        rcases List.mem_cons.mp hmem with hh | hh
        · exact hh.symm
        · exact absurd hh hr
      subst hnm
      rw [encEnumNames_other rest _ _ h2 hr]
      unfold to_dict_enum at h1
      rw [if_pos hpres, hg] at h1
      simp at h1
      rw [← h1, lookupAttr_dictSet, if_pos rfl]

theorem encParsNames_other {env : Env} {reg : Registration} {attrs : List (String × PyVal)}
    {X : String} :
    ∀ (names : List String) (out out' : List (String × PyVal)),
      encParsNames env reg attrs names out = .ok out' → X ∉ names →
      lookupAttr out' X = lookupAttr out X := by
  intro names
  induction names with
  | nil =>
    intro out out' h _
    rw [encParsNames] at h
    simp at h
    rw [← h]
  | cons n rest ih =>
    intro out out' h hX
    have hXr : X ∉ rest := fun hh => hX (by simp [hh])
    have hXn : ¬ X = n := fun hh => hX (by simp [hh])
    rw [encParsNames] at h
    split at h
    · split at h
      · rcases except_bind_ok h with ⟨dn, hdn, h2⟩
        rw [ih _ _ h2 hXr, lookupAttr_dictSet, if_neg hXn]
      · exact Except.noConfusion h
    · exact ih _ _ h hXr

theorem encParsNames_emit {env : Env} {reg : Registration} {attrs : List (String × PyVal)}
    {n : String} {c m : String} {r : Registration} {a dn : List (String × PyVal)}
    (hpres : presentForEmit reg attrs n = true)
    (hg : getAttrVal attrs n = .vObj c m r a)
    (hdn : to_dict env ⟨c, m, r, a⟩ = .ok dn) :
    ∀ (names : List String) (out out' : List (String × PyVal)),
      encParsNames env reg attrs names out = .ok out' → n ∈ names →
      lookupAttr out' n = some (.vDict dn) := by
  intro names
  induction names with
  | nil => intro out out' _ h; simp at h
  | cons p rest ih =>
    intro out out' h hmem
    by_cases hr : n ∈ rest
    · rw [encParsNames] at h
      split at h
      · split at h
        · rcases except_bind_ok h with ⟨d2, hd2, h2⟩
          exact ih _ _ h2 hr
        · exact Except.noConfusion h
      · exact ih _ _ h hr
    · have hp : p = n := by
        rcases List.mem_cons.mp hmem with hh | hh
        · exact hh.symm
        · exact absurd hh hr
      subst hp
      rw [encParsNames] at h
      rw [if_pos hpres] at h
      split at h
      · rename_i c2 m2 r2 a2 heq
        rw [hg] at heq
        injection heq with e1 e2 e3 e4
        subst e1
        subst e2
        subst e3
        subst e4
        rcases except_bind_ok h with ⟨d2, hd2, h2⟩
        rw [hdn] at hd2
        injection hd2 with he
        subst he
        rw [encParsNames_other rest _ _ h2 hr, lookupAttr_dictSet, if_pos rfl]
      · exact Except.noConfusion h

theorem encParsNames_ok {env : Env} {reg : Registration} {attrs : List (String × PyVal)} :
    ∀ (names : List String),
      (∀ n ∈ names, ∃ c m r a, getAttrVal attrs n = .vObj c m r a ∧
         ∃ dn, to_dict env ⟨c, m, r, a⟩ = .ok dn) →
      ∀ out, ∃ out', encParsNames env reg attrs names out = .ok out' := by
  intro names
  induction names with
  | nil => intro _ out; exact ⟨out, by rw [encParsNames]⟩
  | cons n rest ih =>
    intro hv out
    obtain ⟨c, m, r, a, hg, dn, hdn⟩ := hv n (by simp)
    have hrest : ∀ p ∈ rest, ∃ c m r a, getAttrVal attrs p = .vObj c m r a ∧
        ∃ dn, to_dict env ⟨c, m, r, a⟩ = .ok dn :=
      fun p hp => hv p (by simp [hp])
    rw [encParsNames]
    split
    · split
      · rename_i c2 m2 r2 a2 heq
        rw [hg] at heq
        injection heq with e1 e2 e3 e4
        subst e1
        subst e2
        subst e3
        subst e4
        rw [hdn]
        simp only [bind, Except.bind]
        exact ih hrest _
      · rename_i hcon
        exact absurd hg (by intro hh; exact hcon c m r a hh)
    · exact ih hrest _

theorem encDictNames_other {env : Env} {reg : Registration} {attrs : List (String × PyVal)}
    {X : String} :
    ∀ (names : List String) (out out' : List (String × PyVal)),
      encDictNames env reg attrs names out = .ok out' → X ∉ names →
      lookupAttr out' X = lookupAttr out X := by
  intro names
  induction names with
  | nil =>
    intro out out' h _
    rw [encDictNames] at h
    simp at h
    rw [← h]
  | cons n rest ih =>
    intro out out' h hX
    have hXr : X ∉ rest := fun hh => hX (by simp [hh])
    have hXn : ¬ X = n := fun hh => hX (by simp [hh])
    rw [encDictNames] at h
    split at h
    · split at h
      · rcases except_bind_ok h with ⟨s, hs, h2⟩
        rw [ih _ _ h2 hXr, lookupAttr_dictSet, if_neg hXn]
      · exact ih _ _ h hXr
    · exact ih _ _ h hXr

theorem encDictNames_emit {env : Env} {reg : Registration} {attrs : List (String × PyVal)}
    {n : String} {kvs s : List (String × PyVal)}
    (hpres : presentForEmit reg attrs n = true)
    (hg : getAttrVal attrs n = .vDict kvs)
    (hs : serialized_dict env kvs = .ok s) :
    ∀ (names : List String) (out out' : List (String × PyVal)),
      encDictNames env reg attrs names out = .ok out' → n ∈ names →
      lookupAttr out' n = some (.vDict s) := by
  intro names
  induction names with
  | nil => intro out out' _ h; simp at h
  | cons p rest ih =>
    intro out out' h hmem
    by_cases hr : n ∈ rest
    · rw [encDictNames] at h
      split at h
      · split at h
        · rcases except_bind_ok h with ⟨s2, hs2, h2⟩
          exact ih _ _ h2 hr
        · exact ih _ _ h hr
      · exact ih _ _ h hr
    · have hp : p = n := by
        rcases List.mem_cons.mp hmem with hh | hh
        · exact hh.symm
        · exact absurd hh hr
      subst hp
      rw [encDictNames] at h
      rw [if_pos hpres] at h
      split at h
      · rename_i kvs2 heq
        rw [hg] at heq
        injection heq with he
        subst he
        rcases except_bind_ok h with ⟨s2, hs2, h2⟩
        rw [hs] at hs2
        injection hs2 with he2
        subst he2
        rw [encDictNames_other rest _ _ h2 hr, lookupAttr_dictSet, if_pos rfl]
      · rename_i hcon
        exact (hcon kvs hg).elim

theorem encDictNames_ok {env : Env} {reg : Registration} {attrs : List (String × PyVal)} :
    ∀ (names : List String),
      (∀ n ∈ names, ∀ kvs, getAttrVal attrs n = .vDict kvs →
         ∃ s, serialized_dict env kvs = .ok s) →
      ∀ out, ∃ out', encDictNames env reg attrs names out = .ok out' := by
  intro names
  induction names with
  | nil => intro _ out; exact ⟨out, by rw [encDictNames]⟩
  | cons n rest ih =>
    intro hv out
    have hrest : ∀ p ∈ rest, ∀ kvs, getAttrVal attrs p = .vDict kvs →
        ∃ s, serialized_dict env kvs = .ok s :=
      fun p hp => hv p (by simp [hp])
    rw [encDictNames]
    split
    · split
      · rename_i kvs heq
        obtain ⟨s, hs⟩ := hv n (by simp) kvs heq
        rw [hs]
        simp only [bind, Except.bind]
        exact ih hrest _
      · exact ih hrest _
    · exact ih hrest _

theorem encListNames_other {env : Env} {reg : Registration} {attrs : List (String × PyVal)}
    {X : String} :
    ∀ (names : List String) (out out' : List (String × PyVal)),
      encListNames env reg attrs names out = .ok out' → X ∉ names →
      lookupAttr out' X = lookupAttr out X := by
  intro names
  induction names with
  | nil =>
    intro out out' h _
    rw [encListNames] at h
    simp at h
    rw [← h]
  | cons n rest ih =>
    intro out out' h hX
    have hXr : X ∉ rest := fun hh => hX (by simp [hh])
    have hXn : ¬ X = n := fun hh => hX (by simp [hh])
    rw [encListNames] at h
    split at h
    · split at h
      · rcases except_bind_ok h with ⟨s, hs, h2⟩
        rw [ih _ _ h2 hXr, lookupAttr_dictSet, if_neg hXn]
      · rcases except_bind_ok h with ⟨s, hs, h2⟩
        rw [ih _ _ h2 hXr, lookupAttr_dictSet, if_neg hXn]
      · rw [ih _ _ h hXr, lookupAttr_dictSet, if_neg hXn]
      · exact ih _ _ h hXr
    · exact ih _ _ h hXr

theorem encListNames_emit {env : Env} {reg : Registration} {attrs : List (String × PyVal)}
    {n : String} {xs s : List PyVal}
    (hpres : presentForEmit reg attrs n = true)
    (hg : getAttrVal attrs n = .vList xs)
    (hs : serialized_list env xs = .ok s) :
    ∀ (names : List String) (out out' : List (String × PyVal)),
      encListNames env reg attrs names out = .ok out' → n ∈ names →
      lookupAttr out' n = some (.vList s) := by
  intro names
  induction names with
  | nil => intro out out' _ h; simp at h
  | cons p rest ih =>
    intro out out' h hmem
    by_cases hr : n ∈ rest
    · rw [encListNames] at h
      split at h
      · split at h
        · rcases except_bind_ok h with ⟨s2, hs2, h2⟩
          exact ih _ _ h2 hr
        · rcases except_bind_ok h with ⟨s2, hs2, h2⟩
          exact ih _ _ h2 hr
        · exact ih _ _ h hr
        · exact ih _ _ h hr
      · exact ih _ _ h hr
    · have hp : p = n := by
        rcases List.mem_cons.mp hmem with hh | hh
        · exact hh.symm
        · exact absurd hh hr
      subst hp
      rw [encListNames] at h
      rw [if_pos hpres] at h
      split at h
      · rename_i xs2 heq
        rw [hg] at heq
        injection heq with he
        subst he
        rcases except_bind_ok h with ⟨s2, hs2, h2⟩
        rw [hs] at hs2
        injection hs2 with he2
        subst he2
        rw [encListNames_other rest _ _ h2 hr, lookupAttr_dictSet, if_pos rfl]
      · rename_i xs2 heq
        rw [hg] at heq
        exact PyVal.noConfusion heq
      · rename_i s2 heq
        rw [hg] at heq
        exact PyVal.noConfusion heq
      · rename_i hcon1 hcon2 hcon3
        exact (hcon1 xs hg).elim

theorem encListNames_ok {env : Env} {reg : Registration} {attrs : List (String × PyVal)} :
    ∀ (names : List String),
      (∀ n ∈ names,
        (∀ xs, getAttrVal attrs n = .vList xs → ∃ s, serialized_list env xs = .ok s) ∧
        (∀ xs, getAttrVal attrs n = .vSet xs → ∃ s, serialized_list env xs = .ok s)) →
      ∀ out, ∃ out', encListNames env reg attrs names out = .ok out' := by
  intro names
  induction names with
  | nil => intro _ out; exact ⟨out, by rw [encListNames]⟩
  | cons n rest ih =>
    intro hv out
    have hrest : ∀ p ∈ rest,
        (∀ xs, getAttrVal attrs p = .vList xs → ∃ s, serialized_list env xs = .ok s) ∧
        (∀ xs, getAttrVal attrs p = .vSet xs → ∃ s, serialized_list env xs = .ok s) :=
      fun p hp => hv p (by simp [hp])
    rw [encListNames]
    split
    · split
      · rename_i xs heq
        obtain ⟨s, hs⟩ := (hv n (by simp)).1 xs heq
        rw [hs]
        simp only [bind, Except.bind]
        exact ih hrest _
      · rename_i xs heq
        obtain ⟨s, hs⟩ := (hv n (by simp)).2 xs heq
        rw [hs]
        simp only [bind, Except.bind]
        exact ih hrest _
      · exact ih hrest _
      · exact ih hrest _
    · exact ih hrest _

theorem encSpecNames_other {env : Env} {cls : String} {reg : Registration}
    {attrs : List (String × PyVal)} {X : String} :
    ∀ (names : List String) (out out' : List (String × PyVal)),
      encSpecNames env cls reg attrs names out = .ok out' → X ∉ names →
      lookupAttr out' X = lookupAttr out X := by
  intro names
  induction names with
  | nil =>
    intro out out' h _
    rw [encSpecNames] at h
    simp at h
    rw [← h]
  | cons n rest ih =>
    intro out out' h hX
    rw [encSpecNames] at h
    rcases except_bind_ok h with ⟨out1, h1, h2⟩
    rw [ih _ _ h2 (fun hh => hX (by simp [hh]))]
    unfold to_dict_specialized at h1
    split at h1
    · split at h1
      · simp at h1
        rw [← h1, lookupAttr_dictSet, if_neg (fun hh => hX (by simp [hh]))]
      · simp at h1
        rw [← h1]
    · exact Except.noConfusion h1

theorem encSpecNames_emit {env : Env} {cls : String} {reg : Registration}
    {attrs : List (String × PyVal)} {n : String} {cd : Codec}
    (hpres : presentForEmit reg attrs n = true)
    (hcd : findCodec env cls n = some cd) :
    ∀ (names : List String) (out out' : List (String × PyVal)),
      encSpecNames env cls reg attrs names out = .ok out' → n ∈ names →
      lookupAttr out' n = some (cd.enc (getAttrVal attrs n)) := by
  intro names
  induction names with
  | nil => intro out out' _ h; simp at h
  | cons m rest ih =>
    intro out out' h hmem
    rw [encSpecNames] at h
    rcases except_bind_ok h with ⟨out1, h1, h2⟩
    by_cases hr : n ∈ rest
    · exact ih _ _ h2 hr
    · have hnm : m = n := by
        rcases List.mem_cons.mp hmem with hh | hh
        · exact hh.symm
        · exact absurd hh hr
      subst hnm
      rw [encSpecNames_other rest _ _ h2 hr]
      unfold to_dict_specialized at h1
      rw [hcd] at h1
      simp only [if_pos hpres] at h1
      simp at h1
      rw [← h1, lookupAttr_dictSet, if_pos rfl]

theorem encSpecNames_ok {env : Env} {cls : String} {reg : Registration}
    {attrs : List (String × PyVal)} :
    ∀ (names : List String),
      (∀ n ∈ names, ∃ cd, findCodec env cls n = some cd) →
      ∀ out, ∃ out', encSpecNames env cls reg attrs names out = .ok out' := by
  intro names
  induction names with
  | nil => intro _ out; exact ⟨out, by rw [encSpecNames]⟩
  | cons n rest ih =>
    intro hv out
    obtain ⟨cd, hcd⟩ := hv n (by simp)
    have hstep : ∃ out1, to_dict_specialized env cls reg attrs out n = .ok out1 := by
      unfold to_dict_specialized
      rw [hcd]
      dsimp only
      by_cases hp : presentForEmit reg attrs n = true
      · exact ⟨_, by rw [if_pos hp]⟩
      · exact ⟨_, by rw [if_neg hp]⟩
    obtain ⟨out1, h1⟩ := hstep
    obtain ⟨out', h2⟩ := ih (fun m hm => hv m (by simp [hm])) out1
    refine ⟨out', ?_⟩
    rw [encSpecNames, h1]
    simp only [bind, Except.bind]
    exact h2

theorem parseProp_false_ok (env : Env) (d : List (String × PyVal))
    (pm pc : Option PyVal) (ct : Option String) :
    ∃ w, parseProp env d pm pc false ct = .ok w := by
  rw [parseProp]
  cases hg : get_class_type env d pm pc false ct with
  | error e => exact (gct_false_no_err hg).elim
  | ok oc =>
    cases oc with
    | none => exact ⟨_, rfl⟩
    | some cname =>
      dsimp only
      cases hh : hydrate env cname d with
      | ok w => exact ⟨w, rfl⟩
      | error e => exact ⟨.vDict d, by simp⟩

theorem enum_parse_member {e : String} {ms : List String} {m : String}
    (h : ms.contains m = true) : enum_parse e ms (.vStr m) = .ok (.vEnum e m) := by
  have h2 : m ∈ ms := by simpa using h
  rw [enum_parse]
  simp [h2]

theorem assignAttr_ok {env : Env} {reg : Registration} {attrs : List (String × PyVal)}
    {n : String} {v : PyVal}
    (henum : reg.enum.contains n = true → ∀ dom, findEnumDomain reg n = some dom →
       ∃ w, enum_parse dom.1 dom.2 v = .ok w) :
    ∃ attrs', assignAttr env reg attrs n v = .ok attrs' := by
  rw [assignAttr.eq_def]
  by_cases hp : reg.parsable.contains n = true
  · rw [if_pos hp]
    cases v with
    | vDict kvs =>
      dsimp only
      obtain ⟨w, hw⟩ := parseProp_false_ok env kvs none none none
      rw [hw]
      exact ⟨_, rfl⟩
    | vNone => exact ⟨_, rfl⟩
    | vBool b => exact ⟨_, rfl⟩
    | vInt i => exact ⟨_, rfl⟩
    | vStr s => exact ⟨_, rfl⟩
    | vEnum e mm => exact ⟨_, rfl⟩
    | vList xs => exact ⟨_, rfl⟩
    | vSet xs => exact ⟨_, rfl⟩
    | vArr xs => exact ⟨_, rfl⟩
    | vObj c mm r a => exact ⟨_, rfl⟩
  · rw [if_neg hp]
    by_cases he : reg.enum.contains n = true
    · rw [if_pos he]
      cases hd : findEnumDomain reg n with
      | some dom =>
        dsimp only
        obtain ⟨w, hw⟩ := henum he dom hd
        rw [hw]
        exact ⟨_, rfl⟩
      | none => exact ⟨_, rfl⟩
    · rw [if_neg he]
      exact ⟨_, rfl⟩

theorem ctorAssign_ok {env : Env} {d : List (String × PyVal)} {reg : Registration}
    (henum : ∀ n, reg.enum.contains n = true → ∀ dom, findEnumDomain reg n = some dom →
       ∀ v, lookupAttr d n = some v → ∃ w, enum_parse dom.1 dom.2 v = .ok w) :
    ∀ (names : List String) (o : GPObj), o.reg = reg →
    ∃ o1, ctorAssign env o names d = .ok o1 ∧ o1.cls = o.cls ∧ o1.mod = o.mod ∧
      o1.reg = o.reg := by
  intro names
  induction names with
  | nil =>
    intro o _
    exact ⟨o, by rw [ctorAssign], rfl, rfl, rfl⟩
  | cons r rest ih =>
    intro o hr
    rw [ctorAssign]
    cases hv : lookupAttr d r with
    | none => exact ih o hr
    | some v =>
      dsimp only
      obtain ⟨attrs', ha⟩ := @assignAttr_ok env o.reg o.attrs r v
        (by rw [hr]; exact fun hc dom hdom => henum r hc dom hdom v hv)
      rw [ha]
      obtain ⟨o1, h1, h2, h3, h4⟩ := ih { o with attrs := attrs' } hr
      exact ⟨o1, h1, h2, h3, h4⟩

theorem split_ok_of_sub {reg : Registration}
    (h : ∀ n ∈ reg.desiredOrder, n ∈ collect_all_attributes reg) :
    ∃ pr, split_ordered_and_unordered_attributes reg = .ok pr := by
  unfold split_ordered_and_unordered_attributes
  dsimp only
  by_cases h0 : reg.desiredOrder = []
  · rw [if_pos h0]
    exact ⟨_, rfl⟩
  · rw [if_neg h0]
    have hm : reg.desiredOrder.filter
        (fun a => !((collect_all_attributes reg).contains a)) = [] := by
      rw [List.filter_eq_nil]
      intro a ha
      simp
      exact h a ha
    rw [if_pos hm]
    exact ⟨_, rfl⟩

/-- Pairwise disjointness of the six category lists, as the exactly-one-
category contract yields it. -/
def CatDisjoint (reg : Registration) : Prop :=
  (∀ n ∈ reg.serializable, n ∉ reg.enum ∧ n ∉ reg.parsable ∧ n ∉ reg.specialized ∧
     n ∉ reg.dictOf ∧ n ∉ reg.listOf) ∧
  (∀ n ∈ reg.enum, n ∉ reg.parsable ∧ n ∉ reg.specialized ∧ n ∉ reg.dictOf ∧
     n ∉ reg.listOf) ∧
  (∀ n ∈ reg.parsable, n ∉ reg.specialized ∧ n ∉ reg.dictOf ∧ n ∉ reg.listOf) ∧
  (∀ n ∈ reg.specialized, n ∉ reg.dictOf ∧ n ∉ reg.listOf) ∧
  (∀ n ∈ reg.dictOf, n ∉ reg.listOf)

theorem collect_nodup_disjoint {reg : Registration}
    (h : (collect_all_attributes reg).Nodup) : CatDisjoint reg := by
  unfold collect_all_attributes at h
  have d5 := List.disjoint_of_nodup_append h
  have h5 := h.of_append_left
  have d4 := List.disjoint_of_nodup_append h5
  have h4 := h5.of_append_left
  have d3 := List.disjoint_of_nodup_append h4
  have h3 := h4.of_append_left
  have d2 := List.disjoint_of_nodup_append h3
  have h2 := h3.of_append_left
  have d1 := List.disjoint_of_nodup_append h2
  refine ⟨?_, ?_, ?_, ?_, ?_⟩
  · intro n hn
    exact ⟨fun hh => d1 (by simp [hn]) hh, fun hh => d2 (by simp [hn]) hh,
      fun hh => d3 (by simp [hn]) hh, fun hh => d4 (by simp [hn]) hh,
      fun hh => d5 (by simp [hn]) hh⟩
  · intro n hn
    exact ⟨fun hh => d2 (by simp [hn]) hh, fun hh => d3 (by simp [hn]) hh,
      fun hh => d4 (by simp [hn]) hh, fun hh => d5 (by simp [hn]) hh⟩
  · intro n hn
    exact ⟨fun hh => d3 (by simp [hn]) hh, fun hh => d4 (by simp [hn]) hh,
      fun hh => d5 (by simp [hn]) hh⟩
  · intro n hn
    exact ⟨fun hh => d4 (by simp [hn]) hh, fun hh => d5 (by simp [hn]) hh⟩
  · intro n hn
    exact fun hh => d5 (by simp [hn]) hh

/-- The per-name category dispatch `from_dict` performs, factored out of
the loop. -/
def fdDispatch (env : Env) (cls : String) (reg : Registration)
    (attrs d : List (String × PyVal)) (n : String) :
    Except PyErr (List (String × PyVal)) :=
  if reg.serializable.contains n then fdSerStep env reg attrs d n
  else if reg.parsable.contains n then fdSerStep env reg attrs d n
  else if reg.enum.contains n then fdSerStep env reg attrs d n
  else if reg.dictOf.contains n then fdDictStep env reg attrs d n
  else if reg.listOf.contains n then fdListStep env reg attrs d n
  else if reg.specialized.contains n then from_dict_specialized_step env cls attrs d n
  else .error (.unknownAttribute n)

theorem fdNames_cons (env : Env) (o : GPObj) (n : String) (rest : List String)
    (d : List (String × PyVal)) :
    fdNames env o (n :: rest) d =
      (fdDispatch env o.cls o.reg o.attrs d n) >>=
        (fun attrs' => fdNames env { o with attrs := attrs' } rest d) := by
  rw [fdNames]
  unfold fdDispatch
  repeat' split
  all_goals rfl

theorem fdNames_fold {env : Env} {d : List (String × PyVal)} {cls0 : String}
    {reg0 : Registration} (P : String → PyVal → Prop) :
    ∀ (names : List String) (oacc : GPObj), oacc.cls = cls0 → oacc.reg = reg0 →
    (∀ n ∈ names, ∃ v',
       (∀ attrs, fdDispatch env cls0 reg0 attrs d n = .ok (dictSet attrs n v')) ∧ P n v') →
    ∃ o', fdNames env oacc names d = .ok o' ∧ o'.cls = oacc.cls ∧ o'.mod = oacc.mod ∧
      o'.reg = oacc.reg ∧
      (∀ n ∈ names, ∃ v', lookupAttr o'.attrs n = some v' ∧ P n v') ∧
      (∀ X, X ∉ names → lookupAttr o'.attrs X = lookupAttr oacc.attrs X) := by
  intro names
  induction names with
  | nil =>
    intro oacc _ _ _
    refine ⟨oacc, by rw [fdNames], rfl, rfl, rfl, ?_, fun X _ => rfl⟩
    intro n hn
    simp at hn
  | cons n rest ih =>
    intro oacc hc hr hstep
    obtain ⟨v', hdisp, hP⟩ := hstep n (by simp)
    have hrest : ∀ m ∈ rest, ∃ w,
        (∀ attrs, fdDispatch env cls0 reg0 attrs d m = .ok (dictSet attrs m w)) ∧ P m w :=
      fun m hm => hstep m (by simp [hm])
    have hstepacc : fdDispatch env oacc.cls oacc.reg oacc.attrs d n =
        .ok (dictSet oacc.attrs n v') := by
      rw [hc, hr]
      exact hdisp oacc.attrs
    have hcons := fdNames_cons env oacc n rest d
    obtain ⟨o', h1, h2, h3, h4, h5, h6⟩ :=
      ih { oacc with attrs := dictSet oacc.attrs n v' } hc hr hrest
    refine ⟨o', ?_, h2, h3, h4, ?_, ?_⟩
    · rw [hcons, hstepacc]
      simp only [bind, Except.bind]
      exact h1
    · intro m hm
      by_cases hmr : m ∈ rest
      · exact h5 m hmr
      · have hmn : m = n := by
          rcases List.mem_cons.mp hm with hh | hh
          · exact hh
          · exact absurd hh hmr
        subst hmn
        rw [h6 m hmr, lookupAttr_dictSet, if_pos rfl]
        exact ⟨v', rfl, hP⟩
    · intro X hX
      have hXr : X ∉ rest := fun hh => hX (by simp [hh])
      have hXn : ¬ X = n := fun hh => hX (by simp [hh])
      rw [h6 X hXr, lookupAttr_dictSet, if_neg hXn]

theorem parsReady_mem {env : Env} {attrs : List (String × PyVal)} :
    ∀ {names : List String}, ParsReady env attrs names → ∀ n ∈ names,
      ∃ c m r a, getAttrVal attrs n = .vObj c m r a ∧
        Ready env ⟨c, m, r, a⟩ ∧ Resolvable env ⟨c, m, r, a⟩ := by
  intro names
  induction names with
  | nil => intro _ n hn; simp at hn
  | cons p rest ih =>
    intro h n hn
    rw [ParsReady] at h
    obtain ⟨h1, h2⟩ := h
    rcases List.mem_cons.mp hn with hh | hh
    · subst hh
      split at h1
      · rename_i c m r a hg
        exact ⟨c, m, r, a, hg, h1.1, h1.2⟩
      · exact h1.elim
    · exact ih h2 n hh

theorem dictReady_mem {env : Env} {attrs : List (String × PyVal)} :
    ∀ {names : List String}, DictReady env attrs names → ∀ n ∈ names,
      ∃ kvs, getAttrVal attrs n = .vDict kvs ∧ ElemsKVReady env kvs := by
  intro names
  induction names with
  | nil => intro _ n hn; simp at hn
  | cons p rest ih =>
    intro h n hn
    rw [DictReady] at h
    obtain ⟨h1, h2⟩ := h
    rcases List.mem_cons.mp hn with hh | hh
    · subst hh
      split at h1
      · rename_i kvs hg
        exact ⟨kvs, hg, h1⟩
      · exact h1.elim
    · exact ih h2 n hh

theorem listReady_mem {env : Env} {attrs : List (String × PyVal)} :
    ∀ {names : List String}, ListReady env attrs names → ∀ n ∈ names,
      ∃ xs, getAttrVal attrs n = .vList xs ∧ ElemsLReady env xs := by
  intro names
  induction names with
  | nil => intro _ n hn; simp at hn
  | cons p rest ih =>
    intro h n hn
    rw [ListReady] at h
    obtain ⟨h1, h2⟩ := h
    rcases List.mem_cons.mp hn with hh | hh
    · subst hh
      split at h1
      · rename_i xs hg
        exact ⟨xs, hg, h1⟩
      · exact h1.elim
    · exact ih h2 n hh

/-- The round-trip package: the object encodes successfully, the encoded
map carries the two type-tag keys and a key per registered attribute —
enum attributes as a member name of their declared domain — and decoding
the map into any object of the same class and registration yields an
`equals`-equal object. -/
def RT (env : Env) (o : GPObj) : Prop :=
  ∃ d, to_dict env o = .ok d ∧
    lookupAttr d generic_parsable_type = some (.vStr o.cls) ∧
    lookupAttr d generic_parsable_module = some (.vStr o.mod) ∧
    (∀ n ∈ collect_all_attributes o.reg, hasKey d n = true) ∧
    (∀ n ∈ o.reg.enum, ∀ dom, findEnumDomain o.reg n = some dom →
       ∃ mem, lookupAttr d n = some (.vStr mem) ∧ dom.2.contains mem = true) ∧
    (∀ o0 : GPObj, o0.cls = o.cls → o0.reg = o.reg →
       ∃ o', from_dict env o0 d = .ok o' ∧ o'.cls = o.cls ∧ equals o o' = true)

theorem RT_hydrate_parse {env : Env} {o : GPObj} {dn : List (String × PyVal)}
    (hdn : to_dict env o = .ok dn)
    (htag1 : lookupAttr dn generic_parsable_type = some (.vStr o.cls))
    (htag2 : lookupAttr dn generic_parsable_module = some (.vStr o.mod))
    (hkeys : ∀ n ∈ collect_all_attributes o.reg, hasKey dn n = true)
    (henumc : ∀ n ∈ o.reg.enum, ∀ dom, findEnumDomain o.reg n = some dom →
       ∃ mem, lookupAttr dn n = some (.vStr mem) ∧ dom.2.contains mem = true)
    (hdec : ∀ o0 : GPObj, o0.cls = o.cls → o0.reg = o.reg →
       ∃ o', from_dict env o0 dn = .ok o' ∧ o'.cls = o.cls ∧ equals o o' = true)
    (hres : Resolvable env o) :
    ∀ t : Bool, ∃ o' : GPObj,
      parseProp env dn none none t none = .ok (.vObj o'.cls o'.mod o'.reg o'.attrs) ∧
      o'.cls = o.cls ∧ equals o o' = true := by
  obtain ⟨⟨clsNames, hfm, hcont⟩, cd, hfc, ht1, ht2, ht3, hreq⟩ := hres
  have hall : (required_parameter_for_class_init cd.pyClass).all
      (fun r => hasKey dn r) = true := by
    rw [List.all_eq_true]
    intro r hr
    exact hkeys r (hreq r hr)
  have hreqok : get_required_arguments_for_init cd.pyClass dn =
      .ok ((required_parameter_for_class_init cd.pyClass).map
        (fun r => (r, (lookupAttr dn r).getD .vNone))) := by
    unfold get_required_arguments_for_init
    dsimp only
    rw [if_pos hall]
  have henumc2 : ∀ n, o.reg.enum.contains n = true →
      ∀ dom, findEnumDomain o.reg n = some dom →
      ∀ v, lookupAttr dn n = some v → ∃ w, enum_parse dom.1 dom.2 v = .ok w := by
    intro n hn dom hdom v hv
    obtain ⟨mem, hlk, hmem⟩ := henumc n (by simpa using hn) dom hdom
    rw [hlk] at hv
    injection hv with hv2
    subst hv2
    exact ⟨_, enum_parse_member hmem⟩
  obtain ⟨o1, hctor, hc1, hm1, hr1⟩ := @ctorAssign_ok env dn o.reg
    henumc2 (((required_parameter_for_class_init cd.pyClass).map
        (fun r => (r, (lookupAttr dn r).getD .vNone))).map (·.1)) cd.template ht3
  obtain ⟨o', hfd, hcls', heq'⟩ := hdec o1 (by rw [hc1, ht1]) (by rw [hr1, ht3])
  have hhyd : hydrate env o.cls dn = .ok (.vObj o'.cls o'.mod o'.reg o'.attrs) := by
    rw [hydrate, hfc]
    dsimp only
    rw [hreqok]
    simp only [bind, Except.bind]
    rw [hctor]
    dsimp only
    rw [hfd]
  have hgcms : ∀ t : Bool, get_class_and_module_strings dn none none t =
      .ok (some (.vStr o.cls), some (.vStr o.mod)) := by
    intro t
    unfold get_class_and_module_strings
    simp only [bind, Except.bind, pure, Except.pure]
    rw [htag1, htag2]
  have hgct : ∀ t : Bool, get_class_type env dn none none t none = .ok (some o.cls) := by
    intro t
    unfold get_class_type
    dsimp only
    simp only [bind, Except.bind]
    rw [hgcms t]
    dsimp only
    unfold resolveClassType
    dsimp only
    rw [hfm]
    have hmem : o.cls ∈ clsNames := by simpa using hcont
    simp [hmem]
  intro t
  refine ⟨o', ?_, hcls', heq'⟩
  rw [parseProp, hgct t]
  dsimp only
  rw [hhyd]

theorem serialized_dict_cons_other {env : Env} {k : String} {v : PyVal}
    {rest rest' : List (String × PyVal)} (h : serialized_dict env rest = .ok rest')
    (hno : ∀ c m r a, v ≠ .vObj c m r a) (hna : ∀ xs, v ≠ .vArr xs) :
    serialized_dict env ((k, v) :: rest) = .ok ((k, v) :: rest') := by
  rw [serialized_dict]
  · rw [h]
    rfl
  · exact fun c m r a hh => hno c m r a hh
  · exact fun xs hh => hna xs hh

theorem serialized_list_cons_other {env : Env} {v : PyVal} {rest rest' : List PyVal}
    (h : serialized_list env rest = .ok rest')
    (hno : ∀ c m r a, v ≠ .vObj c m r a) (hna : ∀ xs, v ≠ .vArr xs) :
    serialized_list env (v :: rest) = .ok (v :: rest') := by
  rw [serialized_list]
  · rw [h]
    rfl
  · exact fun c m r a hh => hno c m r a hh
  · exact fun xs hh => hna xs hh

theorem parsed_dict_cons_other {env : Env} {k : String} {v : PyVal}
    {rest rest' : List (String × PyVal)} (h : parsed_dict env rest = .ok rest')
    (hnd : ∀ kvs, v ≠ .vDict kvs) :
    parsed_dict env ((k, v) :: rest) = .ok ((k, v) :: rest') := by
  rw [parsed_dict]
  · rw [h]
    rfl
  · exact fun kvs hh => hnd kvs hh

theorem parsed_dict_cons_notag {env : Env} {k : String} {kvs : List (String × PyVal)}
    {rest rest' : List (String × PyVal)} (h : parsed_dict env rest = .ok rest')
    (hkey : hasKey kvs generic_parsable_type = false) :
    parsed_dict env ((k, .vDict kvs) :: rest) = .ok ((k, .vDict kvs) :: rest') := by
  rw [parsed_dict]
  try dsimp only
  rw [if_neg (by simp [hkey])]
  rw [h]
  rfl

theorem parsed_list_cons_other {env : Env} {v : PyVal} {rest rest' : List PyVal}
    (h : parsed_list env rest = .ok rest') (hnd : ∀ kvs, v ≠ .vDict kvs) :
    parsed_list env (v :: rest) = .ok (v :: rest') := by
  rw [parsed_list]
  · rw [h]
    rfl
  · exact fun kvs hh => hnd kvs hh

theorem parsed_list_cons_notag {env : Env} {kvs : List (String × PyVal)}
    {rest rest' : List PyVal} (h : parsed_list env rest = .ok rest')
    (hkey : hasKey kvs generic_parsable_type = false) :
    parsed_list env (.vDict kvs :: rest) = .ok (.vDict kvs :: rest') := by
  rw [parsed_list]
  try dsimp only
  rw [if_neg (by simp [hkey])]
  rw [h]
  rfl

theorem elems_roundtrip_kv {env : Env} {K : Nat}
    (hIH : ∀ o' : GPObj, sizeOf o'.attrs < K → Ready env o' → Resolvable env o' →
       ∃ dn, to_dict env o' = .ok dn ∧ hasKey dn generic_parsable_type = true ∧
         ∀ t, ∃ o'', parseProp env dn none none t none =
             .ok (.vObj o''.cls o''.mod o''.reg o''.attrs) ∧
           o''.cls = o'.cls ∧ equals o' o'' = true) :
    ∀ kvs : List (String × PyVal), sizeOf kvs ≤ K → ElemsKVReady env kvs →
    ∃ kvs', serialized_dict env kvs = .ok kvs' ∧
    ∃ kvs'', parsed_dict env kvs' = .ok kvs'' ∧ equalValKV kvs kvs'' = true := by
  intro kvs
  induction kvs with
  | nil =>
    intro _ _
    exact ⟨[], by rw [serialized_dict], [], by rw [parsed_dict], by rw [equalValKV]⟩
  | cons p rest ih =>
    intro hK hready
    obtain ⟨k, v⟩ := p
    rw [ElemsKVReady] at hready
    obtain ⟨hv, hrest⟩ := hready
    have hKrest : sizeOf rest ≤ K := by
      simp at hK
      omega
    obtain ⟨rest', hrest', rest'', hrest'', heqr⟩ := ih hKrest hrest
    cases v with
    | vObj c m r a =>
      rw [ElemReady] at hv
      have hsz : sizeOf a < K := by
        simp at hK
        omega
      obtain ⟨dn, hdn, hkey, hparse⟩ := hIH ⟨c, m, r, a⟩ hsz hv.1 hv.2
      obtain ⟨o'', hpp, hcls'', heq''⟩ := hparse true
      refine ⟨(k, .vDict dn) :: rest', ?_,
        (k, .vObj o''.cls o''.mod o''.reg o''.attrs) :: rest'', ?_, ?_⟩
      · rw [serialized_dict]
        try dsimp only
        rw [hdn]
        simp only [bind, Except.bind]
        rw [hrest']
      · rw [parsed_dict]
        try dsimp only
        rw [if_pos hkey, hpp]
        simp only [bind, Except.bind]
        rw [hrest'']
      · rw [equalValKV]
        have ho : equalVal (.vObj c m r a)
            (.vObj o''.cls o''.mod o''.reg o''.attrs) = true := by
          rw [equalVal]
          exact heq''
        rw [ho, heqr]
        simp
    | vArr xs =>
      rw [ElemReady] at hv
      exact hv.elim
    | vDict mm =>
      rw [ElemReady] at hv
      refine ⟨(k, .vDict mm) :: rest',
        serialized_dict_cons_other hrest' (fun c m r a h => PyVal.noConfusion h)
          (fun xs h => PyVal.noConfusion h),
        (k, .vDict mm) :: rest'', parsed_dict_cons_notag hrest'' hv, ?_⟩
      rw [equalValKV, equalVal_refl, heqr]
      simp
    | vNone =>
      refine ⟨(k, .vNone) :: rest',
        serialized_dict_cons_other hrest' (fun c m r a h => PyVal.noConfusion h)
          (fun xs h => PyVal.noConfusion h),
        (k, .vNone) :: rest'',
        parsed_dict_cons_other hrest'' (fun kk h => PyVal.noConfusion h), ?_⟩
      rw [equalValKV, equalVal_refl, heqr]
      simp
    | vBool b =>
      refine ⟨(k, .vBool b) :: rest',
        serialized_dict_cons_other hrest' (fun c m r a h => PyVal.noConfusion h)
          (fun xs h => PyVal.noConfusion h),
        (k, .vBool b) :: rest'',
        parsed_dict_cons_other hrest'' (fun kk h => PyVal.noConfusion h), ?_⟩
      rw [equalValKV, equalVal_refl, heqr]
      simp
    | vInt i =>
      refine ⟨(k, .vInt i) :: rest',
        serialized_dict_cons_other hrest' (fun c m r a h => PyVal.noConfusion h)
          (fun xs h => PyVal.noConfusion h),
        (k, .vInt i) :: rest'',
        parsed_dict_cons_other hrest'' (fun kk h => PyVal.noConfusion h), ?_⟩
      rw [equalValKV, equalVal_refl, heqr]
      simp
    | vStr s =>
      refine ⟨(k, .vStr s) :: rest',
        serialized_dict_cons_other hrest' (fun c m r a h => PyVal.noConfusion h)
          (fun xs h => PyVal.noConfusion h),
        (k, .vStr s) :: rest'',
        parsed_dict_cons_other hrest'' (fun kk h => PyVal.noConfusion h), ?_⟩
      rw [equalValKV, equalVal_refl, heqr]
      simp
    | vEnum e mm =>
      refine ⟨(k, .vEnum e mm) :: rest',
        serialized_dict_cons_other hrest' (fun c m r a h => PyVal.noConfusion h)
          (fun xs h => PyVal.noConfusion h),
        (k, .vEnum e mm) :: rest'',
        parsed_dict_cons_other hrest'' (fun kk h => PyVal.noConfusion h), ?_⟩
      rw [equalValKV, equalVal_refl, heqr]
      simp
    | vList xs =>
      refine ⟨(k, .vList xs) :: rest',
        serialized_dict_cons_other hrest' (fun c m r a h => PyVal.noConfusion h)
          (fun ys h => PyVal.noConfusion h),
        (k, .vList xs) :: rest'',
        parsed_dict_cons_other hrest'' (fun kk h => PyVal.noConfusion h), ?_⟩
      rw [equalValKV, equalVal_refl, heqr]
      simp
    | vSet xs =>
      refine ⟨(k, .vSet xs) :: rest',
        serialized_dict_cons_other hrest' (fun c m r a h => PyVal.noConfusion h)
          (fun ys h => PyVal.noConfusion h),
        (k, .vSet xs) :: rest'',
        parsed_dict_cons_other hrest'' (fun kk h => PyVal.noConfusion h), ?_⟩
      rw [equalValKV, equalVal_refl, heqr]
      simp

theorem elems_roundtrip_list {env : Env} {K : Nat}
    (hIH : ∀ o' : GPObj, sizeOf o'.attrs < K → Ready env o' → Resolvable env o' →
       ∃ dn, to_dict env o' = .ok dn ∧ hasKey dn generic_parsable_type = true ∧
         ∀ t, ∃ o'', parseProp env dn none none t none =
             .ok (.vObj o''.cls o''.mod o''.reg o''.attrs) ∧
           o''.cls = o'.cls ∧ equals o' o'' = true) :
    ∀ xs : List PyVal, sizeOf xs ≤ K → ElemsLReady env xs →
    ∃ xs', serialized_list env xs = .ok xs' ∧
    ∃ xs'', parsed_list env xs' = .ok xs'' ∧ equalValList xs xs'' = true := by
  intro xs
  induction xs with
  | nil =>
    intro _ _
    exact ⟨[], by rw [serialized_list], [], by rw [parsed_list], by rw [equalValList]⟩
  | cons v rest ih =>
    intro hK hready
    rw [ElemsLReady] at hready
    obtain ⟨hv, hrest⟩ := hready
    have hKrest : sizeOf rest ≤ K := by
      simp at hK
      omega
    obtain ⟨rest', hrest', rest'', hrest'', heqr⟩ := ih hKrest hrest
    cases v with
    | vObj c m r a =>
      rw [ElemReady] at hv
      have hsz : sizeOf a < K := by
        simp at hK
        omega
      obtain ⟨dn, hdn, hkey, hparse⟩ := hIH ⟨c, m, r, a⟩ hsz hv.1 hv.2
      obtain ⟨o'', hpp, hcls'', heq''⟩ := hparse true
      refine ⟨.vDict dn :: rest', ?_,
        .vObj o''.cls o''.mod o''.reg o''.attrs :: rest'', ?_, ?_⟩
      · rw [serialized_list]
        try dsimp only
        rw [hdn]
        simp only [bind, Except.bind]
        rw [hrest']
      · rw [parsed_list]
        try dsimp only
        rw [if_pos hkey, hpp]
        simp only [bind, Except.bind]
        rw [hrest'']
      · rw [equalValList]
        have ho : equalVal (.vObj c m r a)
            (.vObj o''.cls o''.mod o''.reg o''.attrs) = true := by
          rw [equalVal]
          exact heq''
        rw [ho, heqr]
        simp
    | vArr ys =>
      rw [ElemReady] at hv
      exact hv.elim
    | vDict mm =>
      rw [ElemReady] at hv
      refine ⟨.vDict mm :: rest',
        serialized_list_cons_other hrest' (fun c m r a h => PyVal.noConfusion h)
          (fun ys h => PyVal.noConfusion h),
        .vDict mm :: rest'', parsed_list_cons_notag hrest'' hv, ?_⟩
      rw [equalValList, equalVal_refl, heqr]
      simp
    | vNone =>
      refine ⟨.vNone :: rest',
        serialized_list_cons_other hrest' (fun c m r a h => PyVal.noConfusion h)
          (fun ys h => PyVal.noConfusion h),
        .vNone :: rest'',
        parsed_list_cons_other hrest'' (fun kk h => PyVal.noConfusion h), ?_⟩
      rw [equalValList, equalVal_refl, heqr]
      simp
    | vBool b =>
      refine ⟨.vBool b :: rest',
        serialized_list_cons_other hrest' (fun c m r a h => PyVal.noConfusion h)
          (fun ys h => PyVal.noConfusion h),
        .vBool b :: rest'',
        parsed_list_cons_other hrest'' (fun kk h => PyVal.noConfusion h), ?_⟩
      rw [equalValList, equalVal_refl, heqr]
      simp
    | vInt i =>
      refine ⟨.vInt i :: rest',
        serialized_list_cons_other hrest' (fun c m r a h => PyVal.noConfusion h)
          (fun ys h => PyVal.noConfusion h),
        .vInt i :: rest'',
        parsed_list_cons_other hrest'' (fun kk h => PyVal.noConfusion h), ?_⟩
      rw [equalValList, equalVal_refl, heqr]
      simp
    | vStr s =>
      refine ⟨.vStr s :: rest',
        serialized_list_cons_other hrest' (fun c m r a h => PyVal.noConfusion h)
          (fun ys h => PyVal.noConfusion h),
        .vStr s :: rest'',
        parsed_list_cons_other hrest'' (fun kk h => PyVal.noConfusion h), ?_⟩
      rw [equalValList, equalVal_refl, heqr]
      simp
    | vEnum e mm =>
      refine ⟨.vEnum e mm :: rest',
        serialized_list_cons_other hrest' (fun c m r a h => PyVal.noConfusion h)
          (fun ys h => PyVal.noConfusion h),
        .vEnum e mm :: rest'',
        parsed_list_cons_other hrest'' (fun kk h => PyVal.noConfusion h), ?_⟩
      rw [equalValList, equalVal_refl, heqr]
      simp
    | vList ys =>
      refine ⟨.vList ys :: rest',
        serialized_list_cons_other hrest' (fun c m r a h => PyVal.noConfusion h)
          (fun zs h => PyVal.noConfusion h),
        .vList ys :: rest'',
        parsed_list_cons_other hrest'' (fun kk h => PyVal.noConfusion h), ?_⟩
      rw [equalValList, equalVal_refl, heqr]
      simp
    | vSet ys =>
      refine ⟨.vSet ys :: rest',
        serialized_list_cons_other hrest' (fun c m r a h => PyVal.noConfusion h)
          (fun zs h => PyVal.noConfusion h),
        .vSet ys :: rest'',
        parsed_list_cons_other hrest'' (fun kk h => PyVal.noConfusion h), ?_⟩
      rw [equalValList, equalVal_refl, heqr]
      simp

theorem isNoneV_of_serStable {v : PyVal} (h : serStable v = true) : isNoneV v = false := by
  cases v <;> simp_all [serStable, isNoneV]

theorem to_dict_from_dict_aux :
    ∀ (N : Nat) (env : Env) (o : GPObj), sizeOf o.attrs ≤ N → Ready env o → RT env o := by
  intro N
  induction N using Nat.strong_induction_on with
  | _ N ih =>
    intro env o hN hready
    rw [Ready] at hready
    obtain ⟨hbase, hser, henum, hpars, hdict, hlist, hspec⟩ := hready
    obtain ⟨hnodup, htags, hord, hset⟩ := hbase
    obtain ⟨hdisj1, hdisj2, hdisj3, hdisj4, hdisj5⟩ := collect_nodup_disjoint hnodup
    have hparsFull : ∀ n ∈ o.reg.parsable, ∃ c m r a,
        getAttrVal o.attrs n = .vObj c m r a ∧ Resolvable env ⟨c, m, r, a⟩ ∧
        RT env ⟨c, m, r, a⟩ := by
      intro n hn
      obtain ⟨c, m, r, a, hg, hrdy, hres⟩ := parsReady_mem hpars n hn
      have hsza : sizeOf a < sizeOf o.attrs := by
        have h1 := getAttrVal_sizeOf o.attrs n
        rw [hg] at h1
        simp at h1
        omega
      exact ⟨c, m, r, a, hg, hres,
        ih (sizeOf a) (lt_of_lt_of_le hsza hN) env ⟨c, m, r, a⟩ le_rfl hrdy⟩
    have hElemIH : ∀ o' : GPObj, sizeOf o'.attrs < sizeOf o.attrs → Ready env o' →
        Resolvable env o' →
        ∃ dn, to_dict env o' = .ok dn ∧ hasKey dn generic_parsable_type = true ∧
          ∀ t, ∃ o'', parseProp env dn none none t none =
              .ok (.vObj o''.cls o''.mod o''.reg o''.attrs) ∧
            o''.cls = o'.cls ∧ equals o' o'' = true := by
      intro o' hsz hrdy hres
      obtain ⟨dn, hdn, ht1, ht2, hkeys, henc, hdec⟩ :=
        ih (sizeOf o'.attrs) (lt_of_lt_of_le hsz hN) env o' le_rfl hrdy
      refine ⟨dn, hdn, by rw [hasKey, ht1]; rfl, ?_⟩
      exact RT_hydrate_parse hdn ht1 ht2 hkeys henc hdec hres
    have hdictRT : ∀ n ∈ o.reg.dictOf, ∃ kvs, getAttrVal o.attrs n = .vDict kvs ∧
        ∃ kvs', serialized_dict env kvs = .ok kvs' ∧
        ∃ kvs'', parsed_dict env kvs' = .ok kvs'' ∧ equalValKV kvs kvs'' = true := by
      intro n hn
      obtain ⟨kvs, hg, hek⟩ := dictReady_mem hdict n hn
      have hszk : sizeOf kvs < sizeOf o.attrs := by
        have h1 := getAttrVal_sizeOf o.attrs n
        rw [hg] at h1
        simp at h1
        omega
      exact ⟨kvs, hg, elems_roundtrip_kv hElemIH kvs (le_of_lt hszk) hek⟩
    have hlistRT : ∀ n ∈ o.reg.listOf, ∃ xs, getAttrVal o.attrs n = .vList xs ∧
        ∃ xs', serialized_list env xs = .ok xs' ∧
        ∃ xs'', parsed_list env xs' = .ok xs'' ∧ equalValList xs xs'' = true := by
      intro n hn
      obtain ⟨xs, hg, hek⟩ := listReady_mem hlist n hn
      have hszk : sizeOf xs < sizeOf o.attrs := by
        have h1 := getAttrVal_sizeOf o.attrs n
        rw [hg] at h1
        simp at h1
        omega
      exact ⟨xs, hg, elems_roundtrip_list hElemIH xs (le_of_lt hszk) hek⟩
    have henumVals : ∀ n ∈ o.reg.enum, ∃ e mem, getAttrVal o.attrs n = .vEnum e mem := by
      intro n hn
      obtain ⟨dom, hdom, mem, hg, hmem⟩ := henum n hn
      exact ⟨dom.1, mem, hg⟩
    have hspecCds : ∀ n ∈ o.reg.specialized, ∃ cd, findCodec env o.cls n = some cd := by
      intro n hn
      obtain ⟨hnn, cd, hcd, hinv⟩ := hspec n hn
      exact ⟨cd, hcd⟩
    have hpresSer : ∀ n ∈ o.reg.serializable, presentForEmit o.reg o.attrs n = true :=
      fun n hn => presentForEmit_pop (isNoneV_of_serStable (hser n hn))
    have hpresEnum : ∀ n ∈ o.reg.enum, presentForEmit o.reg o.attrs n = true := by
      intro n hn
      obtain ⟨e, mem, hg⟩ := henumVals n hn
      apply presentForEmit_pop
      rw [hg]
      rfl
    obtain ⟨out2, h2⟩ := @encEnumNames_ok o.reg o.attrs
      o.reg.enum henumVals
      (encSerNames o.reg o.attrs o.reg.serializable
        [(generic_parsable_type, .vStr o.cls), (generic_parsable_module, .vStr o.mod)])
    obtain ⟨out3, h3⟩ := @encParsNames_ok env o.reg o.attrs
      o.reg.parsable
      (fun n hn => by
        obtain ⟨c, m, r, a, hg, hres, hRT⟩ := hparsFull n hn
        obtain ⟨dn, hdn, _⟩ := id hRT
        exact ⟨c, m, r, a, hg, dn, hdn⟩) out2
    obtain ⟨out4, h4⟩ := @encDictNames_ok env o.reg o.attrs
      o.reg.dictOf
      (fun n hn kvs hkv => by
        obtain ⟨kvs0, hg, kvs', hs, _⟩ := hdictRT n hn
        rw [hg] at hkv
        injection hkv with he
        subst he
        exact ⟨kvs', hs⟩) out3
    obtain ⟨out5, h5⟩ := @encListNames_ok env o.reg o.attrs
      o.reg.listOf
      (fun n hn => by
        obtain ⟨xs0, hg, xs', hs, _⟩ := hlistRT n hn
        constructor
        · intro xs hx
          rw [hg] at hx
          injection hx with he
          subst he
          exact ⟨xs', hs⟩
        · intro xs hx
          rw [hg] at hx
          exact PyVal.noConfusion hx) out4
    obtain ⟨out6, h6⟩ := @encSpecNames_ok env o.cls o.reg
      o.attrs o.reg.specialized hspecCds out5
    have hd : to_dict env o = .ok out6 := by
      rw [to_dict]
      try dsimp only
      rw [h2]
      simp only [bind, Except.bind]
      rw [h3]
      simp only [bind, Except.bind]
      rw [h4]
      simp only [bind, Except.bind]
      rw [h5]
      simp only [bind, Except.bind]
      rw [h6]
    have htno : ∀ X, X = generic_parsable_type ∨ X = generic_parsable_module →
        X ∉ o.reg.serializable ∧ X ∉ o.reg.enum ∧ X ∉ o.reg.parsable ∧
        X ∉ o.reg.dictOf ∧ X ∉ o.reg.listOf ∧ X ∉ o.reg.specialized := by
      intro X hX
      have hcore : X ∈ collect_all_attributes o.reg → False := by
        intro hc
        rcases hX with h | h
        · exact (htags X hc).1 h
        · exact (htags X hc).2 h
      refine ⟨fun h => hcore ?_, fun h => hcore ?_, fun h => hcore ?_,
        fun h => hcore ?_, fun h => hcore ?_, fun h => hcore ?_⟩
      all_goals simp [collect_all_attributes]
      all_goals tauto
    have chainTag : ∀ X v, X ∉ o.reg.serializable → X ∉ o.reg.enum →
        X ∉ o.reg.parsable → X ∉ o.reg.dictOf → X ∉ o.reg.listOf →
        X ∉ o.reg.specialized →
        lookupAttr [(generic_parsable_type, .vStr o.cls),
          (generic_parsable_module, .vStr o.mod)] X = v →
        lookupAttr out6 X = v := by
      intro X v hs he hp hdo hl hsp h0
      rw [encSpecNames_other _ _ _ h6 hsp, encListNames_other _ _ _ h5 hl,
        encDictNames_other _ _ _ h4 hdo, encParsNames_other _ _ _ h3 hp,
        encEnumNames_other _ _ _ h2 he, encSerNames_other _ _ hs, h0]
    have htagT : lookupAttr out6 generic_parsable_type = some (.vStr o.cls) := by
      obtain ⟨a1, a2, a3, a4, a5, a6⟩ := htno generic_parsable_type (Or.inl rfl)
      exact chainTag _ _ a1 a2 a3 a4 a5 a6 (by simp [lookupAttr])
    have htagM : lookupAttr out6 generic_parsable_module = some (.vStr o.mod) := by
      obtain ⟨a1, a2, a3, a4, a5, a6⟩ := htno generic_parsable_module (Or.inr rfl)
      exact chainTag _ _ a1 a2 a3 a4 a5 a6
        (by simp [lookupAttr, generic_parsable_type, generic_parsable_module])
    have hcharSer : ∀ n ∈ o.reg.serializable,
        lookupAttr out6 n = some (getAttrVal o.attrs n) := by
      intro n hn
      obtain ⟨d1, d2, d3, d4, d5⟩ := hdisj1 n hn
      have hem := encSerNames_emit (hpresSer n hn) o.reg.serializable
        [(generic_parsable_type, .vStr o.cls), (generic_parsable_module, .vStr o.mod)] hn
      rw [flatten_serStable (hser n hn)] at hem
      rw [encSpecNames_other _ _ _ h6 d3, encListNames_other _ _ _ h5 d5,
        encDictNames_other _ _ _ h4 d4, encParsNames_other _ _ _ h3 d2,
        encEnumNames_other _ _ _ h2 d1]
      exact hem
    have hcharEnum : ∀ n ∈ o.reg.enum, ∃ dom mem,
        findEnumDomain o.reg n = some dom ∧
        getAttrVal o.attrs n = .vEnum dom.1 mem ∧ dom.2.contains mem = true ∧
        lookupAttr out6 n = some (.vStr mem) := by
      intro n hn
      obtain ⟨dom, hdom, mem, hg, hmem⟩ := henum n hn
      obtain ⟨d1, d2, d3, d4⟩ := hdisj2 n hn
      refine ⟨dom, mem, hdom, hg, hmem, ?_⟩
      have hem := encEnumNames_emit (hpresEnum n hn) hg o.reg.enum _ _ h2 hn
      rw [encSpecNames_other _ _ _ h6 d2, encListNames_other _ _ _ h5 d4,
        encDictNames_other _ _ _ h4 d3, encParsNames_other _ _ _ h3 d1]
      exact hem
    have hcharPars : ∀ n ∈ o.reg.parsable, ∃ c m r a dn,
        getAttrVal o.attrs n = .vObj c m r a ∧
        lookupAttr out6 n = some (.vDict dn) ∧
        ∀ t, ∃ o'', parseProp env dn none none t none =
            .ok (.vObj o''.cls o''.mod o''.reg o''.attrs) ∧
          o''.cls = c ∧ equals ⟨c, m, r, a⟩ o'' = true := by
      intro n hn
      obtain ⟨c, m, r, a, hg, hres, hRT⟩ := hparsFull n hn
      obtain ⟨dn, hdn, hln1, hln2, hlk, hen, hdc⟩ := hRT
      have hpresn : presentForEmit o.reg o.attrs n = true := by
        apply presentForEmit_pop
        rw [hg]
        rfl
      obtain ⟨d1, d2, d3⟩ := hdisj3 n hn
      have hem := encParsNames_emit hpresn hg hdn o.reg.parsable _ _ h3 hn
      refine ⟨c, m, r, a, dn, hg, ?_, ?_⟩
      · rw [encSpecNames_other _ _ _ h6 d1, encListNames_other _ _ _ h5 d3,
          encDictNames_other _ _ _ h4 d2]
        exact hem
      · exact RT_hydrate_parse hdn hln1 hln2 hlk hen hdc hres
    have hcharDict : ∀ n ∈ o.reg.dictOf, ∃ kvs kvs' kvs'',
        getAttrVal o.attrs n = .vDict kvs ∧ lookupAttr out6 n = some (.vDict kvs') ∧
        parsed_dict env kvs' = .ok kvs'' ∧ equalValKV kvs kvs'' = true := by
      intro n hn
      obtain ⟨kvs, hg, kvs', hs, kvs'', hp, heq⟩ := hdictRT n hn
      have hpresn : presentForEmit o.reg o.attrs n = true := by
        apply presentForEmit_pop
        rw [hg]
        rfl
      have hnsp : n ∉ o.reg.specialized := fun hh => (hdisj4 n hh).1 hn
      have hem := encDictNames_emit hpresn hg hs o.reg.dictOf _ _ h4 hn
      refine ⟨kvs, kvs', kvs'', hg, ?_, hp, heq⟩
      rw [encSpecNames_other _ _ _ h6 hnsp, encListNames_other _ _ _ h5 (hdisj5 n hn)]
      exact hem
    have hcharList : ∀ n ∈ o.reg.listOf, ∃ xs xs' xs'',
        getAttrVal o.attrs n = .vList xs ∧ lookupAttr out6 n = some (.vList xs') ∧
        parsed_list env xs' = .ok xs'' ∧ equalValList xs xs'' = true := by
      intro n hn
      obtain ⟨xs, hg, xs', hs, xs'', hp, heq⟩ := hlistRT n hn
      have hpresn : presentForEmit o.reg o.attrs n = true := by
        apply presentForEmit_pop
        rw [hg]
        rfl
      have hnsp : n ∉ o.reg.specialized := fun hh => (hdisj4 n hh).2 hn
      have hem := encListNames_emit hpresn hg hs o.reg.listOf _ _ h5 hn
      refine ⟨xs, xs', xs'', hg, ?_, hp, heq⟩
      rw [encSpecNames_other _ _ _ h6 hnsp]
      exact hem
    have hcharSpec : ∀ n ∈ o.reg.specialized, ∃ cd,
        findCodec env o.cls n = some cd ∧
        cd.dec (cd.enc (getAttrVal o.attrs n)) = getAttrVal o.attrs n ∧
        lookupAttr out6 n = some (cd.enc (getAttrVal o.attrs n)) := by
      intro n hn
      obtain ⟨hnn, cd, hcd, hinv⟩ := hspec n hn
      exact ⟨cd, hcd, hinv,
        encSpecNames_emit (presentForEmit_pop hnn) hcd o.reg.specialized _ _ h6 hn⟩
    have hkeysAll : ∀ n ∈ collect_all_attributes o.reg, hasKey out6 n = true := by
      intro n hn
      have hn6 : n ∈ o.reg.serializable ∨ n ∈ o.reg.enum ∨ n ∈ o.reg.parsable ∨
          n ∈ o.reg.specialized ∨ n ∈ o.reg.dictOf ∨ n ∈ o.reg.listOf := by
        simpa [collect_all_attributes] using hn
      rcases hn6 with h | h | h | h | h | h
      · rw [hasKey, hcharSer n h]
        rfl
      · obtain ⟨dom, mem, _, _, _, hlk⟩ := hcharEnum n h
        rw [hasKey, hlk]
        rfl
      · obtain ⟨c, m2, r, a, dn, _, hlk, _⟩ := hcharPars n h
        rw [hasKey, hlk]
        rfl
      · obtain ⟨cd, _, _, hlk⟩ := hcharSpec n h
        rw [hasKey, hlk]
        rfl
      · obtain ⟨kvs, kvs', kvs'', _, hlk, _, _⟩ := hcharDict n h
        rw [hasKey, hlk]
        rfl
      · obtain ⟨xs, xs', xs'', _, hlk, _, _⟩ := hcharList n h
        rw [hasKey, hlk]
        rfl
    have henclause : ∀ n ∈ o.reg.enum, ∀ dom, findEnumDomain o.reg n = some dom →
        ∃ mem, lookupAttr out6 n = some (.vStr mem) ∧ dom.2.contains mem = true := by
      intro n hn dom hdom
      obtain ⟨dom0, mem, hdom0, hg, hmem, hlk⟩ := hcharEnum n hn
      rw [hdom0] at hdom
      injection hdom with he
      subst he
      exact ⟨mem, hlk, hmem⟩
    refine ⟨out6, hd, htagT, htagM, hkeysAll, henclause, ?_⟩
    intro o0 hc0 hg0
    obtain ⟨pr, hpr⟩ := @split_ok_of_sub o0.reg (by rw [hg0]; exact hord)
    have hmem1 : ∀ n ∈ pr.1 ++ pr.2, n ∈ collect_all_attributes o.reg := by
      intro n hn
      have hmm := split_ok_mem hpr n hn
      rwa [hg0] at hmm
    have hmem2 : ∀ n ∈ collect_all_attributes o.reg, n ∈ pr.1 ++ pr.2 := by
      intro n hn
      exact split_ok_complete hpr (by rwa [hg0])
    have hstep : ∀ n ∈ pr.1 ++ pr.2, ∃ v',
        (∀ attrs, fdDispatch env o.cls o.reg attrs out6 n = .ok (dictSet attrs n v')) ∧
        (pyType (getAttrVal o.attrs n) = pyType v' ∧
         equalVal (getAttrVal o.attrs n) v' = true) := by
      intro n hn
      have hcol := hmem1 n hn
      have hsettable : o.reg.settable.contains n = true := hset n hcol
      have hn6 : n ∈ o.reg.serializable ∨ n ∈ o.reg.enum ∨ n ∈ o.reg.parsable ∨
          n ∈ o.reg.specialized ∨ n ∈ o.reg.dictOf ∨ n ∈ o.reg.listOf := by
        simpa [collect_all_attributes] using hcol
      rcases hn6 with h | h | h | h | h | h
      · refine ⟨getAttrVal o.attrs n, ?_, rfl, equalVal_refl _⟩
        intro attrs
        have hcontS : o.reg.serializable.contains n = true := by simpa using h
        unfold fdDispatch
        rw [if_pos hcontS]
        rw [fdSerStep.eq_def, hcharSer n h]
        dsimp only
        rw [if_pos hsettable]
        rw [assignAttr.eq_def,
          if_neg (by simpa using (hdisj1 n h).2.1),
          if_neg (by simpa using (hdisj1 n h).1)]
      · obtain ⟨dom, mem, hdom, hg, hmem, hlk⟩ := hcharEnum n h
        refine ⟨.vEnum dom.1 mem, ?_, by rw [hg], by rw [hg]; exact equalVal_refl _⟩
        intro attrs
        have hnser : ¬ o.reg.serializable.contains n = true := by
          simpa using (fun hh => (hdisj1 n hh).1 h)
        have hnpar : ¬ o.reg.parsable.contains n = true := by
          simpa using (hdisj2 n h).1
        have hcontE : o.reg.enum.contains n = true := by simpa using h
        unfold fdDispatch
        rw [if_neg hnser, if_neg hnpar, if_pos hcontE]
        rw [fdSerStep.eq_def, hlk]
        dsimp only
        rw [if_pos hsettable]
        rw [assignAttr.eq_def, if_neg hnpar, if_pos hcontE]
        rw [hdom]
        dsimp only
        rw [enum_parse_member hmem]
        rfl
      · obtain ⟨c, m, r, a, dn, hg, hlk, hparse⟩ := hcharPars n h
        obtain ⟨o'', hpp, hcls'', heq''⟩ := hparse false
        refine ⟨.vObj o''.cls o''.mod o''.reg o''.attrs, ?_, ?_, ?_⟩
        · intro attrs
          have hnser : ¬ o.reg.serializable.contains n = true := by
            simpa using (fun hh => (hdisj1 n hh).2.1 h)
          have hcontP : o.reg.parsable.contains n = true := by simpa using h
          unfold fdDispatch
          rw [if_neg hnser, if_pos hcontP]
          rw [fdSerStep.eq_def, hlk]
          dsimp only
          rw [if_pos hsettable]
          rw [assignAttr.eq_def, if_pos hcontP]
          dsimp only
          rw [hpp]
          rfl
        · rw [hg]
          simp [pyType, hcls'']
        · rw [hg, equalVal]
          exact heq''
      · obtain ⟨cd, hcd, hinv, hlk⟩ := hcharSpec n h
        refine ⟨cd.dec (cd.enc (getAttrVal o.attrs n)), ?_, ?_, ?_⟩
        · intro attrs
          have hnser : ¬ o.reg.serializable.contains n = true := by
            simpa using (fun hh => (hdisj1 n hh).2.2.1 h)
          have hnpar : ¬ o.reg.parsable.contains n = true := by
            simpa using (fun hh => (hdisj3 n hh).1 h)
          have hnenum : ¬ o.reg.enum.contains n = true := by
            simpa using (fun hh => (hdisj2 n hh).2.1 h)
          have hndict : ¬ o.reg.dictOf.contains n = true := by
            simpa using (hdisj4 n h).1
          have hnlist : ¬ o.reg.listOf.contains n = true := by
            simpa using (hdisj4 n h).2
          have hcontSp : o.reg.specialized.contains n = true := by simpa using h
          unfold fdDispatch
          rw [if_neg hnser, if_neg hnpar, if_neg hnenum, if_neg hndict,
            if_neg hnlist, if_pos hcontSp]
          rw [from_dict_specialized_step, hlk]
          dsimp only
          rw [hcd]
        · rw [hinv]
        · rw [hinv]
          exact equalVal_refl _
      · obtain ⟨kvs, kvs', kvs'', hg, hlk, hp, heq⟩ := hcharDict n h
        refine ⟨.vDict kvs'', ?_, by rw [hg]; rfl, by rw [hg, equalVal]; exact heq⟩
        intro attrs
        have hnser : ¬ o.reg.serializable.contains n = true := by
          simpa using (fun hh => (hdisj1 n hh).2.2.2.1 h)
        have hnpar : ¬ o.reg.parsable.contains n = true := by
          simpa using (fun hh => (hdisj3 n hh).2.1 h)
        have hnenum : ¬ o.reg.enum.contains n = true := by
          simpa using (fun hh => (hdisj2 n hh).2.2.1 h)
        have hcontD : o.reg.dictOf.contains n = true := by simpa using h
        unfold fdDispatch
        rw [if_neg hnser, if_neg hnpar, if_neg hnenum, if_pos hcontD]
        rw [fdDictStep.eq_def]
        split
        · rename_i heq2
          rw [hlk] at heq2
          exact Option.noConfusion heq2
        · rename_i v2 heq2
          rw [hlk] at heq2
          injection heq2 with he
          subst he
          rw [if_pos hsettable]
          dsimp only
          rw [hp]
          rfl
      · obtain ⟨xs, xs', xs'', hg, hlk, hp, heq⟩ := hcharList n h
        refine ⟨.vList xs'', ?_, by rw [hg]; rfl, by rw [hg, equalVal]; exact heq⟩
        intro attrs
        have hnser : ¬ o.reg.serializable.contains n = true := by
          simpa using (fun hh => (hdisj1 n hh).2.2.2.2 h)
        have hnpar : ¬ o.reg.parsable.contains n = true := by
          simpa using (fun hh => (hdisj3 n hh).2.2 h)
        have hnenum : ¬ o.reg.enum.contains n = true := by
          simpa using (fun hh => (hdisj2 n hh).2.2.2 h)
        have hndict : ¬ o.reg.dictOf.contains n = true := by
          simpa using (fun hh => hdisj5 n hh h)
        have hcontL : o.reg.listOf.contains n = true := by simpa using h
        unfold fdDispatch
        rw [if_neg hnser, if_neg hnpar, if_neg hnenum, if_neg hndict, if_pos hcontL]
        rw [fdListStep.eq_def]
        split
        · rename_i heq2
          rw [hlk] at heq2
          exact Option.noConfusion heq2
        · rename_i v2 heq2
          rw [hlk] at heq2
          injection heq2 with he
          subst he
          rw [if_pos hsettable]
          dsimp only
          rw [hp]
          rfl
    obtain ⟨o', hfd, hocls, homod, horeg, hlook, hpres⟩ :=
      @fdNames_fold env out6 o.cls o.reg
        (fun n v' => pyType (getAttrVal o.attrs n) = pyType v' ∧
          equalVal (getAttrVal o.attrs n) v' = true)
        (pr.1 ++ pr.2) o0 hc0 hg0 hstep
    have hfd2 : from_dict env o0 out6 = .ok o' := by
      rw [from_dict, hpr]
      simp only [bind, Except.bind]
      exact hfd
    refine ⟨o', hfd2, hocls.trans hc0, ?_⟩
    refine equals_of_match (hocls.trans hc0).symm ?_
    intro n hn6
    have hcol : n ∈ collect_all_attributes o.reg := by
      simp [collect_all_attributes]
      tauto
    obtain ⟨v', hlkv, hty, hev⟩ := hlook n (hmem2 n hcol)
    have hgv : getAttrVal o'.attrs n = v' := by
      rw [getAttrVal, hlkv]
      rfl
    rw [hgv]
    exact ⟨hty, hev⟩

/-- C1 (corrected): encode-then-decode round-trips up to `equals` for an
object whose registered attributes across all six categories hold
populated values in serialization-stable form — serializable values that
are not `None`/array/frozenset, enum values inside their declared
domain, nested parsable objects recursively round-trip-ready and
resolvable, dict-of and list-of collections whose elements survive the
element codecs, and specialized attributes whose encode/decode pair is
inverse on the held value.  The claim's bare "populated values" is not
sufficient: `to_dict_serializable` flattens a populated frozenset to a
plain list, which decodes as a list and is rejected by `equals`'s
runtime-type test (see `C1_roundtrip_counterexample`). -/
theorem C1_round_trip (env : Env) (o o0 : GPObj) (hr : Ready env o)
    (hc : o0.cls = o.cls) (hg : o0.reg = o.reg) :
    ∃ d o', to_dict env o = .ok d ∧ from_dict env o0 d = .ok o' ∧
      equals o o' = true := by
  obtain ⟨d, hd, ht1, ht2, hk, he, hdec⟩ :=
    to_dict_from_dict_aux (sizeOf o.attrs) env o le_rfl hr
  obtain ⟨o', h1, h2, h3⟩ := hdec o0 hc hg
  exact ⟨d, o', hd, h1, h3⟩

def regC1x : Registration :=
  { serializable := ["s"], enum := [], parsable := [], specialized := [],
    dictOf := [], listOf := [], desiredOrder := [], hasQuery := [],
    settable := ["s"], enumDomains := [] }

def oC1x : GPObj :=
  { cls := "P", mod := "geo", reg := regC1x, attrs := [("s", .vSet [.vInt 1])] }

def oC1x0 : GPObj := { cls := "P", mod := "geo", reg := regC1x, attrs := [] }

def dC1x : List (String × PyVal) :=
  [(generic_parsable_type, .vStr "P"), (generic_parsable_module, .vStr "geo"),
   ("s", .vList [.vInt 1])]

/-- C1 counterexample: an object whose serializable attribute holds a
populated frozenset encodes fine, but the value is flattened to a plain
list on the way out, so the decoded object stores a list and `equals`
rejects the pair on the runtime-type test — decode ∘ encode is not
`equals`-equal to the original even though every registered attribute
held a populated value. -/
theorem C1_roundtrip_counterexample :
    hasAttrVal oC1x.attrs "s" = true ∧
    to_dict env0 oC1x = .ok dC1x ∧
    from_dict env0 oC1x0 dC1x =
      .ok { oC1x0 with attrs := [("s", .vList [.vInt 1])] } ∧
    equals oC1x { oC1x0 with attrs := [("s", .vList [.vInt 1])] } = false := by
  refine ⟨by decide, ?_, ?_, ?_⟩
  · simp [to_dict, oC1x, regC1x, env0, dC1x, encSerNames, to_dict_serializable,
      presentForEmit, hasAttrVal, getAttrVal, lookupAttr, isNoneV,
      flattenSerializable, dictSet, encEnumNames, encParsNames, encDictNames,
      encListNames, encSpecNames, generic_parsable_type, generic_parsable_module,
      bind, Except.bind]
  · simp [from_dict, oC1x0, regC1x, env0, dC1x,
      split_ordered_and_unordered_attributes, collect_all_attributes, fdNames,
      fdSerStep, assignAttr, lookupAttr, dictSet, generic_parsable_type,
      generic_parsable_module, bind, Except.bind]
  · simp [equals, eqFold, equals_property_name, equalsPropertyValues, hasAttrVal,
      getAttrVal, lookupAttr, isNoneV, pyType, regC1x, oC1x, oC1x0]

def regC1w : Registration :=
  { serializable := ["x"], enum := [], parsable := [], specialized := [],
    dictOf := [], listOf := [], desiredOrder := [], hasQuery := [],
    settable := ["x"], enumDomains := [] }

def oC1w : GPObj :=
  { cls := "P", mod := "geo", reg := regC1w, attrs := [("x", .vInt 5)] }

def oC1w0 : GPObj := { cls := "P", mod := "geo", reg := regC1w, attrs := [] }

theorem C1_round_trip_witness :
    ∃ d o', to_dict env0 oC1w = .ok d ∧ from_dict env0 oC1w0 d = .ok o' ∧
      equals oC1w o' = true := by
  refine C1_round_trip env0 oC1w oC1w0 ?_ rfl rfl
  rw [Ready]
  refine ⟨⟨?_, ?_, ?_, ?_⟩, ?_, ?_, ?_, ?_, ?_, ?_⟩
  · decide
  · decide
  · decide
  · decide
  · intro n hn
    simp [oC1w, regC1w] at hn
    subst hn
    decide
  · intro n hn
    simp [oC1w, regC1w] at hn
  · show ParsReady env0 oC1w.attrs []
    rw [ParsReady]
    trivial
  · show DictReady env0 oC1w.attrs []
    rw [DictReady]
    trivial
  · show ListReady env0 oC1w.attrs []
    rw [ListReady]
    trivial
  · intro n hn
    simp [oC1w, regC1w] at hn

end MLOnt
